import Mathlib

/-!
The graph-hmm tool (SPAdes): path reification, overhang aggregation, neighbourhoods

A shallow embedding of the parts of `projects/graph-hmm/main.cpp` that turn
cursor sequences into edge paths (`to_path`), glue edge sequences
(`MergeSequences`), aggregate the overhangs of HMM hits (`MatchedEdges`),
extract the neighbourhoods of matched edges (`ExtractNeighbourhoods`) and join
them (the "Joining components" loop of `main`).

Conventions of the embedding.
* `std::vector<T>` is `List T`; `push_back` appends at the end, `back()` is the
  last element.
* `std::unordered_set<VertexId>` is `Finset V`.
* `std::unordered_map<K, T>` is an association list `List (K × T)` read in
  iteration order; keys are unique in every map the program builds.
* `int` values are `Int`: signed overflow is undefined behaviour in C++ and the
  quantities involved are bounded by sequence lengths.
-/

set_option linter.unusedSectionVars false

namespace Spades

/-! ## Cursors and `to_path` (main.cpp, lines 150-172) -/

/-- The members of a `GraphCursor` that `to_path` uses. -/
structure CursorOps (C E : Type) where
  /-- The method `is_empty()`. -/
  is_empty : C → Bool
  /-- The method `edge()`. -/
  edge : C → E
  /-- The method `edges()`. -/
  edges : C → List E

section ToPath

variable {C E : Type} [DecidableEq E]

/-- The inner loop `for (auto e : it->edges()) if (e != path.back()) path.push_back(e);`
started with the path `path`. -/
def push_edges (es : List E) (path : List E) : List E :=
  es.foldl (fun p e => if p.getLast? ≠ some e then p ++ [e] else p) path

/-- One iteration of the second loop of `to_path` on the cursor `c`. -/
def to_path_step (ops : CursorOps C E) (path : List E) (c : C) : List E :=
  if ops.is_empty c then path
  else if path.length = 0 ∨ path.getLast? ≠ some (ops.edge c) then path ++ [ops.edge c]
  else push_edges (ops.edges c) path

/-- The function `to_path`: the first loop skips the leading empty cursors, the second
one runs `to_path_step` over the remaining cursors, starting from the empty path. -/
def to_path (ops : CursorOps C E) (cpath : List C) : List E :=
  (cpath.dropWhile ops.is_empty).foldl (to_path_step ops) []

/-- The edges of the non-empty cursors of a cursor sequence, in order. -/
def cursor_edges (ops : CursorOps C E) (cpath : List C) : List E :=
  (cpath.filter (fun c => !ops.is_empty c)).map ops.edge

/-- Specification side of C1: every run of consecutive equal elements is collapsed to a
single element. -/
def collapse_runs : List E → List E
  | [] => []
  | [a] => [a]
  | a :: b :: l => if a = b then collapse_runs (b :: l) else a :: collapse_runs (b :: l)

end ToPath

/-- Nucleotide cursors: `none` is the empty cursor, `some (e, i)` is position `i` of the
edge `e`; `edges()` is the one-element list of `edge()`. -/
def nuclOps (E : Type) [Inhabited E] : CursorOps (Option (E × Nat)) E where
  is_empty := fun c => c.isNone
  edge := fun c => (c.getD (default, 0)).1
  edges := fun c => [(c.getD (default, 0)).1]

/-- Cursors that straddle several edges (the amino-acid case): `none` is the empty cursor,
`some (e, es)` has `edge() = e` and `edges() = es`. -/
def spanOps (E : Type) [Inhabited E] : CursorOps (Option (E × List E)) E where
  is_empty := fun c => c.isNone
  edge := fun c => (c.getD (default, [])).1
  edges := fun c => (c.getD (default, [])).2

/-! ## The graph and `MergeSequences` (main.cpp, lines 262-272) -/

/-- The part of the graph API that the embedded code reads: `EdgeStart`, `EdgeEnd`,
`EdgeNucls` (a `Sequence` is a list of letters) and `k()`. -/
structure Graph (V E : Type) where
  /-- The start vertex of an edge. -/
  EdgeStart : E → V
  /-- The end vertex of an edge. -/
  EdgeEnd : E → V
  /-- The nucleotide sequence of an edge. -/
  EdgeNucls : E → List Char
  /-- The overlap `k`. -/
  k : Nat

/-- How a call ends: with a value, with a violated `VERIFY`, or in an access that C++ leaves
undefined (`continuous_path[0]` of an empty vector). -/
inductive Outcome (α : Type) where
  | ok (a : α)
  | verify_failed
  | undefined
  deriving DecidableEq, Repr

/-- Modelled from the spec: `MergeOverlappingSequences`, which is not under src/. Following
§4.5, it concatenates the first sequence with the suffix of every further sequence after
skipping the `overlap` first letters. -/
def MergeOverlappingSequences (ss : List (List Char)) (overlap : Nat) : List Char :=
  match ss with
  | [] => []
  | s :: rest => rest.foldl (fun acc t => acc ++ t.drop overlap) s

section Merge

variable {V E : Type} [DecidableEq V]

/-- The loop `for (i = 1; i < size; ++i)` of `MergeSequences`: `prev` is
`continuous_path[i - 1]`, `rest` holds `continuous_path[i], ...` and `acc` is `path_sequences`. -/
def collect_sequences (g : Graph V E) :
    E → List E → List (List Char) → Outcome (List (List Char))
  | _, [], acc => Outcome.ok acc
  | prev, e :: rest, acc =>
    if g.EdgeEnd prev = g.EdgeStart e then collect_sequences g e rest (acc ++ [g.EdgeNucls e])
    else Outcome.verify_failed

/-- The function `MergeSequences`. -/
def MergeSequences (g : Graph V E) (continuous_path : List E) : Outcome (List Char) :=
  match continuous_path with
  | [] => Outcome.undefined
  | e0 :: rest =>
    match collect_sequences g e0 rest [g.EdgeNucls e0] with
    | Outcome.ok path_sequences => Outcome.ok (MergeOverlappingSequences path_sequences g.k)
    | Outcome.verify_failed => Outcome.verify_failed
    | Outcome.undefined => Outcome.undefined

/-- Adjacency of a path: `end(path[i-1]) = start(path[i])` for all `i ≥ 1`. -/
def adjacent_path (g : Graph V E) (path : List E) : Prop :=
  List.Chain' (fun a b => g.EdgeEnd a = g.EdgeStart b) path

/-- Modelled from the spec: membership in `next` of a nucleotide cursor (the cursor layer is
not under src/). By §3, `next((e,i))` is `{(e, i+1)}` if `i+1 < |nucls(e)|` and otherwise
`{(e', k) : e' ∈ out(end(e))}`. -/
def cursor_next [DecidableEq E] (g : Graph V E) (c c' : E × Nat) : Bool :=
  if c.2 + 1 < (g.EdgeNucls c.1).length then decide (c' = (c.1, c.2 + 1))
  else decide (g.EdgeStart c'.1 = g.EdgeEnd c.1) && decide (c'.2 = g.k)

/-- Modelled from the spec: `letter((e,i)) = nucls(e)[i]` (the cursor layer is not under
src/). -/
def cursor_letter (g : Graph V E) (c : E × Nat) : Char :=
  (g.EdgeNucls c.1).getD c.2 'N'

/-- Modelled from the spec: `str(path)`, the concatenation of `letter(c)` over the non-empty
cursors of a path (the search result object is not under src/). -/
def cursor_str (g : Graph V E) (p : List (Option (E × Nat))) : List Char :=
  (p.filterMap id).map (cursor_letter g)

/-- A cursor sequence is strictly consecutive: each non-empty cursor is in `next` of the
non-empty cursor before it. -/
def strictly_consecutive [DecidableEq E] (g : Graph V E) (p : List (Option (E × Nat))) : Prop :=
  List.Chain' (fun c c' => cursor_next g c c' = true) (p.filterMap id)

/-- A cursor sequence is free of overlapping duplications: two consecutive non-empty cursors
on the same edge are consecutive positions of that edge (the walk never re-enters, through a
loop, the edge it is leaving). -/
def no_overlapping_duplication [DecidableEq E] (p : List (Option (E × Nat))) : Prop :=
  List.Chain' (fun c c' : E × Nat => c.1 = c'.1 → c'.2 = c.2 + 1) (p.filterMap id)

end Merge

/-! ## `MatchedEdges` (main.cpp, lines 178-252) -/

/-- A domain of a hit, as the matcher reports it. -/
structure Domain where
  /-- The length of the HMM. -/
  M : Int
  /-- The length of the sequence. -/
  L : Int
  /-- The matched interval of the sequence. -/
  seqpos : Int × Int
  /-- The matched interval of the HMM. -/
  hmmpos : Int × Int
  deriving DecidableEq, Repr

/-- A hit of the matcher. -/
structure Hit where
  /-- The flag `reported()`. -/
  reported : Bool
  /-- The flag `included()`. -/
  included : Bool
  /-- The name under which the sequence was fed to the matcher. -/
  name : String
  /-- The domains of the hit. -/
  domains : List Domain
  deriving DecidableEq, Repr

/-- The type `EdgeAlnInfo`: `std::unordered_map<EdgeId, std::pair<int, int>>`. -/
abbrev EdgeAlnInfo (E : Type) := List (E × (Int × Int))

/-- The value of a decimal digit. -/
def digit_value (c : Char) : Nat := c.toNat - 48

/-- The test `isspace` of the C locale: space, and the characters 9 to 13. -/
def isspace (c : Char) : Bool :=
  c.toNat = 32 || (9 ≤ c.toNat && c.toNat ≤ 13)

/-- The function `std::stoull` in base 10: skip leading white space, read an optional sign and
the longest run of digits; `none` stands for the exception thrown when there is no digit
(`invalid_argument`) or the value exceeds 64 bits (`out_of_range`). -/
def stoull (s : String) : Option Nat :=
  let s1 := s.data.dropWhile isspace
  let neg := s1.head? = some '-'
  let s2 := if s1.head? = some '-' ∨ s1.head? = some '+' then s1.tail else s1
  let ds := s2.takeWhile Char.isDigit
  let v := ds.foldl (fun acc c => 10 * acc + digit_value c) 0
  if ds = [] then none
  else if 2 ^ 64 ≤ v then none
  else some (if neg then (2 ^ 64 - v) % 2 ^ 64 else v)

/-- The overhangs `{loverhang, roverhang}` of a domain (lines 221-225). -/
def overhangs (d : Domain) : Int × Int :=
  let seqpos := d.seqpos
  let hmmpos := d.hmmpos
  let roverhang := (d.M - hmmpos.2) - (d.L - seqpos.2)
  let loverhang := hmmpos.1 - seqpos.1
  (loverhang, roverhang)

/-- Lines 231-236: each component of `entry` is raised to the new overhang when it is
smaller. -/
def raise_entry (entry lr : Int × Int) : Int × Int :=
  (if entry.1 < lr.1 then lr.1 else entry.1, if entry.2 < lr.2 then lr.2 else entry.2)

/-- The entry of an edge after the overhangs `ps` have been merged, in order, into the entry
`o` (`none`: no entry yet). -/
def merged_entry (o : Option (Int × Int)) (ps : List (Int × Int)) : Option (Int × Int) :=
  ps.foldl (fun o p => match o with
    | none => some p
    | some q => some (raise_entry q p)) o

section Matched

variable {E : Type} [DecidableEq E]

/-- Lookup in a map: the value stored under the key `e`, if any. -/
def map_find {T : Type} : List (E × T) → E → Option T
  | [], _ => none
  | kv :: m, e => if kv.1 = e then some kv.2 else map_find m e

/-- The method `count` of a map, as a test. -/
def map_has {T : Type} (m : List (E × T)) (e : E) : Bool :=
  m.any (fun kv => decide (kv.1 = e))

/-- Lines 227-237: merge the overhangs `(loverhang, roverhang)` of one domain hitting `e`
into `match_edges`. -/
def merge_overhang (match_edges : EdgeAlnInfo E) (e : E) (lr : Int × Int) : EdgeAlnInfo E :=
  if !map_has match_edges e then match_edges ++ [(e, lr)]
  else match_edges.map (fun kv => if kv.1 = e then (kv.1, raise_entry kv.2 lr) else kv)

/-- The edge `edges[std::stoull(hit.name())]`; `none` when `stoull` throws or the index is out
of range. -/
def hit_edge (edges : List E) (hit : Hit) : Option E :=
  match stoull hit.name with
  | none => none
  | some idx => edges[idx]?

/-- The body of the loop over the hits (lines 211-241). -/
def process_hit (edges : List E) (match_edges : EdgeAlnInfo E) (hit : Hit) :
    Option (EdgeAlnInfo E) :=
  if !hit.reported || !hit.included then some match_edges
  else
    match hit_edge edges hit with
    | none => none
    | some e => some (hit.domains.foldl (fun m d => merge_overhang m e (overhangs d)) match_edges)

/-- The function `MatchedEdges`, from the hits the matcher returned (`matcher.hits()`): the
loop of lines 210-241. `none` when resolving a hit name fails. -/
def MatchedEdges (edges : List E) (hits : List Hit) : Option (EdgeAlnInfo E) :=
  hits.foldlM (process_hit edges) []

/-- The overhangs of all domains of all reported and included hits whose name resolves to
the edge `e`, in visiting order. -/
def overhangs_on (edges : List E) (hits : List Hit) (e : E) : List (Int × Int) :=
  (hits.filter (fun h => h.reported && h.included && decide (hit_edge edges h = some e))).flatMap
    (fun h => h.domains.map overhangs)

end Matched

/-! ## `ExtractNeighbourhoods` (main.cpp, lines 281-318) and the joining loop (385-397) -/

section Neighbourhoods

variable {V E : Type} [DecidableEq V] [DecidableEq E]

/-- The statement `neighbourhoods[e].insert(vs.begin(), vs.end())`: `operator[]` creates the
entry of `e` when it is missing. -/
def nb_insert (neighbourhoods : List (E × Finset V)) (e : E) (vs : Finset V) :
    List (E × Finset V) :=
  if map_has neighbourhoods e then
    neighbourhoods.map (fun kv => if kv.1 = e then (kv.1, kv.2 ∪ vs) else kv)
  else neighbourhoods ++ [(e, vs)]

/-- The body of the loop of `ExtractNeighbourhoods`. The bounded traversals are not under
src/: `fdijkstra bound v` stands for the vertices `ReachedVertices()` returns after
`CreateEdgeBoundedDijkstra(graph, bound).Run(v)`, and `bdijkstra bound v` for the same with
`CreateBackwardEdgeBoundedDijkstra`. -/
def extract_step (g : Graph V E) (fdijkstra bdijkstra : Int → V → List V) (mult : Int)
    (neighbourhoods : List (E × Finset V)) (entry : E × (Int × Int)) : List (E × Finset V) :=
  let e := entry.1
  let overhangs : Int × Int := (entry.2.1 * mult, entry.2.2 * mult)
  let fvertices := if overhangs.2 > 0 then fdijkstra overhangs.2 (g.EdgeEnd e) else []
  let bvertices := if overhangs.1 > 0 then bdijkstra overhangs.1 (g.EdgeStart e) else []
  let n1 := nb_insert neighbourhoods e fvertices.toFinset
  let n2 := nb_insert n1 e bvertices.toFinset
  let n3 := nb_insert n2 e {g.EdgeEnd e}
  nb_insert n3 e {g.EdgeStart e}

/-- The function `ExtractNeighbourhoods`. -/
def ExtractNeighbourhoods (g : Graph V E) (fdijkstra bdijkstra : Int → V → List V)
    (matched_edges : EdgeAlnInfo E) (mult : Int) : List (E × Finset V) :=
  matched_edges.foldl (extract_step g fdijkstra bdijkstra mult) []

/-- The inner loop of the joining pass for the entry `it` whose set is `cur`, over the later
entries: an entry whose leader starts or ends in `cur` is united into `cur` and erased. The
result is the final set of `it` and the later entries that remain. -/
def join_inner (g : Graph V E) (cur : Finset V) :
    List (E × Finset V) → Finset V × List (E × Finset V)
  | [] => (cur, [])
  | to_check :: rest =>
    if g.EdgeStart to_check.1 ∈ cur ∨ g.EdgeEnd to_check.1 ∈ cur then
      join_inner g (cur ∪ to_check.2) rest
    else ((join_inner g cur rest).1, to_check :: (join_inner g cur rest).2)

/-- The outer loop of the joining pass, with a bound on the number of its iterations. -/
def join_loop (g : Graph V E) : Nat → List (E × Finset V) → List (E × Finset V)
  | 0, nbs => nbs
  | _ + 1, [] => []
  | fuel + 1, it :: rest =>
    (it.1, (join_inner g it.2 rest).1) :: join_loop g fuel (join_inner g it.2 rest).2

/-- The joining pass of `main` (lines 387-396): the outer loop runs at most once per entry. -/
def join (g : Graph V E) (neighbourhoods : List (E × Finset V)) : List (E × Finset V) :=
  join_loop g neighbourhoods.length neighbourhoods

/-- No entry contains the start or the end of the leader of a later entry. -/
def no_later_overlap (g : Graph V E) (nbs : List (E × Finset V)) : Prop :=
  List.Pairwise (fun a b => g.EdgeStart b.1 ∉ a.2 ∧ g.EdgeEnd b.1 ∉ a.2) nbs

/-- The joining of one neighbourhood `b` to the neighbourhoods kept so far, as the description
of the pass one neighbourhood at a time has it: `b` is united into the first kept neighbourhood
whose current set contains the start or the end of the leader of `b`, and it is kept as a new
last neighbourhood when there is none. This definition follows the description, not the loops
of `main`; it is compared with `join`. -/
def absorb (g : Graph V E) : List (E × Finset V) → E × Finset V → List (E × Finset V)
  | [], b => [b]
  | A :: kept, b =>
    if g.EdgeStart b.1 ∈ A.2 ∨ g.EdgeEnd b.1 ∈ A.2 then (A.1, A.2 ∪ b.2) :: kept
    else A :: absorb g kept b

/-- The description of the joining pass one neighbourhood at a time, in iteration order,
starting with no neighbourhood kept. It follows the description, not the loops of `main`. -/
def join_one_at_a_time (g : Graph V E) (neighbourhoods : List (E × Finset V)) :
    List (E × Finset V) :=
  neighbourhoods.foldl (absorb g) []

end Neighbourhoods

/-- A graph for examples: vertices and edges are numbers, edge `e` runs from `st e` to
`en e`, every edge carries the letters `ACGT` and `k = 1`. -/
def exampleGraph (st en : Nat → Nat) : Graph Nat Nat where
  EdgeStart := st
  EdgeEnd := en
  EdgeNucls := fun _ => ['A', 'C', 'G', 'T']
  k := 1

/-- A chain of edges: edge `e` runs from vertex `e` to vertex `e + 1`. -/
def chainGraph : Graph Nat Nat := exampleGraph (fun e => e) (fun e => e + 1)

/-- A graph with the edges `0 : 0 → 1`, `1 : 5 → 6` and `2 : 1 → 2`. -/
def forkGraph : Graph Nat Nat :=
  exampleGraph (fun e => if e = 0 then 0 else if e = 1 then 5 else 1)
    (fun e => if e = 0 then 1 else if e = 1 then 6 else 2)

/-- Three neighbourhoods over `forkGraph`, in iteration order: the one of edge 0, the one of
edge 1, and the one of edge 2, which reaches the vertex 5. -/
def forkNeighbourhoods : List (Nat × Finset Nat) :=
  [(0, {0, 1}), (1, {5, 6}), (2, {1, 2, 5})]

/-- The forward bounded traversal of the chain graph, whose edges have the weight `4 - 1 = 3`:
from `v` it reaches `v, v + 1, ...` as far as the bound allows. -/
def chainForward (bound : Int) (v : Nat) : List Nat :=
  (List.range (bound.toNat / 3 + 1)).map (fun i => v + i)

/-- The backward bounded traversal of the chain graph: from `v` it reaches `v, v - 1, ...` as
far as the bound allows. -/
def chainBackward (bound : Int) (v : Nat) : List Nat :=
  (List.range (min (bound.toNat / 3) v + 1)).map (fun i => v - i)

/-- Three hits: two on the sequence 1 (frames 0 and 2), the first with two domains, and one
on the sequence 0 that is reported but not included. -/
def exampleHits : List Hit :=
  [⟨true, true, "1_0", [⟨9, 30, (4, 8), (2, 5)⟩, ⟨9, 30, (1, 30), (3, 7)⟩]⟩,
    ⟨true, false, "0_1", [⟨9, 30, (1, 2), (3, 4)⟩]⟩,
    ⟨true, true, "1_2", [⟨9, 30, (5, 29), (1, 9)⟩]⟩]

/-- A walk over the edges 1 and 2 of the chain graph, padded with empty cursors: all four
positions of edge 1, then the positions 1, 2, 3 of edge 2. -/
def exampleWalk : List (Option (Nat × Nat)) :=
  [none, some (1, 0), some (1, 1), some (1, 2), some (1, 3), some (2, 1), some (2, 2),
    some (2, 3), none]

/-! ## The calls of `main` (main.cpp, lines 378-397) -/

section MainCalls

variable {V E : Type} [DecidableEq V] [DecidableEq E]

/-- Lines 379-383 of `main`: `hmm_in_aas` is `hmm.abc()->K == 20`, and `ExtractNeighbourhoods`
is called with the multiplier `hmm_in_aas ? 6 : 2`. `K` is the size of the alphabet of the
HMM. -/
def main_neighbourhoods (g : Graph V E) (fdijkstra bdijkstra : Int → V → List V)
    (matched_edges : EdgeAlnInfo E) (K : Int) : List (E × Finset V) :=
  let hmm_in_aas : Bool := decide (K = 20)
  ExtractNeighbourhoods g fdijkstra bdijkstra matched_edges (if hmm_in_aas then 6 else 2)

end MainCalls

/-! ## The names of the sequences fed to the matcher (main.cpp, lines 185-205) -/

/-- The function `std::to_string` on an unsigned integer: its decimal digits. -/
def to_string (i : Nat) : String := Nat.repr i

/-- Line 189: the name `ref` of the sequence of `edges[i]` for a nucleotide HMM. -/
def hit_name (i : Nat) : String := to_string i

/-- Line 200: the name `ref_shift = ref + "_" + std::to_string(shift)` of the translation of
`edges[i]` in the reading frame `shift`. -/
def hit_name_shift (i shift : Nat) : String := to_string i ++ "_" ++ to_string shift

/-- The value of a run of decimal digits, as `stoull` accumulates it. -/
def digits_value (ds : List Char) : Nat :=
  ds.foldl (fun acc c => 10 * acc + digit_value c) 0

/-! ## The search loop of `main` and the file of the paths (main.cpp, lines 399-500) -/

/-- The structure `PathInfo`. -/
structure PathInfo (E : Type) where
  /-- The leader edge of the neighbourhood. -/
  leader : E
  /-- The rank of the path among the paths of its search. -/
  priority : Nat
  /-- The emitted string; empty for a whole edge. -/
  seq : String
  /-- The edge path. -/
  path : List E
  deriving DecidableEq, Repr

/-- The variables that the loop over the neighbourhoods updates: `results`,
`resultant_paths`, and (as a trace) the leaders for which `run_search` was called. -/
structure SearchState (E Cost : Type) where
  /-- The vector `results`. -/
  results : List (PathInfo E)
  /-- The vector `resultant_paths`. -/
  resultant_paths : List (Cost × String)
  /-- The leaders of the components that were searched, in order. -/
  searched : List E

section SearchLoop

variable {V E C Cost : Type} [DecidableEq E]

/-- The loop of `run_search` over `top_paths` (lines 422-427): `idx` is the running index,
the pair holds `local_results` and `resultant_paths`. The string function `str` is
`top_paths.str`. -/
def run_search_loop (ops : CursorOps C E) (str : List C → String) (e : E) :
    Nat → List (List C × Cost) → List (PathInfo E) × List (Cost × String) →
      List (PathInfo E) × List (Cost × String)
  | _, [], acc => acc
  | idx, kv :: rest, acc =>
    run_search_loop ops str e (idx + 1) rest
      (acc.1 ++ [⟨e, idx, str kv.1, to_path ops kv.1⟩], acc.2 ++ [(kv.2, str kv.1)])

/-- The body of the loop over the neighbourhoods (lines 434-487). The component and the search
engine are not under src/: `e_size vs` stands for `component.e_size()` of the component built
from the vertex set `vs`, and `top_paths vs` for the paths with their costs that
`find_best_path(fees, initial).top_k(cfg.top)` returns on that component. -/
def search_step (ops : CursorOps C E) (str : List C → String) (e_size : Finset V → Nat)
    (top_paths : Finset V → List (List C × Cost)) (min_size max_size : Nat)
    (st : SearchState E Cost) (kv : E × Finset V) : SearchState E Cost :=
  let e := kv.1
  if e_size kv.2 / 2 < min_size then
    { results := st.results ++ [⟨e, 0, "", [e]⟩],
      resultant_paths := st.resultant_paths,
      searched := st.searched }
  else if e_size kv.2 / 2 > max_size then st
  else
    { results := st.results
        ++ (run_search_loop ops str e 0 (top_paths kv.2) ([], st.resultant_paths)).1,
      resultant_paths :=
        (run_search_loop ops str e 0 (top_paths kv.2) ([], st.resultant_paths)).2,
      searched := st.searched ++ [e] }

/-- The loop over the neighbourhoods of one HMM, from empty `results` and
`resultant_paths`. -/
def search_loop (ops : CursorOps C E) (str : List C → String) (e_size : Finset V → Nat)
    (top_paths : Finset V → List (List C × Cost)) (min_size max_size : Nat)
    (neighbourhoods : List (E × Finset V)) : SearchState E Cost :=
  neighbourhoods.foldl (search_step ops str e_size top_paths min_size max_size) ⟨[], [], []⟩

/-- The records that the search of one component contributes to `resultant_paths`. -/
def search_records (str : List C → String) (top_paths : Finset V → List (List C × Cost))
    (vs : Finset V) : List (Cost × String) :=
  (top_paths vs).map (fun kv => (kv.2, str kv.1))

end SearchLoop

section SortRecords

variable {Cost : Type} [LinearOrder Cost]

/-- The order of `std::pair<double, std::string>` that `std::sort` uses, as a non-strict
relation: by cost, and by the string among equal costs. The costs are taken in a linear
order (no NaN). -/
def record_le (a b : Cost × String) : Prop :=
  a.1 < b.1 ∨ (a.1 = b.1 ∧ a.2 ≤ b.2)

instance record_le_decidable : DecidableRel (record_le : Cost × String → Cost × String → Prop) :=
  fun a b => inferInstanceAs (Decidable (a.1 < b.1 ∨ (a.1 = b.1 ∧ a.2 ≤ b.2)))

instance record_le_total : IsTotal (Cost × String) record_le where
  total a b := by
    unfold record_le
    rcases lt_trichotomy a.1 b.1 with h | h | h
    · exact Or.inl (Or.inl h)
    · rcases le_total a.2 b.2 with h2 | h2
      · exact Or.inl (Or.inr ⟨h, h2⟩)
      · exact Or.inr (Or.inr ⟨h.symm, h2⟩)
    · exact Or.inr (Or.inl h)

instance record_le_trans : IsTrans (Cost × String) record_le where
  trans a b c := by
    unfold record_le
    rintro (h1 | ⟨h1, h1'⟩) (h2 | ⟨h2, h2'⟩)
    · exact Or.inl (lt_trans h1 h2)
    · exact Or.inl (h2 ▸ h1)
    · exact Or.inl (h1 ▸ h2)
    · exact Or.inr ⟨h1.trans h2, le_trans h1' h2'⟩

instance record_le_antisymm : IsAntisymm (Cost × String) record_le where
  antisymm a b := by
    unfold record_le
    rintro (h1 | ⟨h1, h1'⟩) (h2 | ⟨h2, h2'⟩)
    · exact absurd h2 (lt_asymm h1)
    · exact absurd h1 (by rw [h2]; exact lt_irrefl _)
    · exact absurd h2 (by rw [h1]; exact lt_irrefl _)
    · exact Prod.ext h1 (le_antisymm h1' h2')

/-- The call `std::sort(resultant_paths.begin(), resultant_paths.end())`: the order is linear,
so the sorted arrangement of the records is unique, and it is computed here by insertion. -/
def std_sort (resultant_paths : List (Cost × String)) : List (Cost × String) :=
  resultant_paths.insertionSort record_le

/-- Lines 493-500: the records written to the `.paths.fa` file, in order; `none` when no file
is written. -/
def paths_fa (save : Bool) (resultant_paths : List (Cost × String)) :
    Option (List (Cost × String)) :=
  if save = true ∧ (std_sort resultant_paths).length ≠ 0 then some (std_sort resultant_paths)
  else none

end SortRecords

/-! ## The paths to rescore (main.cpp, lines 366, 492-555) -/

section Rescore

variable {V E : Type} [DecidableEq V] [DecidableEq E]

/-- The method `insert` of a `std::unordered_set`, kept as a duplicate-free list. -/
def set_insert {T : Type} [DecidableEq T] (s : List T) (x : T) : List T :=
  if x ∈ s then s else s ++ [x]

/-- Lines 514-517 for one result: the pair holds `to_rescore_local` and `to_rescore`. -/
def rescore_step (rescore : Bool) (sets : List (List E) × List (List E))
    (result : PathInfo E) : List (List E) × List (List E) :=
  if rescore && decide (result.path.length > 0) then
    (set_insert sets.1 result.path, set_insert sets.2 result.path)
  else sets

/-- Lines 492-520: `to_rescore_local` starts empty, and the results are visited only when
`cfg.save` is set and there is a result. The result is `to_rescore_local` and the updated
`to_rescore`. -/
def collect_rescore (save rescore : Bool) (results : List (PathInfo E))
    (to_rescore : List (List E)) : List (List E) × List (List E) :=
  if save && decide (results.length ≠ 0) then
    results.foldl (rescore_step rescore) ([], to_rescore)
  else ([], to_rescore)

/-- Lines 523-536 and 542-555: the calls `MergeSequences(graph, entry)` made while a file of
edge paths is written, in the order of the entries, with how each call ends. -/
def edges_fa (g : Graph V E) (rescore : Bool) (paths : List (List E)) :
    List (Outcome (List Char)) :=
  if rescore && decide (paths.length ≠ 0) then paths.map (MergeSequences g) else []

/-- The state of the loop over the HMMs, as far as rescoring goes: the calls of
`MergeSequences` made so far, and `to_rescore`. -/
def rescore_hmm (g : Graph V E) (save rescore : Bool)
    (st : List (Outcome (List Char)) × List (List E)) (results : List (PathInfo E)) :
    List (Outcome (List Char)) × List (List E) :=
  (st.1 ++ edges_fa g rescore (collect_rescore save rescore results st.2).1,
    (collect_rescore save rescore results st.2).2)

/-- All calls of `MergeSequences` that `main` makes: `to_rescore` starts empty (line 366),
every HMM with its `results` writes its local file, and the file of all paths is written
after the loop. -/
def main_rescore (g : Graph V E) (save rescore : Bool)
    (hmm_results : List (List (PathInfo E))) : List (Outcome (List Char)) :=
  (hmm_results.foldl (rescore_hmm g save rescore) ([], [])).1
    ++ edges_fa g rescore (hmm_results.foldl (rescore_hmm g save rescore) ([], [])).2

end Rescore

/-! ## `ExtentionAnalyzer::FindCoveredEdges` (weight_counter.hpp, lines 58-69, 176-201) -/

section Covered

variable {W : Type}

/-- One iteration of the loop of `FindCoveredEdges` for the position `i`: `ideal i` stands for
`lib_.IdealPairedInfo(path[i], candidate, (int) path.LengthAt(i))` and `gr_zero w` for
`math::gr(w, 0.)`. The block of the `if` is empty and the `push_back` comes after it. -/
def covered_step (ideal : Nat → W) (gr_zero : W → Bool) (edges : List (Nat × W)) (i : Nat) :
    List (Nat × W) :=
  let w := ideal i
  let after_if := if gr_zero w then edges else edges
  after_if ++ [(i, w)]

/-- The function `FindCoveredEdges` on a path of `size` edges: `edges` is cleared, and the
loop runs over `i = size - 1, ..., 0`. An entry `(e_, pi_)` is a pair. -/
def FindCoveredEdges (ideal : Nat → W) (gr_zero : W → Bool) (size : Nat) : List (Nat × W) :=
  (List.range size).reverse.foldl (covered_step ideal gr_zero) []

/-- The divisors `iter->pi_` of the statement `w /= iter->pi_` in `CountSingleLib`, in the
order of the loop: the entries found in `excluded_edges_` are skipped, and the division is
made when `normalizeWeight_` is set. -/
def CountSingleLib_divisors (ideal : Nat → W) (gr_zero : W → Bool) (size : Nat)
    (excluded : Nat → Bool) (normalizeWeight : Bool) : List W :=
  if normalizeWeight then
    ((FindCoveredEdges ideal gr_zero size).filter (fun entry => !excluded entry.1)).map Prod.snd
  else []

end Covered

/-! ## `ParallelSimpleBRFunctor` and `ParallelCompressor`
(parallel_simplification_algorithms.hpp, lines 136-156 and 359-368) -/

section MultiEdge

variable {V E : Type} [DecidableEq V]

/-- One iteration of the loop of `MultiEdgeDestinations`: the pair holds `answer` and
`destinations`. -/
def multi_edge_step (g : Graph V E) (st : List V × Finset V) (e : E) : List V × Finset V :=
  (if g.EdgeEnd e ∈ st.2 then st.1 ++ [g.EdgeEnd e] else st.1, insert (g.EdgeEnd e) st.2)

/-- The function `MultiEdgeDestinations`; `outgoing v` stands for `g_.OutgoingEdges(v)`. -/
def MultiEdgeDestinations (g : Graph V E) (outgoing : V → List E) (v : V) : List V :=
  ((outgoing v).foldl (multi_edge_step g) ([], ∅)).1

/-- The function `SingleMultiEdgeDestination`; `none` stands for `VertexId(0)`. -/
def SingleMultiEdgeDestination (g : Graph V E) (outgoing : V → List E) (v : V) : Option V :=
  if (MultiEdgeDestinations g outgoing v).length = 1 then
    (MultiEdgeDestinations g outgoing v).head?
  else none

end MultiEdge

section Compressor

variable {E : Type} [LinearOrder E]

/-- The method `insert` of a `std::set`, kept as an ascending list. -/
def ordered_set_insert (s : List E) (e : E) : List E :=
  if e ∈ s then s else s.orderedInsert (· ≤ ·) e

/-- One iteration of the loop of `EdgesToDelete` for `e = path[i + 1]`. -/
def edges_to_delete_step (conjugate : E → E) (edgesToDelete : List E) (e : E) : List E :=
  if conjugate e ∉ edgesToDelete then ordered_set_insert edgesToDelete e else edgesToDelete

/-- The function `EdgesToDelete`; on the empty path the access `path[0]` is undefined. -/
def EdgesToDelete (conjugate : E → E) (path : List E) : Outcome (List E) :=
  match path with
  | [] => Outcome.undefined
  | e0 :: rest =>
    Outcome.ok (rest.foldl (edges_to_delete_step conjugate) (ordered_set_insert [] e0))

end Compressor

/-! ## `WeightDEWrapper` (utils.hpp, lines 321-380) -/

/-- The arithmetic on `double` that `WeightDEWrapper` uses. -/
structure DoubleOps (D : Type) where
  /-- The conversion `(double)` of a `size_t`. -/
  of_size : Nat → D
  /-- The conversion of an `int` operand. -/
  of_int : Int → D
  /-- Addition. -/
  add : D → D → D
  /-- Subtraction. -/
  sub : D → D → D
  /-- Multiplication. -/
  mul : D → D → D
  /-- Division. -/
  div : D → D → D
  /-- The test `math::le(x, 1.)`. -/
  le_one : D → Bool

/-- The fields of a `WeightDEWrapper`. -/
structure WeightDEWrapper (D : Type) where
  /-- The vector `new_hist`. -/
  new_hist : List D
  /-- The field `left_x`. -/
  left_x : Int
  /-- The field `insert_size`. -/
  insert_size : Int

section Weight

variable {D : Type}

/-- The values that the inner loop `for (int i = prev + 1; i <= x; ++i)` of `ExtendLinear`
pushes. -/
def extend_segment (ops : DoubleOps D) (sum_weight : Nat) (prev : Int) (prev_val : Nat)
    (x : Int) (y : Nat) : List D :=
  let tan := ops.div (ops.sub (ops.of_size y) (ops.of_size prev_val)) (ops.of_int (x - prev))
  (List.range (x - prev).toNat).map (fun (j : Nat) =>
    ops.div
      (ops.add (ops.of_size prev_val) (ops.mul tan (ops.of_int (prev + 1 + (j : Int) - prev))))
      (ops.of_size sum_weight))

/-- The second loop of `ExtendLinear` (lines 346-358) over the remaining entries of the
histogram, with its `VERIFY(prev < x)`. -/
def extend_loop (ops : DoubleOps D) (sum_weight : Nat) :
    Int → Nat → List (Int × Nat) → List D → Outcome (List D)
  | _, _, [], new_hist => Outcome.ok new_hist
  | prev, prev_val, entry :: rest, new_hist =>
    if prev < entry.1 then
      extend_loop ops sum_weight entry.1 entry.2 rest
        (new_hist ++ extend_segment ops sum_weight prev prev_val entry.1 entry.2)
    else Outcome.verify_failed

/-- The constructor of `WeightDEWrapper`, which calls `ExtendLinear`; the histogram is a
`std::map`, read in ascending order of its keys, and `insert_size` is `(int) IS`. -/
def WeightDEWrapper.create (ops : DoubleOps D) (hist : List (Int × Nat)) (insert_size : Int) :
    Outcome (WeightDEWrapper D) :=
  let sum_weight := (hist.map Prod.snd).sum
  match hist with
  | [] => Outcome.verify_failed
  | first :: rest =>
    match extend_loop ops sum_weight first.1 first.2 rest
        [ops.div (ops.of_size first.2) (ops.of_size sum_weight)] with
    | Outcome.ok new_hist => Outcome.ok ⟨new_hist, first.1, insert_size⟩
    | Outcome.verify_failed => Outcome.verify_failed
    | Outcome.undefined => Outcome.undefined

/-- The index `xx` that `CountWeight` computes for `x`. -/
def count_weight_index (w : WeightDEWrapper D) (x : Int) : Int :=
  w.insert_size - w.left_x + x - 1

/-- The function `CountWeight`: `zero` is `0.`, `scale v` is `1000. * v`; `undefined` stands
for an access to `new_hist` out of bounds. -/
def CountWeight (ops : DoubleOps D) (zero : D) (scale : D → D) (w : WeightDEWrapper D)
    (x : Int) : Outcome D :=
  let xx := count_weight_index w x
  if !(decide (xx ≥ 0) && decide (xx < (w.new_hist.length : Int))) then Outcome.ok zero
  else
    match w.new_hist[xx.toNat]? with
    | none => Outcome.undefined
    | some v => if ops.le_one v then Outcome.ok (scale v) else Outcome.verify_failed

end Weight

/-- A conjugate map for examples: the edges `2 n` and `2 n + 1` are conjugate. -/
def exampleConjugate (e : Nat) : Nat := if e % 2 = 0 then e + 1 else e - 1

/-- The arithmetic of the rational numbers, for examples. -/
def ratOps : DoubleOps Rat where
  of_size := fun n => (n : Rat)
  of_int := fun i => (i : Rat)
  add := fun a b => a + b
  sub := fun a b => a - b
  mul := fun a b => a * b
  div := fun a b => a / b
  le_one := fun a => decide (a ≤ 1)

/-! ## Codon translation (aa.hpp) -/

/-- The enumeration `AminoAcid`, in the order of its declaration. -/
inductive AminoAcid where
  | ALANINE
  | CYSTEINE
  | ASPARTIC_ACID
  | GLUTAMIC_ACID
  | PHENYLALANINE
  | GLYCINE
  | HISTIDINE
  | ISOLEUCINE
  | LYSINE
  | LEUCINE
  | METHIONINE
  | ASPARAGINE
  | PROLINE
  | GLUTAMINE
  | ARGININE
  | SERINE
  | THREONINE
  | VALINE
  | TRYPTOPHAN
  | TYROSINE
  | STOP
  deriving DecidableEq, Repr, Fintype

/-- The `uint8_t` value of an enumerator: `ALANINE = 0`, then one more for each. -/
def AminoAcid.value : AminoAcid → Nat
  | ALANINE => 0
  | CYSTEINE => 1
  | ASPARTIC_ACID => 2
  | GLUTAMIC_ACID => 3
  | PHENYLALANINE => 4
  | GLYCINE => 5
  | HISTIDINE => 6
  | ISOLEUCINE => 7
  | LYSINE => 8
  | LEUCINE => 9
  | METHIONINE => 10
  | ASPARAGINE => 11
  | PROLINE => 12
  | GLUTAMINE => 13
  | ARGININE => 14
  | SERINE => 15
  | THREONINE => 16
  | VALINE => 17
  | TRYPTOPHAN => 18
  | TYROSINE => 19
  | STOP => 20

/-- The conversion `AminoAcid(v)` of a `uint8_t`: the enumerator with the value `v`, and `none`
when `v` is the value of no enumerator. -/
def AminoAcid.of_value (v : Nat) : Option AminoAcid :=
  [AminoAcid.ALANINE, AminoAcid.CYSTEINE, AminoAcid.ASPARTIC_ACID, AminoAcid.GLUTAMIC_ACID,
    AminoAcid.PHENYLALANINE, AminoAcid.GLYCINE, AminoAcid.HISTIDINE, AminoAcid.ISOLEUCINE,
    AminoAcid.LYSINE, AminoAcid.LEUCINE, AminoAcid.METHIONINE, AminoAcid.ASPARAGINE,
    AminoAcid.PROLINE, AminoAcid.GLUTAMINE, AminoAcid.ARGININE, AminoAcid.SERINE,
    AminoAcid.THREONINE, AminoAcid.VALINE, AminoAcid.TRYPTOPHAN, AminoAcid.TYROSINE,
    AminoAcid.STOP][v]?

/-- The function `dignucl` on a byte: `'C'` (67) is 1, `'G'` (71) is 2, `'T'` (84) is 3, and
`'A'` and every other byte (the `default` label) are 0. -/
def dignucl (c : Nat) : Nat :=
  if c = 67 then 1 else if c = 71 then 2 else if c = 84 then 3 else 0

/-- The function `codon_to_idx(char, char, char)`; a `char` is passed as its byte value and
converted to `uint8_t`. -/
def codon_to_idx (codon0 codon1 codon2 : Nat) : Nat :=
  dignucl (codon0 % 256) <<< (2 * 2) ||| dignucl (codon1 % 256) <<< (2 * 1)
    ||| dignucl (codon2 % 256) <<< (2 * 0)

/-- The table `aa_table`. -/
def aa_table : List Nat :=
  [0x08, 0x0B, 0x08, 0x0B, 0x10, 0x10, 0x10, 0x10, 0x0E, 0x0F, 0x0E, 0x0F, 0x07, 0x07, 0x0A, 0x07,
   0x0D, 0x06, 0x0D, 0x06, 0x0C, 0x0C, 0x0C, 0x0C, 0x0E, 0x0E, 0x0E, 0x0E, 0x09, 0x09, 0x09, 0x09,
   0x03, 0x02, 0x03, 0x02, 0x00, 0x00, 0x00, 0x00, 0x05, 0x05, 0x05, 0x05, 0x11, 0x11, 0x11, 0x11,
   0x14, 0x13, 0x14, 0x13, 0x0F, 0x0F, 0x0F, 0x0F, 0x14, 0x01, 0x12, 0x01, 0x09, 0x04, 0x09, 0x04]

/-- The function `to_aa(char, char, char)`: `none` stands for a table access out of bounds or
a table entry that is the value of no enumerator. -/
def to_aa (codon0 codon1 codon2 : Nat) : Option AminoAcid :=
  match aa_table[codon_to_idx codon0 codon1 codon2]? with
  | none => none
  | some v => AminoAcid.of_value v

/-- The function `codon_to_idx(const char codon[3])`. -/
def codon_to_idx_array (codon : Fin 3 → Nat) : Nat :=
  codon_to_idx (codon 0) (codon 1) (codon 2)

/-- The function `to_aa(const char codon[3])`. -/
def to_aa_array (codon : Fin 3 → Nat) : Option AminoAcid :=
  match aa_table[codon_to_idx_array codon]? with
  | none => none
  | some v => AminoAcid.of_value v

/-- Specification side of C25: a byte that is none of `'C'`, `'G'`, `'T'` is replaced by `'A'`
(65). -/
def as_nucleotide (c : Nat) : Nat :=
  if c % 256 = 67 ∨ c % 256 = 71 ∨ c % 256 = 84 then c else 65

/-- The four letters of a nucleotide sequence. -/
inductive Nucl where
  | A
  | C
  | G
  | T
  deriving DecidableEq, Repr, Fintype

/-- The letter of a nucleotide. -/
def Nucl.letter : Nucl → Char
  | A => 'A'
  | C => 'C'
  | G => 'G'
  | T => 'T'

/-- The byte of the letter of a nucleotide. -/
def Nucl.byte (n : Nucl) : Nat := n.letter.toNat

/-- Specification side of C13: the standard genetic code (translation table 1), written out
by amino acid. -/
def standard_genetic_code : Nucl → Nucl → Nucl → AminoAcid
  | .T, .T, .T | .T, .T, .C => AminoAcid.PHENYLALANINE
  | .T, .T, .A | .T, .T, .G | .C, .T, _ => AminoAcid.LEUCINE
  | .A, .T, .T | .A, .T, .C | .A, .T, .A => AminoAcid.ISOLEUCINE
  | .A, .T, .G => AminoAcid.METHIONINE
  | .G, .T, _ => AminoAcid.VALINE
  | .T, .C, _ | .A, .G, .T | .A, .G, .C => AminoAcid.SERINE
  | .C, .C, _ => AminoAcid.PROLINE
  | .A, .C, _ => AminoAcid.THREONINE
  | .G, .C, _ => AminoAcid.ALANINE
  | .T, .A, .T | .T, .A, .C => AminoAcid.TYROSINE
  | .T, .A, .A | .T, .A, .G | .T, .G, .A => AminoAcid.STOP
  | .C, .A, .T | .C, .A, .C => AminoAcid.HISTIDINE
  | .C, .A, .A | .C, .A, .G => AminoAcid.GLUTAMINE
  | .A, .A, .T | .A, .A, .C => AminoAcid.ASPARAGINE
  | .A, .A, .A | .A, .A, .G => AminoAcid.LYSINE
  | .G, .A, .T | .G, .A, .C => AminoAcid.ASPARTIC_ACID
  | .G, .A, .A | .G, .A, .G => AminoAcid.GLUTAMIC_ACID
  | .T, .G, .T | .T, .G, .C => AminoAcid.CYSTEINE
  | .T, .G, .G => AminoAcid.TRYPTOPHAN
  | .C, .G, _ | .A, .G, .A | .A, .G, .G => AminoAcid.ARGININE
  | .G, .G, _ => AminoAcid.GLYCINE

/-- An edge count for examples: two edges (an edge and its conjugate) per vertex of the
component. -/
def exampleSize (vs : Finset Nat) : Nat := 2 * vs.card

/-- A search result for examples: two paths on the edge 3 with the costs 7 and 5. -/
def exampleTopPaths (_ : Finset Nat) : List (List (Option (Nat × Nat)) × Nat) :=
  [([some (3, 0), some (3, 1)], 7), ([some (3, 1), some (3, 2)], 5)]

/-- The string of a cursor path over the chain graph, for examples. -/
def exampleStr (p : List (Option (Nat × Nat))) : String :=
  String.mk (cursor_str chainGraph p)

/-! ## Lemmas on `to_path` -/

section ToPathLemmas

variable {C E : Type} [DecidableEq E]

theorem to_path_step_of_empty (ops : CursorOps C E) (path : List E) (c : C)
    (h : ops.is_empty c = true) : to_path_step ops path c = path := by
  simp [to_path_step, h]

/-- Skipping the leading empty cursors changes nothing: the second loop skips them too. -/
theorem to_path_eq_foldl (ops : CursorOps C E) (cpath : List C) :
    to_path ops cpath = cpath.foldl (to_path_step ops) [] := by
  unfold to_path
  generalize ([] : List E) = acc
  induction cpath with
  | nil => rfl
  | cons c cs ih =>
    by_cases h : ops.is_empty c = true
    · rw [List.dropWhile_cons_of_pos h, List.foldl_cons, to_path_step_of_empty ops acc c h]
      exact ih
    · rw [List.dropWhile_cons_of_neg h]

/-- On a nucleotide cursor the step appends `edge(c)` unless it is the last edge already. -/
theorem to_path_step_nucl (ops : CursorOps C E) (path : List E) (c : C)
    (hc : ops.is_empty c = false) (hes : ops.edges c = [ops.edge c]) :
    to_path_step ops path c =
      if path.getLast? = some (ops.edge c) then path else path ++ [ops.edge c] := by
  unfold to_path_step
  simp only [hc, Bool.false_eq_true, if_false]
  by_cases h : path.getLast? = some (ops.edge c)
  · have hne : path ≠ [] := by
      intro h0
      simp [h0] at h
    have hlen : ¬ path.length = 0 := by
      simpa [List.length_eq_zero] using hne
    simp [h, hlen, hes, push_edges]
  · simp [h]

/-- The second loop from a path ending in `b`, on nucleotide cursors. -/
theorem foldl_to_path_step_nucl (ops : CursorOps C E) (cs : List C)
    (hes : ∀ c ∈ cs, ops.is_empty c = false → ops.edges c = [ops.edge c]) :
    ∀ (pre : List E) (b : E),
      cs.foldl (to_path_step ops) (pre ++ [b]) =
        pre ++ List.destutter' (· ≠ ·) b (cursor_edges ops cs) := by
  induction cs with
  | nil =>
    intro pre b
    simp [cursor_edges]
  | cons c cs ih =>
    intro pre b
    have hes' : ∀ c' ∈ cs, ops.is_empty c' = false → ops.edges c' = [ops.edge c'] :=
      fun c' hc' => hes c' (List.mem_cons_of_mem _ hc')
    rw [List.foldl_cons]
    by_cases hc : ops.is_empty c = true
    · rw [to_path_step_of_empty ops _ c hc, ih hes']
      simp [cursor_edges, hc]
    · have hc' : ops.is_empty c = false := by simpa using hc
      rw [to_path_step_nucl ops _ c hc' (hes c (List.mem_cons_self _ _) hc')]
      have hce : cursor_edges ops (c :: cs) = ops.edge c :: cursor_edges ops cs := by
        simp [cursor_edges, hc']
      rw [hce]
      by_cases hb : b = ops.edge c
      · subst hb
        rw [if_pos (by simp), ih hes', List.destutter'_cons_neg _ (by simp)]
      · have hb' : ¬ (pre ++ [b]).getLast? = some (ops.edge c) := by simpa using hb
        rw [if_neg hb', List.destutter'_cons_pos _ hb]
        have := ih hes' (pre ++ [b]) (ops.edge c)
        rw [this]
        simp

theorem to_path_nucl_eq_destutter (ops : CursorOps C E) (cs : List C)
    (hes : ∀ c ∈ cs, ops.is_empty c = false → ops.edges c = [ops.edge c]) :
    to_path ops cs = List.destutter (· ≠ ·) (cursor_edges ops cs) := by
  rw [to_path_eq_foldl]
  induction cs with
  | nil => simp [cursor_edges]
  | cons c cs ih =>
    have hes' : ∀ c' ∈ cs, ops.is_empty c' = false → ops.edges c' = [ops.edge c'] :=
      fun c' hc' => hes c' (List.mem_cons_of_mem _ hc')
    rw [List.foldl_cons]
    by_cases hc : ops.is_empty c = true
    · rw [to_path_step_of_empty ops _ c hc, ih hes']
      simp [cursor_edges, hc]
    · have hc' : ops.is_empty c = false := by simpa using hc
      rw [to_path_step_nucl ops _ c hc' (hes c (List.mem_cons_self _ _) hc')]
      have hce : cursor_edges ops (c :: cs) = ops.edge c :: cursor_edges ops cs := by
        simp [cursor_edges, hc']
      rw [hce, List.destutter_cons']
      have := foldl_to_path_step_nucl ops cs hes' [] (ops.edge c)
      simpa using this

theorem destutter'_ne_eq_collapse_runs (l : List E) :
    ∀ a : E, List.destutter' (· ≠ ·) a l = collapse_runs (a :: l) := by
  induction l with
  | nil => intro a; simp [collapse_runs]
  | cons b l ih =>
    intro a
    by_cases hab : a = b
    · subst hab
      rw [List.destutter'_cons_neg _ (by simp), ih]
      simp [collapse_runs]
    · rw [List.destutter'_cons_pos _ hab, ih]
      simp [collapse_runs, hab]

theorem destutter_ne_eq_collapse_runs (l : List E) :
    List.destutter (· ≠ ·) l = collapse_runs l := by
  cases l with
  | nil => simp [collapse_runs]
  | cons a l => rw [List.destutter_cons', destutter'_ne_eq_collapse_runs]

theorem collapse_runs_const (e : E) (l : List E) (h : ∀ x ∈ l, x = e) :
    collapse_runs (e :: l) = [e] := by
  induction l with
  | nil => simp [collapse_runs]
  | cons b l ih =>
    have hb : b = e := h b (List.mem_cons_self _ _)
    subst hb
    have := ih (fun x hx => h x (List.mem_cons_of_mem _ hx))
    simpa [collapse_runs] using this

theorem to_path_eq_collapse_runs (ops : CursorOps C E) (cs : List C)
    (hes : ∀ c ∈ cs, ops.is_empty c = false → ops.edges c = [ops.edge c]) :
    to_path ops cs = collapse_runs (cursor_edges ops cs) := by
  rw [to_path_nucl_eq_destutter ops cs hes, destutter_ne_eq_collapse_runs]

/-- C1: on nucleotide cursors (`edges(c) = [edge(c)]`) `to_path` returns the edges of the
non-empty cursors, in order, with every run of consecutive equal edges collapsed to one
edge; a sequence with at least one non-empty cursor whose non-empty cursors all lie on
the edge `e` gives `[e]`. -/
theorem to_path_nucleotide_collapses_runs (ops : CursorOps C E) (cs : List C)
    (hes : ∀ c ∈ cs, ops.is_empty c = false → ops.edges c = [ops.edge c]) :
    to_path ops cs = collapse_runs (cursor_edges ops cs) ∧
    ∀ e : E, (∃ c ∈ cs, ops.is_empty c = false) →
      (∀ c ∈ cs, ops.is_empty c = false → ops.edge c = e) → to_path ops cs = [e] := by
  have h1 : to_path ops cs = collapse_runs (cursor_edges ops cs) :=
    to_path_eq_collapse_runs ops cs hes
  refine ⟨h1, ?_⟩
  intro e hex hall
  rw [h1]
  obtain ⟨c, hc, hce⟩ := hex
  have hmem : ops.edge c ∈ cursor_edges ops cs := by
    unfold cursor_edges
    exact List.mem_map.mpr ⟨c, List.mem_filter.mpr ⟨hc, by simp [hce]⟩, rfl⟩
  have hconst : ∀ x ∈ cursor_edges ops cs, x = e := by
    intro x hx
    unfold cursor_edges at hx
    obtain ⟨c', hc', rfl⟩ := List.mem_map.mp hx
    have := List.mem_filter.mp hc'
    exact hall c' this.1 (by simpa using this.2)
  cases hl : cursor_edges ops cs with
  | nil => rw [hl] at hmem; cases hmem
  | cons a l =>
    rw [hl] at hconst
    have ha : a = e := hconst a (List.mem_cons_self _ _)
    subst ha
    exact collapse_runs_const a l (fun x hx => hconst x (List.mem_cons_of_mem _ hx))

end ToPathLemmas

/-- Witness of C1: the cursors `(7,0), (7,1), ⊥, (7,2), (9,3), (9,4), (7,3)` give `[7, 9, 7]`. -/
theorem to_path_nucleotide_collapses_runs_witness :
    to_path (nuclOps Nat) [some (7, 0), some (7, 1), none, some (7, 2), some (9, 3),
        some (9, 4), some (7, 3)] = [7, 9, 7] ∧
    (to_path (nuclOps Nat) [none, some (7, 0), some (7, 1), some (7, 2)] =
        collapse_runs (cursor_edges (nuclOps Nat) [none, some (7, 0), some (7, 1), some (7, 2)]) ∧
      ∀ e : Nat, (∃ c ∈ [none, some (7, 0), some (7, 1), some (7, 2)],
          (nuclOps Nat).is_empty c = false) →
        (∀ c ∈ [none, some (7, 0), some (7, 1), some (7, 2)],
          (nuclOps Nat).is_empty c = false → (nuclOps Nat).edge c = e) →
        to_path (nuclOps Nat) [none, some (7, 0), some (7, 1), some (7, 2)] = [e]) :=
  ⟨by decide, to_path_nucleotide_collapses_runs (nuclOps Nat)
    [none, some (7, 0), some (7, 1), some (7, 2)] (fun _ _ _ => rfl)⟩


/-- C2: the code drops an edge that a cursor straddles when the cursor's own edge is new. A
single cursor on edge 1 that straddles the edges 1 and 2 gives the path `[1]`, without the
edge 2; a cursor on the new edge 2 that straddles 2, 3 and 4 contributes only 2, so the
walk over the chain 1, 2, 3, 4 gives `[1, 2, 4]`, on which `MergeSequences` violates its
`VERIFY`; the other branch does append the straddled edges: a cursor on the last edge 1 that
straddles 1, 2 and 3 extends `[1]` to `[1, 2, 3]`. -/
theorem to_path_drops_straddled_edge :
    to_path (spanOps Nat) [some (1, [1, 2])] = [1] ∧
    2 ∉ to_path (spanOps Nat) [some (1, [1, 2])] ∧
    to_path (spanOps Nat) [some (1, [1, 1, 1]), some (2, [2, 3, 4]), some (4, [4, 4, 4])]
      = [1, 2, 4] ∧
    MergeSequences chainGraph [1, 2, 4] = Outcome.verify_failed ∧
    to_path (spanOps Nat) [some (1, [1, 1, 1]), some (1, [1, 2, 3])] = [1, 2, 3] := by
  decide

/-! ## `MergeSequences` -/

section MergeLemmas

variable {V E : Type} [DecidableEq V]

theorem collect_sequences_of_adjacent (g : Graph V E) (rest : List E) :
    ∀ (prev : E) (acc : List (List Char)),
      List.Chain (fun a b => g.EdgeEnd a = g.EdgeStart b) prev rest →
      collect_sequences g prev rest acc = Outcome.ok (acc ++ rest.map g.EdgeNucls) := by
  induction rest with
  | nil => intro prev acc _; simp [collect_sequences]
  | cons e rest ih =>
    intro prev acc h
    rw [List.chain_cons] at h
    simp [collect_sequences, h.1, ih e _ h.2]

theorem foldl_append_drop (k : Nat) (ts : List (List Char)) :
    ∀ s : List Char, ts.foldl (fun acc t => acc ++ t.drop k) s
      = s ++ (ts.map (fun t => t.drop k)).flatten := by
  induction ts with
  | nil => intro s; simp
  | cons t ts ih => intro s; simp [ih]

theorem MergeSequences_cons_of_adjacent (g : Graph V E) (e0 : E) (rest : List E)
    (h : List.Chain (fun a b => g.EdgeEnd a = g.EdgeStart b) e0 rest) :
    MergeSequences g (e0 :: rest) = Outcome.ok
      (g.EdgeNucls e0 ++ (rest.map (fun e => (g.EdgeNucls e).drop g.k)).flatten) := by
  simp [MergeSequences, collect_sequences_of_adjacent g rest e0 _ h, MergeOverlappingSequences,
    foldl_append_drop, List.map_map, Function.comp_def]

theorem length_flatten_map_drop (g : Graph V E) (rest : List E)
    (hk : ∀ e ∈ rest, g.k ≤ (g.EdgeNucls e).length) :
    (((rest.map (fun e => (g.EdgeNucls e).drop g.k)).flatten.length : Nat) : Int)
      = ((rest.map (fun e => (g.EdgeNucls e).length)).sum : Nat) - (g.k : Int) * rest.length := by
  induction rest with
  | nil => simp
  | cons e rest ih =>
    have h1 := hk e (List.mem_cons_self _ _)
    have h2 := ih (fun e' he' => hk e' (List.mem_cons_of_mem _ he'))
    simp only [List.map_cons, List.flatten_cons, List.length_append, List.length_drop,
      List.sum_cons, List.length_cons]
    push_cast [h1] at h2 ⊢
    rw [h2]
    ring

/-- C3: on a non-empty adjacent path `MergeSequences` returns `nucls(path[0])` followed, for
each `i ≥ 1` in order, by `nucls(path[i])` without its first `k` letters; when the later
edges carry at least `k` letters (the graph invariant), the length of the result is the sum
of the `|nucls(path[i])|` minus `k * (|path| - 1)`; for a one-edge path `[e]` the result is
`nucls(e)`. -/
theorem MergeSequences_of_adjacent (g : Graph V E) (path : List E) (hne : path ≠ [])
    (hadj : adjacent_path g path) :
    MergeSequences g path = Outcome.ok
      (g.EdgeNucls (path.head hne)
        ++ (path.tail.map (fun e => (g.EdgeNucls e).drop g.k)).flatten) ∧
    ((∀ e ∈ path.tail, g.k ≤ (g.EdgeNucls e).length) →
      ∃ s, MergeSequences g path = Outcome.ok s ∧
        (s.length : Int) = ((path.map (fun e => (g.EdgeNucls e).length)).sum : Nat)
          - (g.k : Int) * ((path.length : Int) - 1)) ∧
    ∀ e : E, MergeSequences g [e] = Outcome.ok (g.EdgeNucls e) := by
  cases path with
  | nil => exact absurd rfl hne
  | cons e0 rest =>
    have hch : List.Chain (fun a b => g.EdgeEnd a = g.EdgeStart b) e0 rest := hadj
    have hval := MergeSequences_cons_of_adjacent g e0 rest hch
    refine ⟨by simpa using hval, ?_, ?_⟩
    · intro hk
      refine ⟨_, hval, ?_⟩
      have hlen := length_flatten_map_drop g rest hk
      simp only [List.tail_cons] at hk
      simp only [List.length_append, List.map_cons, List.sum_cons, List.length_cons]
      push_cast at hlen ⊢
      rw [hlen]
      ring
    · intro e
      simp [MergeSequences, collect_sequences, MergeOverlappingSequences]

end MergeLemmas

/-- Witness of C3: the adjacent path `[1, 2, 3]` of the chain graph (`k = 1`, every edge
carries `ACGT`) merges to `ACGT` + `CGT` + `CGT`, of length `12 - 1 * 2`. -/
theorem MergeSequences_of_adjacent_witness :
    adjacent_path chainGraph [1, 2, 3] ∧
    (MergeSequences chainGraph [1, 2, 3] = Outcome.ok
      (chainGraph.EdgeNucls (([1, 2, 3] : List Nat).head (by simp))
        ++ ((([1, 2, 3] : List Nat).tail.map
          (fun e => (chainGraph.EdgeNucls e).drop chainGraph.k)).flatten)) ∧
    ((∀ e ∈ ([1, 2, 3] : List Nat).tail, chainGraph.k ≤ (chainGraph.EdgeNucls e).length) →
      ∃ s, MergeSequences chainGraph [1, 2, 3] = Outcome.ok s ∧
        (s.length : Int) = ((([1, 2, 3] : List Nat).map
            (fun e => (chainGraph.EdgeNucls e).length)).sum : Nat)
          - (chainGraph.k : Int) * (((([1, 2, 3] : List Nat).length : Nat) : Int) - 1)) ∧
    ∀ e : Nat, MergeSequences chainGraph [e] = Outcome.ok (chainGraph.EdgeNucls e)) :=
  ⟨by simp [adjacent_path, chainGraph, exampleGraph],
    MergeSequences_of_adjacent chainGraph [1, 2, 3] (by simp)
      (by simp [adjacent_path, chainGraph, exampleGraph])⟩

/-! ## `MergeSequences` after `to_path` on nucleotide cursors -/

section StrLemmas

variable {V E : Type} [DecidableEq V] [DecidableEq E] [Inhabited E]

theorem cursor_edges_nuclOps (p : List (Option (E × Nat))) :
    cursor_edges (nuclOps E) p = (p.filterMap id).map Prod.fst := by
  induction p with
  | nil => rfl
  | cons c p ih =>
    cases c with
    | none => simpa [cursor_edges, nuclOps] using ih
    | some c =>
      have : cursor_edges (nuclOps E) (some c :: p) = c.1 :: cursor_edges (nuclOps E) p := by
        simp [cursor_edges, nuclOps]
      rw [this, ih]
      simp

theorem to_path_nuclOps (p : List (Option (E × Nat))) :
    to_path (nuclOps E) p = collapse_runs ((p.filterMap id).map Prod.fst) := by
  rw [(to_path_eq_collapse_runs (nuclOps E) p (fun _ _ _ => rfl)),
    cursor_edges_nuclOps]

theorem drop_eq_getD_cons (l : List Char) (i : Nat) (h : i < l.length) :
    l.drop i = l.getD i 'N' :: l.drop (i + 1) := by
  rw [List.drop_eq_getElem_cons h]
  simp [List.getD_eq_getElem?_getD, List.getElem?_eq_getElem h]

/-- The walk of a consecutive cursor sequence `c :: q` from the left: the collapsed edge list
starts with the edge of `c`, is adjacent, and the letters from position `c.2` of the first
edge on, glued along the path, are `str` of the cursors followed by the letters after the
last cursor on its edge. -/
theorem walk_of_consecutive (g : Graph V E) (hinv : ∀ e, g.k + 1 ≤ (g.EdgeNucls e).length)
    (q : List (E × Nat)) :
    ∀ c : E × Nat, c.2 < (g.EdgeNucls c.1).length →
      List.Chain' (fun c c' => cursor_next g c c' = true) (c :: q) →
      List.Chain' (fun c c' : E × Nat => c.1 = c'.1 → c'.2 = c.2 + 1) (c :: q) →
      ∃ tp : List E, collapse_runs ((c :: q).map Prod.fst) = c.1 :: tp ∧
        List.Chain (fun a b => g.EdgeEnd a = g.EdgeStart b) c.1 tp ∧
        ∀ cn, (c :: q).getLast? = some cn →
          (g.EdgeNucls c.1).drop c.2 ++ (tp.map (fun e => (g.EdgeNucls e).drop g.k)).flatten
            = (c :: q).map (cursor_letter g) ++ (g.EdgeNucls cn.1).drop (cn.2 + 1) := by
  induction q with
  | nil =>
    intro c hc _ _
    refine ⟨[], by simp [collapse_runs], List.Chain.nil, ?_⟩
    intro cn hcn
    simp at hcn
    subst hcn
    simp [cursor_letter, drop_eq_getD_cons _ _ hc]
  | cons c' q ih =>
    intro c hc hnext hdup
    rw [List.chain'_cons] at hnext hdup
    obtain ⟨hn, hnext'⟩ := hnext
    obtain ⟨hd, hdup'⟩ := hdup
    unfold cursor_next at hn
    by_cases hlt : c.2 + 1 < (g.EdgeNucls c.1).length
    · -- the next cursor is the next position of the same edge
      simp only [hlt, if_true, decide_eq_true_eq] at hn
      subst hn
      obtain ⟨tp, htp, hadj, hstr⟩ := ih (c.1, c.2 + 1) hlt hnext' hdup'
      refine ⟨tp, ?_, hadj, ?_⟩
      · simp only [List.map_cons] at htp ⊢
        simp only [collapse_runs, if_true]
        exact htp
      · intro cn hcn
        have hcn' : ((c.1, c.2 + 1) :: q).getLast? = some cn := by
          simpa [List.getLast?_cons_cons] using hcn
        have := hstr cn hcn'
        simp only [List.map_cons, List.cons_append] at this ⊢
        rw [drop_eq_getD_cons _ _ hc, List.cons_append, this]
        rfl
    · -- the next cursor enters an out-edge at position `k`
      simp only [hlt, if_false, Bool.and_eq_true, decide_eq_true_eq] at hn
      obtain ⟨hst, hk⟩ := hn
      have hk' : c'.2 < (g.EdgeNucls c'.1).length := by
        have := hinv c'.1
        omega
      have hne : c.1 ≠ c'.1 := by
        intro heq
        have h1 := hd heq
        have h2 := hinv c.1
        have h3 := hinv c'.1
        rw [heq] at hlt
        omega
      obtain ⟨tp, htp, hadj, hstr⟩ := ih c' hk' hnext' hdup'
      refine ⟨c'.1 :: tp, ?_, List.Chain.cons hst.symm hadj, ?_⟩
      · simp only [List.map_cons] at htp ⊢
        simp only [collapse_runs, hne, if_false]
        rw [htp]
      · intro cn hcn
        have hcn' : (c' :: q).getLast? = some cn := by
          simpa [List.getLast?_cons_cons] using hcn
        have := hstr cn hcn'
        have hlen : (g.EdgeNucls c.1).drop (c.2 + 1) = [] := by
          apply List.drop_eq_nil_of_le
          omega
        rw [hk] at this
        simp only [List.map_cons, List.flatten_cons, List.cons_append] at this ⊢
        rw [drop_eq_getD_cons _ _ hc, hlen, this]
        rfl

/-- C4, as amended: on a graph whose edges carry at least `k + 1` letters, for a nucleotide
cursor sequence `p` that is strictly consecutive and free of overlapping duplications, with
first non-empty cursor `c0` (a valid position) and last non-empty cursor `cn`,
`MergeSequences(graph, to_path(p))` is `str(p)` preceded by the letters of the first edge
before `c0` and followed by the letters of the last edge after `cn`; it equals `str(p)` when
`p` starts at the first position of its first edge and ends at the last position of its last
edge. -/
theorem MergeSequences_to_path_eq_str (g : Graph V E) (p : List (Option (E × Nat)))
    (c0 cn : E × Nat) (hinv : ∀ e, g.k + 1 ≤ (g.EdgeNucls e).length)
    (hfirst : (p.filterMap id).head? = some c0) (hlast : (p.filterMap id).getLast? = some cn)
    (hvalid : c0.2 < (g.EdgeNucls c0.1).length)
    (hcons : strictly_consecutive g p) (hdup : no_overlapping_duplication p) :
    MergeSequences g (to_path (nuclOps E) p) = Outcome.ok
      ((g.EdgeNucls c0.1).take c0.2 ++ cursor_str g p ++ (g.EdgeNucls cn.1).drop (cn.2 + 1)) ∧
    (c0.2 = 0 → cn.2 + 1 = (g.EdgeNucls cn.1).length →
      MergeSequences g (to_path (nuclOps E) p) = Outcome.ok (cursor_str g p)) := by
  have hmain : MergeSequences g (to_path (nuclOps E) p) = Outcome.ok
      ((g.EdgeNucls c0.1).take c0.2 ++ cursor_str g p
        ++ (g.EdgeNucls cn.1).drop (cn.2 + 1)) := by
    unfold strictly_consecutive at hcons
    unfold no_overlapping_duplication at hdup
    rw [to_path_nuclOps]
    unfold cursor_str
    cases hq : p.filterMap id with
    | nil => rw [hq] at hfirst; simp at hfirst
    | cons c q =>
      rw [hq] at hfirst hlast hcons hdup
      simp only [List.head?_cons, Option.some.injEq] at hfirst
      subst hfirst
      obtain ⟨tp, htp, hadj, hstr⟩ := walk_of_consecutive g hinv q c hvalid hcons hdup
      rw [htp, MergeSequences_cons_of_adjacent g c.1 tp hadj]
      congr 1
      have h := hstr cn hlast
      rw [List.append_assoc, ← h, ← List.append_assoc, List.take_append_drop]
  refine ⟨hmain, ?_⟩
  intro h0 hn
  rw [hmain, h0, hn]
  simp

end StrLemmas

/-- Counterexample to C4: the cursors at the positions 1 and 2 of an edge carrying `ACGT` are
strictly consecutive and free of overlapping duplications, their string is `CG`, but
`MergeSequences` of their path is the whole edge `ACGT`. -/
theorem MergeSequences_to_path_ne_str :
    strictly_consecutive chainGraph [some (1, 1), some (1, 2)] ∧
    no_overlapping_duplication [some ((1 : Nat), 1), some (1, 2)] ∧
    cursor_str chainGraph [some (1, 1), some (1, 2)] = ['C', 'G'] ∧
    MergeSequences chainGraph (to_path (nuclOps Nat) [some (1, 1), some (1, 2)])
      = Outcome.ok ['A', 'C', 'G', 'T'] ∧
    MergeSequences chainGraph (to_path (nuclOps Nat) [some (1, 1), some (1, 2)])
      ≠ Outcome.ok (cursor_str chainGraph [some (1, 1), some (1, 2)]) := by
  refine ⟨?_, ?_, by decide, by decide, by decide⟩
  · simp [strictly_consecutive, cursor_next, chainGraph, exampleGraph]
  · simp [no_overlapping_duplication]

/-- Witness of C4 as amended: the walk over the whole edge 1 and then the edge 2 of the chain
graph. -/
theorem MergeSequences_to_path_eq_str_witness :
    (∀ e, chainGraph.k + 1 ≤ (chainGraph.EdgeNucls e).length) ∧
    (exampleWalk.filterMap id).head? = some (1, 0) ∧
    (exampleWalk.filterMap id).getLast? = some (2, 3) ∧
    strictly_consecutive chainGraph exampleWalk ∧
    no_overlapping_duplication exampleWalk ∧
    (MergeSequences chainGraph (to_path (nuclOps Nat) exampleWalk) = Outcome.ok
      ((chainGraph.EdgeNucls 1).take 0 ++ cursor_str chainGraph exampleWalk
        ++ (chainGraph.EdgeNucls 2).drop (3 + 1)) ∧
    ((0 : Nat) = 0 → 3 + 1 = (chainGraph.EdgeNucls 2).length →
      MergeSequences chainGraph (to_path (nuclOps Nat) exampleWalk)
        = Outcome.ok (cursor_str chainGraph exampleWalk))) :=
  ⟨fun _ => by simp [chainGraph, exampleGraph], by decide, by decide,
    by simp [strictly_consecutive, exampleWalk, cursor_next, chainGraph, exampleGraph],
    by simp [no_overlapping_duplication, exampleWalk],
    MergeSequences_to_path_eq_str chainGraph exampleWalk (1, 0) (2, 3)
      (fun _ => by simp [chainGraph, exampleGraph])
      (by decide) (by decide) (by decide)
      (by simp [strictly_consecutive, exampleWalk, cursor_next, chainGraph, exampleGraph])
      (by simp [no_overlapping_duplication, exampleWalk])⟩

/-! ## The joining pass -/

section JoinLemmas

variable {V E : Type} [DecidableEq V] [DecidableEq E]

theorem join_inner_sublist (g : Graph V E) (rest : List (E × Finset V)) :
    ∀ cur : Finset V, List.Sublist (join_inner g cur rest).2 rest := by
  induction rest with
  | nil => intro cur; simp [join_inner]
  | cons b rest ih =>
    intro cur
    unfold join_inner
    split
    · exact List.Sublist.cons _ (ih _)
    · exact List.Sublist.cons₂ _ (ih _)

theorem join_inner_subset (g : Graph V E) (rest : List (E × Finset V)) :
    ∀ cur : Finset V, cur ⊆ (join_inner g cur rest).1 := by
  induction rest with
  | nil => intro cur; simp [join_inner]
  | cons b rest ih =>
    intro cur
    unfold join_inner
    split
    · exact Finset.Subset.trans Finset.subset_union_left (ih _)
    · exact ih _

/-- An entry that the inner loop leaves in the map has its leader outside the set the loop
started with. -/
theorem join_inner_survivor (g : Graph V E) (rest : List (E × Finset V)) :
    ∀ cur : Finset V, ∀ b ∈ (join_inner g cur rest).2,
      g.EdgeStart b.1 ∉ cur ∧ g.EdgeEnd b.1 ∉ cur := by
  induction rest with
  | nil => intro cur b hb; simp [join_inner] at hb
  | cons x rest ih =>
    intro cur b hb
    unfold join_inner at hb
    split at hb
    · have := ih _ b hb
      constructor
      · exact fun h => this.1 (Finset.mem_union_left _ h)
      · exact fun h => this.2 (Finset.mem_union_left _ h)
    · rename_i hx
      rcases List.mem_cons.mp hb with rfl | hb'
      · exact not_or.mp hx
      · exact ih _ b hb'

theorem join_inner_of_no_overlap (g : Graph V E) (cur : Finset V)
    (rest : List (E × Finset V))
    (h : ∀ b ∈ rest, g.EdgeStart b.1 ∉ cur ∧ g.EdgeEnd b.1 ∉ cur) :
    join_inner g cur rest = (cur, rest) := by
  induction rest with
  | nil => rfl
  | cons x rest ih =>
    have hx := h x (List.mem_cons_self _ _)
    have hr := ih (fun b hb => h b (List.mem_cons_of_mem _ hb))
    unfold join_inner
    rw [if_neg (not_or.mpr hx), hr]

/-- The outer loop does not depend on the bound once the bound covers the entries. -/
theorem join_loop_fuel (g : Graph V E) :
    ∀ (n m : Nat) (nbs : List (E × Finset V)), nbs.length ≤ n → nbs.length ≤ m →
      join_loop g n nbs = join_loop g m nbs := by
  intro n
  induction n with
  | zero =>
    intro m nbs hn _
    have : nbs = [] := List.length_eq_zero.mp (Nat.le_zero.mp hn)
    subst this
    cases m <;> rfl
  | succ n ih =>
    intro m nbs hn hm
    cases nbs with
    | nil => cases m <;> rfl
    | cons a rest =>
      cases m with
      | zero => simp at hm
      | succ m =>
        simp only [join_loop]
        have hl := (join_inner_sublist g rest a.2).length_le
        simp only [List.length_cons] at hn hm
        rw [ih m _ (by omega) (by omega)]

theorem join_nil (g : Graph V E) : join g [] = [] := rfl

/-- One iteration of the outer loop: the first entry absorbs the later entries that overlap
it, and the pass goes on with the entries that remain. -/
theorem join_cons (g : Graph V E) (a : E × Finset V) (rest : List (E × Finset V)) :
    join g (a :: rest) =
      (a.1, (join_inner g a.2 rest).1) :: join g (join_inner g a.2 rest).2 := by
  have hl := (join_inner_sublist g rest a.2).length_le
  simp only [join, List.length_cons, join_loop]
  rw [join_loop_fuel g rest.length (join_inner g a.2 rest).2.length _ hl (le_refl _)]

theorem join_length_le (g : Graph V E) :
    ∀ (n : Nat) (nbs : List (E × Finset V)), nbs.length ≤ n → (join g nbs).length ≤ nbs.length := by
  intro n
  induction n with
  | zero =>
    intro nbs hn
    have : nbs = [] := List.length_eq_zero.mp (Nat.le_zero.mp hn)
    subst this
    simp [join_nil]
  | succ n ih =>
    intro nbs hn
    cases nbs with
    | nil => simp [join_nil]
    | cons a rest =>
      have hl := (join_inner_sublist g rest a.2).length_le
      simp only [List.length_cons] at hn
      have := ih (join_inner g a.2 rest).2 (by omega)
      rw [join_cons]
      simp only [List.length_cons]
      omega

/-- Every leader that survives the pass is the leader of an entry of the input. -/
theorem join_leader_mem (g : Graph V E) :
    ∀ (n : Nat) (nbs : List (E × Finset V)), nbs.length ≤ n →
      ∀ x ∈ join g nbs, ∃ b ∈ nbs, b.1 = x.1 := by
  intro n
  induction n with
  | zero =>
    intro nbs hn x hx
    have : nbs = [] := List.length_eq_zero.mp (Nat.le_zero.mp hn)
    subst this
    simp [join_nil] at hx
  | succ n ih =>
    intro nbs hn x hx
    cases nbs with
    | nil => simp [join_nil] at hx
    | cons a rest =>
      have hsub := join_inner_sublist g rest a.2
      have hl := hsub.length_le
      simp only [List.length_cons] at hn
      rw [join_cons] at hx
      rcases List.mem_cons.mp hx with rfl | hx'
      · exact ⟨a, List.mem_cons_self _ _, rfl⟩
      · obtain ⟨b, hb, hbx⟩ := ih _ (by omega) x hx'
        exact ⟨b, List.mem_cons_of_mem _ (hsub.subset hb), hbx⟩

/-- Every surviving neighbourhood has the leader of an entry of the input and contains the
set of that entry. -/
theorem join_survivor_superset (g : Graph V E) :
    ∀ (n : Nat) (nbs : List (E × Finset V)), nbs.length ≤ n →
      ∀ x ∈ join g nbs, ∃ b ∈ nbs, b.1 = x.1 ∧ b.2 ⊆ x.2 := by
  intro n
  induction n with
  | zero =>
    intro nbs hn x hx
    have : nbs = [] := List.length_eq_zero.mp (Nat.le_zero.mp hn)
    subst this
    simp [join_nil] at hx
  | succ n ih =>
    intro nbs hn x hx
    cases nbs with
    | nil => simp [join_nil] at hx
    | cons a rest =>
      have hsub := join_inner_sublist g rest a.2
      have hl := hsub.length_le
      simp only [List.length_cons] at hn
      rw [join_cons] at hx
      rcases List.mem_cons.mp hx with rfl | hx'
      · exact ⟨a, List.mem_cons_self _ _, rfl, join_inner_subset g rest a.2⟩
      · obtain ⟨b, hb, hb1, hb2⟩ := ih _ (by omega) x hx'
        exact ⟨b, List.mem_cons_of_mem _ (hsub.subset hb), hb1, hb2⟩

/-- The pass leaves a map unchanged exactly when no entry contains the start or the end of
the leader of a later entry. -/
theorem join_eq_self_iff (g : Graph V E) :
    ∀ (n : Nat) (nbs : List (E × Finset V)), nbs.length ≤ n →
      (join g nbs = nbs ↔ no_later_overlap g nbs) := by
  intro n
  induction n with
  | zero =>
    intro nbs hn
    have : nbs = [] := List.length_eq_zero.mp (Nat.le_zero.mp hn)
    subst this
    simp [join_nil, no_later_overlap]
  | succ n ih =>
    intro nbs hn
    cases nbs with
    | nil => simp [join_nil, no_later_overlap]
    | cons a rest =>
      have hsub := join_inner_sublist g rest a.2
      simp only [List.length_cons] at hn
      rw [join_cons]
      unfold no_later_overlap
      rw [List.pairwise_cons]
      constructor
      · intro h
        have h2 : join g (join_inner g a.2 rest).2 = rest := (List.cons.inj h).2
        have hlen : rest.length ≤ (join_inner g a.2 rest).2.length := by
          have := join_length_le g _ _ (le_refl (join_inner g a.2 rest).2.length)
          rw [h2] at this
          exact this
        have heq : (join_inner g a.2 rest).2 = rest := hsub.eq_of_length_le hlen
        refine ⟨?_, ?_⟩
        · intro b hb
          rw [← heq] at hb
          exact join_inner_survivor g rest a.2 b hb
        · rw [heq] at h2
          exact (ih rest (by omega)).mp h2
      · rintro ⟨h1, h2⟩
        rw [join_inner_of_no_overlap g a.2 rest h1]
        simp only
        rw [(ih rest (by omega)).mpr h2]

/-- The inner loop over one more entry `b`: `b` is tested against the set the loop has reached
after the entries before it. -/
theorem join_inner_append_singleton (g : Graph V E) (rest : List (E × Finset V))
    (b : E × Finset V) : ∀ cur : Finset V,
    join_inner g cur (rest ++ [b]) =
      if g.EdgeStart b.1 ∈ (join_inner g cur rest).1 ∨ g.EdgeEnd b.1 ∈ (join_inner g cur rest).1
      then ((join_inner g cur rest).1 ∪ b.2, (join_inner g cur rest).2)
      else ((join_inner g cur rest).1, (join_inner g cur rest).2 ++ [b]) := by
  induction rest with
  | nil =>
    intro cur
    simp only [List.nil_append, join_inner]
  | cons x rest ih =>
    intro cur
    simp only [List.cons_append, join_inner, List.append_eq]
    by_cases hx : g.EdgeStart x.1 ∈ cur ∨ g.EdgeEnd x.1 ∈ cur
    · rw [if_pos hx, if_pos hx, ih]
    · rw [if_neg hx, if_neg hx, ih]
      simp only
      split_ifs <;> rfl

/-- The pass over one more neighbourhood `b` unites `b` into the first survivor of the pass
over the neighbourhoods before it whose set contains the start or the end of its leader. -/
theorem join_append_singleton (g : Graph V E) (b : E × Finset V) :
    ∀ (n : Nat) (l : List (E × Finset V)), l.length ≤ n →
      join g (l ++ [b]) = absorb g (join g l) b := by
  intro n
  induction n with
  | zero =>
    intro l hn
    have : l = [] := List.length_eq_zero.mp (Nat.le_zero.mp hn)
    subst this
    simp [join_cons, join_nil, join_inner, absorb]
  | succ n ih =>
    intro l hn
    cases l with
    | nil => simp [join_cons, join_nil, join_inner, absorb]
    | cons a rest =>
      have hl := (join_inner_sublist g rest a.2).length_le
      simp only [List.length_cons] at hn
      rw [List.cons_append, join_cons, join_cons, join_inner_append_singleton]
      by_cases hb : g.EdgeStart b.1 ∈ (join_inner g a.2 rest).1 ∨
          g.EdgeEnd b.1 ∈ (join_inner g a.2 rest).1
      · rw [if_pos hb]
        simp only [absorb]
        rw [if_pos hb]
      · rw [if_neg hb]
        simp only [absorb]
        rw [if_neg hb, ih _ (by omega)]

theorem join_append (g : Graph V E) (l2 : List (E × Finset V)) :
    ∀ l1 : List (E × Finset V), join g (l1 ++ l2) = l2.foldl (absorb g) (join g l1) := by
  induction l2 with
  | nil => intro l1; simp
  | cons b l2 ih =>
    intro l1
    have : l1 ++ b :: l2 = (l1 ++ [b]) ++ l2 := by simp
    rw [this, ih, join_append_singleton g b l1.length l1 (le_refl _)]
    rfl

/-- The nested loops of `main` give what the description one neighbourhood at a time gives. -/
theorem join_eq_join_one_at_a_time (g : Graph V E) (nbs : List (E × Finset V)) :
    join g nbs = join_one_at_a_time g nbs := by
  have := join_append g nbs []
  simpa [join_nil, join_one_at_a_time] using this

theorem absorb_of_no_touch (g : Graph V E) (b : E × Finset V) :
    ∀ l : List (E × Finset V),
      (∀ A ∈ l, g.EdgeStart b.1 ∉ A.2 ∧ g.EdgeEnd b.1 ∉ A.2) → absorb g l b = l ++ [b] := by
  intro l
  induction l with
  | nil => intro _; rfl
  | cons A l ih =>
    intro h
    have hA := h A (List.mem_cons_self _ _)
    simp only [absorb, List.cons_append]
    rw [if_neg (not_or.mpr hA), ih (fun A' hA' => h A' (List.mem_cons_of_mem _ hA'))]

theorem absorb_of_touch (g : Graph V E) (b A : E × Finset V) (l2 : List (E × Finset V))
    (hA : g.EdgeStart b.1 ∈ A.2 ∨ g.EdgeEnd b.1 ∈ A.2) :
    ∀ l1 : List (E × Finset V),
      (∀ A' ∈ l1, g.EdgeStart b.1 ∉ A'.2 ∧ g.EdgeEnd b.1 ∉ A'.2) →
      absorb g (l1 ++ A :: l2) b = l1 ++ (A.1, A.2 ∪ b.2) :: l2 := by
  intro l1
  induction l1 with
  | nil =>
    intro _
    simp only [List.nil_append, absorb]
    rw [if_pos hA]
  | cons x l1 ih =>
    intro h
    have hx := h x (List.mem_cons_self _ _)
    simp only [absorb, List.cons_append, List.append_eq]
    rw [if_neg (not_or.mpr hx), ih (fun A' hA' => h A' (List.mem_cons_of_mem _ hA'))]

theorem absorb_mem_grow (g : Graph V E) (b : E × Finset V) :
    ∀ l : List (E × Finset V), ∀ X ∈ l, ∃ S, (X.1, S) ∈ absorb g l b ∧ X.2 ⊆ S := by
  intro l
  induction l with
  | nil => intro X hX; simp at hX
  | cons A l ih =>
    intro X hX
    simp only [absorb]
    by_cases hA : g.EdgeStart b.1 ∈ A.2 ∨ g.EdgeEnd b.1 ∈ A.2
    · rw [if_pos hA]
      rcases List.mem_cons.mp hX with rfl | hX'
      · exact ⟨X.2 ∪ b.2, List.mem_cons_self _ _, Finset.subset_union_left⟩
      · exact ⟨X.2, List.mem_cons_of_mem _ hX', Finset.Subset.refl _⟩
    · rw [if_neg hA]
      rcases List.mem_cons.mp hX with rfl | hX'
      · exact ⟨X.2, List.mem_cons_self _ _, Finset.Subset.refl _⟩
      · obtain ⟨S, hS, hsub⟩ := ih X hX'
        exact ⟨S, List.mem_cons_of_mem _ hS, hsub⟩

theorem absorb_mem_origin (g : Graph V E) (b : E × Finset V) :
    ∀ l : List (E × Finset V), ∀ X ∈ absorb g l b,
      (∃ S, (X.1, S) ∈ l ∧ S ⊆ X.2) ∨ X = b := by
  intro l
  induction l with
  | nil =>
    intro X hX
    simp only [absorb, List.mem_singleton] at hX
    exact Or.inr hX
  | cons A l ih =>
    intro X hX
    simp only [absorb] at hX
    by_cases hA : g.EdgeStart b.1 ∈ A.2 ∨ g.EdgeEnd b.1 ∈ A.2
    · rw [if_pos hA] at hX
      rcases List.mem_cons.mp hX with rfl | hX'
      · exact Or.inl ⟨A.2, List.mem_cons_self _ _, Finset.subset_union_left⟩
      · exact Or.inl ⟨X.2, List.mem_cons_of_mem _ hX', Finset.Subset.refl _⟩
    · rw [if_neg hA] at hX
      rcases List.mem_cons.mp hX with rfl | hX'
      · exact Or.inl ⟨X.2, List.mem_cons_self _ _, Finset.Subset.refl _⟩
      · rcases ih X hX' with ⟨S, hS, hsub⟩ | h
        · exact Or.inl ⟨S, List.mem_cons_of_mem _ hS, hsub⟩
        · exact Or.inr h

theorem absorb_leaders_of_touch (g : Graph V E) (b : E × Finset V) :
    ∀ l : List (E × Finset V),
      (∃ A ∈ l, g.EdgeStart b.1 ∈ A.2 ∨ g.EdgeEnd b.1 ∈ A.2) →
      (absorb g l b).map Prod.fst = l.map Prod.fst := by
  intro l
  induction l with
  | nil => rintro ⟨A, hA, _⟩; simp at hA
  | cons x l ih =>
    rintro ⟨A, hA, ht⟩
    simp only [absorb]
    by_cases hx : g.EdgeStart b.1 ∈ x.2 ∨ g.EdgeEnd b.1 ∈ x.2
    · rw [if_pos hx]
      rfl
    · rw [if_neg hx]
      rcases List.mem_cons.mp hA with rfl | hA'
      · exact absurd ht hx
      · simp only [List.map_cons]
        rw [ih ⟨A, hA', ht⟩]

theorem foldl_absorb_mem_grow (g : Graph V E) (l2 : List (E × Finset V)) :
    ∀ l : List (E × Finset V), ∀ X ∈ l,
      ∃ S, (X.1, S) ∈ l2.foldl (absorb g) l ∧ X.2 ⊆ S := by
  induction l2 with
  | nil => intro l X hX; exact ⟨X.2, hX, Finset.Subset.refl _⟩
  | cons b l2 ih =>
    intro l X hX
    obtain ⟨S, hS, hsub⟩ := absorb_mem_grow g b l X hX
    obtain ⟨S', hS', hsub'⟩ := ih _ _ hS
    exact ⟨S', hS', Finset.Subset.trans hsub hsub'⟩

theorem foldl_absorb_mem_origin (g : Graph V E) (l2 : List (E × Finset V)) :
    ∀ l : List (E × Finset V), ∀ X ∈ l2.foldl (absorb g) l,
      (∃ S, (X.1, S) ∈ l ∧ S ⊆ X.2) ∨ X.1 ∈ l2.map Prod.fst := by
  induction l2 with
  | nil => intro l X hX; exact Or.inl ⟨X.2, hX, Finset.Subset.refl _⟩
  | cons b l2 ih =>
    intro l X hX
    rcases ih _ X hX with ⟨S, hS, hsub⟩ | h
    · rcases absorb_mem_origin g b l _ hS with ⟨S', hS', hsub'⟩ | h
      · exact Or.inl ⟨S', hS', Finset.Subset.trans hsub' hsub⟩
      · right
        rw [List.map_cons, ← h]
        exact List.mem_cons_self _ _
    · exact Or.inr (List.mem_cons_of_mem _ h)

/-- C5, as amended: the joining pass is a single pass, not repeated to a fixed point. Its
result is the one of taking the neighbourhoods one at a time in iteration order and uniting
each into the first neighbourhood kept so far whose current vertex set, that is its own set
with all the sets united into it so far, contains the start or the end of its leader, and of
keeping it as a new neighbourhood when there is none. Applying the pass to its own output
returns that output unchanged exactly when, in the output, no neighbourhood contains the
start or the end of the leader of a later neighbourhood; this is the case whenever the input
has at most two neighbourhoods. -/
theorem join_join_eq_iff (g : Graph V E) (nbs : List (E × Finset V)) :
    join g nbs = join_one_at_a_time g nbs ∧
    (join g (join g nbs) = join g nbs ↔ no_later_overlap g (join g nbs)) ∧
    (nbs.length ≤ 2 → join g (join g nbs) = join g nbs) := by
  have hiff := join_eq_self_iff g (join g nbs).length (join g nbs) (le_refl _)
  refine ⟨join_eq_join_one_at_a_time g nbs, hiff, ?_⟩
  intro hlen
  rw [hiff]
  match nbs, hlen with
  | [], _ => simp [join_nil, no_later_overlap]
  | [a], _ => simp [join_cons, join_nil, join_inner, no_later_overlap]
  | [a, b], _ =>
    by_cases h : g.EdgeStart b.1 ∈ a.2 ∨ g.EdgeEnd b.1 ∈ a.2
    · simp [join_cons, join_nil, join_inner, no_later_overlap, h]
    · have h' := not_or.mp h
      simp [join_cons, join_nil, join_inner, no_later_overlap, h, h'.1, h'.2]
  | _ :: _ :: _ :: _, hl => simp at hl

/-- C6, as amended: let `B` be a neighbourhood of the map, `pre` the neighbourhoods before it
in iteration order and `post` the ones after it. `B` survives the pass exactly when no
survivor of the pass over `pre` contains the start or the end of the leader of `B`: these
sets are the sets the earlier neighbourhoods have when the leader of `B` is tested against
them. Every survivor `A` of the whole pass that comes before `B` is a survivor of the pass
over `pre`; the set `SA` it has there contains the set `A` had before the pass, is contained
in the final set of `A`, and contains neither the start nor the end of the leader of `B`
when `B` survives. When some survivor of the pass over `pre` contains the start or the end
of the leader of `B`, `B` is united into the first such survivor and dropped. -/
theorem join_survivors_separated (g : Graph V E) (pre post : List (E × Finset V))
    (B : E × Finset V) (hnd : ((pre ++ B :: post).map Prod.fst).Nodup) :
    (B.1 ∈ (join g (pre ++ B :: post)).map Prod.fst ↔
      ∀ A ∈ join g pre, g.EdgeStart B.1 ∉ A.2 ∧ g.EdgeEnd B.1 ∉ A.2) ∧
    (∀ A ∈ join g (pre ++ B :: post), A.1 ∈ pre.map Prod.fst →
      ∃ SA, (A.1, SA) ∈ join g pre ∧ (∀ S0, (A.1, S0) ∈ pre → S0 ⊆ SA) ∧ SA ⊆ A.2 ∧
        (B.1 ∈ (join g (pre ++ B :: post)).map Prod.fst →
          g.EdgeStart B.1 ∉ SA ∧ g.EdgeEnd B.1 ∉ SA)) ∧
    (∀ l1 A l2, join g pre = l1 ++ A :: l2 →
      (∀ A' ∈ l1, g.EdgeStart B.1 ∉ A'.2 ∧ g.EdgeEnd B.1 ∉ A'.2) →
      (g.EdgeStart B.1 ∈ A.2 ∨ g.EdgeEnd B.1 ∈ A.2) →
      join g (pre ++ [B]) = l1 ++ (A.1, A.2 ∪ B.2) :: l2 ∧
      ∃ SA, (A.1, SA) ∈ join g (pre ++ B :: post) ∧ A.2 ∪ B.2 ⊆ SA) ∧
    ((∀ A ∈ join g pre, g.EdgeStart B.1 ∉ A.2 ∧ g.EdgeEnd B.1 ∉ A.2) →
      join g (pre ++ [B]) = join g pre ++ [B]) := by
  have hfull : join g (pre ++ B :: post)
      = post.foldl (absorb g) (absorb g (join g pre) B) := by
    have h1 := join_append g (B :: post) pre
    rw [h1]
    rfl
  have hsnoc : join g (pre ++ [B]) = absorb g (join g pre) B :=
    join_append_singleton g B pre.length pre (le_refl _)
  rw [List.map_append, List.map_cons, List.nodup_append, List.nodup_cons] at hnd
  obtain ⟨hpre, ⟨hBpost, _⟩, hdisj⟩ := hnd
  have hBpre : B.1 ∉ pre.map Prod.fst := fun h => hdisj h (List.mem_cons_self _ _)
  have hprepost : ∀ e ∈ pre.map Prod.fst, e ∉ post.map Prod.fst :=
    fun e he h => hdisj he (List.mem_cons_of_mem _ h)
  have hjoinpre : ∀ e ∈ (join g pre).map Prod.fst, e ∈ pre.map Prod.fst := by
    intro e he
    obtain ⟨x, hx, rfl⟩ := List.mem_map.mp he
    obtain ⟨b, hb, hbx⟩ := join_leader_mem g _ _ (le_refl _) x hx
    rw [← hbx]
    exact List.mem_map_of_mem _ hb
  have hiff : B.1 ∈ (join g (pre ++ B :: post)).map Prod.fst ↔
      ∀ A ∈ join g pre, g.EdgeStart B.1 ∉ A.2 ∧ g.EdgeEnd B.1 ∉ A.2 := by
    constructor
    · intro hB A hA
      by_contra hcon
      have ht : g.EdgeStart B.1 ∈ A.2 ∨ g.EdgeEnd B.1 ∈ A.2 := by
        by_contra hn
        exact hcon (not_or.mp hn)
      obtain ⟨X, hX, hXB⟩ := List.mem_map.mp hB
      rw [hfull] at hX
      rcases foldl_absorb_mem_origin g post _ X hX with ⟨S, hS, _⟩ | h
      · have h1 : X.1 ∈ (absorb g (join g pre) B).map Prod.fst :=
          List.mem_map.mpr ⟨(X.1, S), hS, rfl⟩
        rw [absorb_leaders_of_touch g B _ ⟨A, hA, ht⟩, hXB] at h1
        exact hBpre (hjoinpre _ h1)
      · rw [hXB] at h
        exact hBpost h
    · intro h
      rw [hfull, absorb_of_no_touch g B _ h]
      obtain ⟨S, hS, _⟩ := foldl_absorb_mem_grow g post (join g pre ++ [B]) B (by simp)
      exact List.mem_map.mpr ⟨(B.1, S), hS, rfl⟩
  refine ⟨hiff, ?_, ?_, ?_⟩
  · intro A hA hApre
    rw [hfull] at hA
    rcases foldl_absorb_mem_origin g post _ A hA with ⟨S, hS, hsub⟩ | h
    · rcases absorb_mem_origin g B _ _ hS with ⟨S', hS', hsub'⟩ | h
      · refine ⟨S', hS', ?_, Finset.Subset.trans hsub' hsub, ?_⟩
        · intro S0 hS0
          obtain ⟨b, hb, hb1, hb2⟩ := join_survivor_superset g _ _ (le_refl _) _ hS'
          have : b = (A.1, S0) := List.inj_on_of_nodup_map hpre hb hS0 hb1
          rw [this] at hb2
          exact hb2
        · intro hB
          exact hiff.mp hB _ hS'
      · exact absurd (by rw [← h]; exact hApre) hBpre
    · exact absurd h (hprepost _ hApre)
  · intro l1 A l2 hl hl1 hA
    have h1 : join g (pre ++ [B]) = l1 ++ (A.1, A.2 ∪ B.2) :: l2 := by
      rw [hsnoc, hl, absorb_of_touch g B A l2 hA l1 hl1]
    refine ⟨h1, ?_⟩
    rw [hfull, ← hsnoc, h1]
    exact foldl_absorb_mem_grow g post _ (A.1, A.2 ∪ B.2) (by simp)
  · intro h
    rw [hsnoc, absorb_of_no_touch g B _ h]

end JoinLemmas

/-- Counterexample to C5: with the neighbourhoods of the edges 0, 1 and 2 in this order, the
pass unites the third into the first, which then contains the vertex 5 where the leader of
the second starts; a second pass unites the second as well. -/
theorem join_not_fixed_point :
    join forkGraph forkNeighbourhoods = [(0, {0, 1, 2, 5}), (1, {5, 6})] ∧
    join forkGraph (join forkGraph forkNeighbourhoods) = [(0, {0, 1, 2, 5, 6})] ∧
    join forkGraph (join forkGraph forkNeighbourhoods) ≠ join forkGraph forkNeighbourhoods := by
  decide

/-- Witness of C5 as amended: two neighbourhoods, the second one starting in the first; and
the three neighbourhoods of `forkGraph` taken one at a time. -/
theorem join_join_eq_iff_witness :
    join forkGraph [(0, {0, 1}), (2, {1, 2, 5})] = [(0, {0, 1, 2, 5})] ∧
    join_one_at_a_time forkGraph forkNeighbourhoods = [(0, {0, 1, 2, 5}), (1, {5, 6})] ∧
    join forkGraph (join forkGraph [(0, {0, 1}), (2, {1, 2, 5})])
      = join forkGraph [(0, {0, 1}), (2, {1, 2, 5})] :=
  ⟨by decide, by decide,
    (join_join_eq_iff forkGraph [(0, {0, 1}), (2, {1, 2, 5})]).2.2 (by decide)⟩

/-- Counterexample to C6: after the pass over the neighbourhoods of the edges 0, 1 and 2, the
neighbourhoods of the edges 0 and 1 both survive, and the set of the first contains the
vertex 5, the start of the leader of the second; and of the two neighbourhoods of the edges
0 and 1 with sets `{0, 1}` and `{0, 5, 6}`, both survive although the second contains the
vertex 0, the start of the leader of the first. -/
theorem join_leaves_overlap :
    ¬ (∀ A ∈ join forkGraph forkNeighbourhoods, ∀ B ∈ join forkGraph forkNeighbourhoods,
        A ≠ B → forkGraph.EdgeStart B.1 ∉ A.2 ∧ forkGraph.EdgeEnd B.1 ∉ A.2) ∧
    join forkGraph [(0, {0, 1}), (1, {0, 5, 6})] = [(0, {0, 1}), (1, {0, 5, 6})] ∧
    forkGraph.EdgeStart 0 ∈ ({0, 5, 6} : Finset Nat) := by
  decide

/-- Witness of C6 as amended: in the order 0, 1, 2 the neighbourhood of the edge 1 is tested
against the set `{0, 1}` and survives, although the final set of the edge 0 contains the
vertex 5; in the order 0, 2, 1 it is tested against the set `{0, 1, 2, 5}` and dropped. -/
theorem join_survivors_separated_witness :
    (([(0, {0, 1})] ++ (1, {5, 6}) :: [(2, {1, 2, 5})] :
      List (Nat × Finset Nat)).map Prod.fst).Nodup ∧
    join forkGraph [(0, {0, 1})] = [(0, {0, 1})] ∧
    join forkGraph ([(0, {0, 1})] ++ (1, {5, 6}) :: [(2, {1, 2, 5})])
      = [(0, {0, 1, 2, 5}), (1, {5, 6})] ∧
    join forkGraph [(0, {0, 1}), (2, {1, 2, 5})] = [(0, {0, 1, 2, 5})] ∧
    join forkGraph ([(0, {0, 1}), (2, {1, 2, 5})] ++ (1, {5, 6}) :: [])
      = [(0, {0, 1, 2, 5, 6})] ∧
    (((1, {5, 6}) : Nat × Finset Nat).1 ∈
        (join forkGraph ([(0, {0, 1})] ++ (1, {5, 6}) :: [(2, {1, 2, 5})])).map Prod.fst ↔
      ∀ A ∈ join forkGraph [(0, {0, 1})],
        forkGraph.EdgeStart ((1, {5, 6}) : Nat × Finset Nat).1 ∉ A.2 ∧
        forkGraph.EdgeEnd ((1, {5, 6}) : Nat × Finset Nat).1 ∉ A.2) :=
  ⟨by decide, by decide, by decide, by decide, by decide,
    (join_survivors_separated forkGraph [(0, {0, 1})] [(2, {1, 2, 5})] (1, {5, 6})
      (by decide)).1⟩

/-! ## `MatchedEdges` -/

section MatchedLemmas

variable {E : Type} [DecidableEq E]

theorem map_has_eq_isSome {T : Type} (m : List (E × T)) (e : E) :
    map_has m e = (map_find m e).isSome := by
  induction m with
  | nil => rfl
  | cons kv m ih =>
    unfold map_has at ih ⊢
    by_cases h : kv.1 = e
    · simp [map_find, h]
    · simp [map_find, h, ih]

theorem map_find_eq_none_of_not_has {T : Type} (m : List (E × T)) (e : E)
    (h : map_has m e = false) : map_find m e = none := by
  rw [map_has_eq_isSome] at h
  cases hf : map_find m e with
  | none => rfl
  | some v => rw [hf] at h; simp at h

theorem not_mem_keys_of_not_has {T : Type} (m : List (E × T)) (e : E)
    (h : map_has m e = false) : e ∉ m.map Prod.fst := by
  intro hmem
  obtain ⟨kv, hkv, rfl⟩ := List.mem_map.mp hmem
  have : map_has m kv.1 = true := by
    unfold map_has
    exact List.any_eq_true.mpr ⟨kv, hkv, by simp⟩
  rw [this] at h
  cases h

theorem mem_of_map_find {T : Type} (m : List (E × T)) (e : E) (v : T)
    (h : map_find m e = some v) : (e, v) ∈ m := by
  induction m with
  | nil => simp [map_find] at h
  | cons kv m ih =>
    unfold map_find at h
    split at h
    · rename_i hk
      have hv : kv.2 = v := Option.some.inj h
      have : kv = (e, v) := Prod.ext hk hv
      rw [this]
      exact List.mem_cons_self _ _
    · exact List.mem_cons_of_mem _ (ih h)

theorem map_find_append_singleton {T : Type} (m : List (E × T)) (x : E × T) (e : E) :
    map_find (m ++ [x]) e =
      match map_find m e with
      | some v => some v
      | none => if x.1 = e then some x.2 else none := by
  induction m with
  | nil => simp [map_find]
  | cons kv m ih =>
    by_cases h : kv.1 = e
    · simp [map_find, h]
    · simpa [map_find, h] using ih

theorem map_find_map_raise (m : EdgeAlnInfo E) (e' e : E) (lr : Int × Int) :
    map_find (m.map (fun kv => if kv.1 = e' then (kv.1, raise_entry kv.2 lr) else kv)) e =
      if e = e' then (map_find m e).map (fun q => raise_entry q lr) else map_find m e := by
  induction m with
  | nil => simp [map_find]
  | cons kv m ih =>
    by_cases hk : kv.1 = e
    · by_cases he : e = e'
      · have hk' : kv.1 = e' := hk.trans he
        simp [map_find, hk, hk', he]
      · have hk' : ¬ kv.1 = e' := fun h => he (hk.symm.trans h)
        simp [map_find, hk, hk', he]
    · by_cases hk' : kv.1 = e'
      · have hne : ¬ e' = e := fun h => hk (hk'.trans h)
        have hne' : ¬ e = e' := fun h => hne h.symm
        simpa [map_find, hk, hk', hne, hne'] using ih
      · simpa [map_find, hk, hk'] using ih

/-- The entry of `e` after one domain with overhangs `lr` has been merged for `e'`. -/
theorem map_find_merge_overhang (m : EdgeAlnInfo E) (e' e : E) (lr : Int × Int) :
    map_find (merge_overhang m e' lr) e =
      if e = e' then merged_entry (map_find m e) [lr] else map_find m e := by
  unfold merge_overhang
  by_cases hh : map_has m e' = true
  · simp only [hh, Bool.not_true, Bool.false_eq_true, if_false]
    rw [map_find_map_raise]
    by_cases he : e = e'
    · subst he
      rw [map_has_eq_isSome] at hh
      cases hf : map_find m e with
      | none => rw [hf] at hh; simp at hh
      | some q => simp [merged_entry]
    · simp [he]
  · have hh' : map_has m e' = false := by simpa using hh
    simp only [hh', Bool.not_false, if_true]
    rw [map_find_append_singleton]
    by_cases he : e = e'
    · subst he
      rw [map_find_eq_none_of_not_has m e hh']
      simp [merged_entry]
    · have he' : ¬ e' = e := fun h => he h.symm
      cases hf : map_find m e with
      | none => simp [he, he']
      | some q => simp [he]

theorem nodup_keys_merge_overhang (m : EdgeAlnInfo E) (e : E) (lr : Int × Int)
    (h : (m.map Prod.fst).Nodup) : ((merge_overhang m e lr).map Prod.fst).Nodup := by
  unfold merge_overhang
  by_cases hh : map_has m e = true
  · simp only [hh, Bool.not_true, Bool.false_eq_true, if_false]
    have : (m.map (fun kv => if kv.1 = e then (kv.1, raise_entry kv.2 lr) else kv)).map Prod.fst
        = m.map Prod.fst := by
      rw [List.map_map]
      apply List.map_congr_left
      intro kv _
      by_cases hk : kv.1 = e <;> simp [hk]
    rw [this]
    exact h
  · have hh' : map_has m e = false := by simpa using hh
    simp only [hh', Bool.not_false, if_true, List.map_append, List.map_cons, List.map_nil]
    rw [List.nodup_append]
    refine ⟨h, List.nodup_singleton _, ?_⟩
    intro a ha hb
    rw [List.mem_singleton] at hb
    subst hb
    exact not_mem_keys_of_not_has m a hh' ha

theorem merged_entry_append (o : Option (Int × Int)) (ps qs : List (Int × Int)) :
    merged_entry o (ps ++ qs) = merged_entry (merged_entry o ps) qs := by
  simp [merged_entry, List.foldl_append]

theorem merged_entry_cons (o : Option (Int × Int)) (p : Int × Int) (ps : List (Int × Int)) :
    merged_entry o (p :: ps) = merged_entry (merged_entry o [p]) ps := by
  simp [merged_entry]

/-- The entries after all domains of one hit on `e'` have been merged. -/
theorem map_find_foldl_merge (ds : List Domain) (e' e : E) :
    ∀ m : EdgeAlnInfo E,
      map_find (ds.foldl (fun m d => merge_overhang m e' (overhangs d)) m) e =
        if e = e' then merged_entry (map_find m e) (ds.map overhangs) else map_find m e := by
  induction ds with
  | nil => intro m; simp [merged_entry]
  | cons d ds ih =>
    intro m
    rw [List.foldl_cons, ih, map_find_merge_overhang]
    by_cases he : e = e'
    · simp only [he, if_true, List.map_cons]
      exact (merged_entry_cons _ _ _).symm
    · simp [he]

theorem nodup_keys_foldl_merge (ds : List Domain) (e : E) :
    ∀ m : EdgeAlnInfo E, (m.map Prod.fst).Nodup →
      ((ds.foldl (fun m d => merge_overhang m e (overhangs d)) m).map Prod.fst).Nodup := by
  induction ds with
  | nil => intro m h; exact h
  | cons d ds ih =>
    intro m h
    rw [List.foldl_cons]
    exact ih _ (nodup_keys_merge_overhang m e _ h)

theorem overhangs_on_cons (edges : List E) (h : Hit) (hits : List Hit) (e : E) :
    overhangs_on edges (h :: hits) e =
      (if (h.reported && h.included && decide (hit_edge edges h = some e)) = true
        then h.domains.map overhangs else []) ++ overhangs_on edges hits e := by
  unfold overhangs_on
  by_cases hc : (h.reported && h.included && decide (hit_edge edges h = some e)) = true
  · rw [List.filter_cons, if_pos hc, List.flatMap_cons, if_pos hc]
  · rw [List.filter_cons, if_neg hc, if_neg hc, List.nil_append]

/-- The loop over the hits, from any state `m0`: it ends normally when every reported and
included hit resolves to an edge, keeps the keys distinct, and leaves under every edge the
entry obtained by merging the overhangs on that edge in visiting order. -/
theorem foldlM_process_hit (edges : List E) (hits : List Hit)
    (hres : ∀ h ∈ hits, h.reported = true → h.included = true →
      (hit_edge edges h).isSome = true) :
    ∀ m0 : EdgeAlnInfo E, (m0.map Prod.fst).Nodup →
      ∃ m, hits.foldlM (process_hit edges) m0 = some m ∧ (m.map Prod.fst).Nodup ∧
        ∀ e, map_find m e = merged_entry (map_find m0 e) (overhangs_on edges hits e) := by
  induction hits with
  | nil =>
    intro m0 h0
    exact ⟨m0, rfl, h0, fun e => by simp [overhangs_on, merged_entry]⟩
  | cons h hits ih =>
    intro m0 h0
    have hres' : ∀ h' ∈ hits, h'.reported = true → h'.included = true →
        (hit_edge edges h').isSome = true :=
      fun h' hh' => hres h' (List.mem_cons_of_mem _ hh')
    rw [List.foldlM_cons]
    by_cases hri : h.reported = true ∧ h.included = true
    · obtain ⟨hr, hi⟩ := hri
      have hsome := hres h (List.mem_cons_self _ _) hr hi
      obtain ⟨e', he'⟩ := Option.isSome_iff_exists.mp hsome
      have hp : process_hit edges m0 h
          = some (h.domains.foldl (fun m d => merge_overhang m e' (overhangs d)) m0) := by
        simp [process_hit, hr, hi, he']
      rw [hp]
      obtain ⟨m, hm, hnd, hfind⟩ := ih hres' _ (nodup_keys_foldl_merge h.domains e' m0 h0)
      refine ⟨m, hm, hnd, ?_⟩
      intro e
      rw [hfind e, map_find_foldl_merge, overhangs_on_cons, merged_entry_append]
      by_cases hee : e = e'
      · subst hee
        simp [hr, hi, he']
      · have : ¬ e' = e := fun h => hee h.symm
        simp [hr, hi, he', hee, this, merged_entry]
    · have hp : process_hit edges m0 h = some m0 := by
        unfold process_hit
        have : (!h.reported || !h.included) = true := by
          cases hr : h.reported <;> cases hi : h.included <;> simp_all
        rw [if_pos this]
      rw [hp]
      obtain ⟨m, hm, hnd, hfind⟩ := ih hres' m0 h0
      refine ⟨m, hm, hnd, ?_⟩
      intro e
      rw [hfind e, overhangs_on_cons]
      have : ¬ (h.reported && h.included && decide (hit_edge edges h = some e)) = true := by
        intro hc
        simp only [Bool.and_eq_true] at hc
        exact hri hc.1
      rw [if_neg this, List.nil_append]

theorem raise_entry_eq_max (q p : Int × Int) :
    raise_entry q p = (max q.1 p.1, max q.2 p.2) := by
  unfold raise_entry
  apply Prod.ext
  · simp only
    split <;> omega
  · simp only
    split <;> omega

theorem maximum_cons_cons (a b : Int) (l : List Int) :
    (a :: b :: l).maximum = (max a b :: l).maximum := by
  rw [List.maximum_cons, List.maximum_cons, List.maximum_cons, WithBot.coe_max, max_assoc]

/-- Merging into an existing entry `q` gives the componentwise maximum of `q` and of the
merged overhangs. -/
theorem merged_entry_some_max (ps : List (Int × Int)) :
    ∀ q : Int × Int, ∃ r, merged_entry (some q) ps = some r ∧
      ((q :: ps).map Prod.fst).maximum = (r.1 : WithBot Int) ∧
      ((q :: ps).map Prod.snd).maximum = (r.2 : WithBot Int) := by
  induction ps with
  | nil =>
    intro q
    exact ⟨q, rfl, by simp [List.maximum_singleton], by simp [List.maximum_singleton]⟩
  | cons p ps ih =>
    intro q
    obtain ⟨r, hr, h1, h2⟩ := ih (raise_entry q p)
    refine ⟨r, ?_, ?_, ?_⟩
    · rw [merged_entry_cons]
      exact hr
    · rw [raise_entry_eq_max] at h1
      simp only [List.map_cons] at h1 ⊢
      rw [maximum_cons_cons]
      exact h1
    · rw [raise_entry_eq_max] at h2
      simp only [List.map_cons] at h2 ⊢
      rw [maximum_cons_cons]
      exact h2

/-- Merging from no entry: no entry when there is no overhang, and otherwise the
componentwise maximum. -/
theorem merged_entry_none_max (ps : List (Int × Int)) :
    match merged_entry none ps with
    | none => ps = []
    | some r => (ps.map Prod.fst).maximum = (r.1 : WithBot Int) ∧
        (ps.map Prod.snd).maximum = (r.2 : WithBot Int) := by
  cases ps with
  | nil => simp [merged_entry]
  | cons p ps =>
    obtain ⟨r, hr, h1, h2⟩ := merged_entry_some_max ps p
    have : merged_entry none (p :: ps) = some r := by
      rw [merged_entry_cons]
      exact hr
    rw [this]
    exact ⟨h1, h2⟩

theorem maximum_perm {l l' : List Int} (h : l.Perm l') : l.maximum = l'.maximum := by
  cases l' with
  | nil => rw [h.eq_nil]
  | cons a t =>
    obtain ⟨r, hr⟩ : ∃ r : Int, (a :: t).maximum = (r : WithBot Int) := by
      cases hm : (a :: t).maximum with
      | bot => exact absurd (List.maximum_eq_bot.mp hm) (by simp)
      | coe r => exact ⟨r, rfl⟩
    rw [hr]
    rw [List.maximum_eq_coe_iff] at hr ⊢
    exact ⟨h.mem_iff.mpr hr.1, fun x hx => hr.2 x (h.mem_iff.mp hx)⟩

theorem merged_entry_none_perm {ps ps' : List (Int × Int)} (h : ps.Perm ps') :
    merged_entry none ps = merged_entry none ps' := by
  have h1 := merged_entry_none_max ps
  have h2 := merged_entry_none_max ps'
  have hf := maximum_perm (h.map Prod.fst)
  have hs := maximum_perm (h.map Prod.snd)
  cases hm : merged_entry none ps with
  | none =>
    rw [hm] at h1
    subst h1
    have := h.nil_eq
    subst this
    exact hm.symm
  | some r =>
    cases hm' : merged_entry none ps' with
    | none =>
      rw [hm'] at h2
      subst h2
      have := h.eq_nil
      subst this
      rw [hm] at hm'
      exact hm'
    | some r' =>
      rw [hm] at h1
      rw [hm'] at h2
      simp only at h1 h2
      rw [hf, h2.1] at h1
      rw [hs, h2.2] at h1
      have e1 : r'.1 = r.1 := WithBot.coe_injective h1.1
      have e2 : r'.2 = r.2 := WithBot.coe_injective h1.2
      rw [Prod.ext e1 e2]

theorem hit_edge_congr (edges : List E) (h' h : Hit) (hn : h'.name = h.name) :
    hit_edge edges h' = hit_edge edges h := by
  unfold hit_edge
  rw [hn]

theorem overhangs_on_perm_of_forall₂ (edges : List E) (e : E) (hits' hits : List Hit)
    (hrel : List.Forall₂ (fun h' h => h'.reported = h.reported ∧ h'.included = h.included ∧
      h'.name = h.name ∧ h'.domains.Perm h.domains) hits' hits) :
    (overhangs_on edges hits' e).Perm (overhangs_on edges hits e) := by
  induction hrel with
  | nil => exact List.Perm.refl _
  | @cons h' h t' t hh _ ih =>
    obtain ⟨hr, hi, hn, hd⟩ := hh
    rw [overhangs_on_cons, overhangs_on_cons, hr, hi, hit_edge_congr edges h' h hn]
    refine List.Perm.append ?_ ih
    split
    · exact hd.map _
    · exact List.Perm.refl _

theorem hit_resolves_of_forall₂ (edges : List E) (hits' hits : List Hit)
    (hrel : List.Forall₂ (fun h' h => h'.reported = h.reported ∧ h'.included = h.included ∧
      h'.name = h.name ∧ h'.domains.Perm h.domains) hits' hits)
    (hres : ∀ h ∈ hits, h.reported = true → h.included = true →
      (hit_edge edges h).isSome = true) :
    ∀ h ∈ hits', h.reported = true → h.included = true → (hit_edge edges h).isSome = true := by
  induction hrel with
  | nil => intro h hh; cases hh
  | @cons h' h t' t hh _ ih =>
    obtain ⟨hr, hi, hn, _⟩ := hh
    intro x hx
    rcases List.mem_cons.mp hx with rfl | hx'
    · intro h1 h2
      rw [hit_edge_congr edges x h hn]
      exact hres h (List.mem_cons_self _ _) (hr ▸ h1) (hi ▸ h2)
    · exact ih (fun y hy => hres y (List.mem_cons_of_mem _ hy)) x hx'

/-- C7: when every reported and included hit resolves to an edge, `MatchedEdges` returns a
map with distinct keys that has no entry for an edge hit by no domain and otherwise maps the
edge to the pair (maximum of the left overhangs, maximum of the right overhangs) over all
domains of all reported and included hits resolving to it; visiting the hits in another
order, or the domains of each hit in another order, gives the same entries. -/
theorem MatchedEdges_max_overhangs (edges : List E) (hits : List Hit)
    (hres : ∀ h ∈ hits, h.reported = true → h.included = true →
      (hit_edge edges h).isSome = true) :
    ∃ m, MatchedEdges edges hits = some m ∧ (m.map Prod.fst).Nodup ∧
      (∀ e, match map_find m e with
        | none => overhangs_on edges hits e = []
        | some lr =>
          ((overhangs_on edges hits e).map Prod.fst).maximum = (lr.1 : WithBot Int) ∧
          ((overhangs_on edges hits e).map Prod.snd).maximum = (lr.2 : WithBot Int)) ∧
      (∀ hits' : List Hit, hits'.Perm hits →
        ∃ m', MatchedEdges edges hits' = some m' ∧ ∀ e, map_find m' e = map_find m e) ∧
      (∀ hits' : List Hit,
        List.Forall₂ (fun h' h => h'.reported = h.reported ∧ h'.included = h.included ∧
          h'.name = h.name ∧ h'.domains.Perm h.domains) hits' hits →
        ∃ m', MatchedEdges edges hits' = some m' ∧ ∀ e, map_find m' e = map_find m e) := by
  obtain ⟨m, hm, hnd, hfind⟩ := foldlM_process_hit edges hits hres [] List.nodup_nil
  have hfind' : ∀ e, map_find m e = merged_entry none (overhangs_on edges hits e) :=
    fun e => by rw [hfind e]; rfl
  refine ⟨m, hm, hnd, ?_, ?_, ?_⟩
  · intro e
    rw [hfind' e]
    exact merged_entry_none_max _
  · intro hits' hperm
    have hres' : ∀ h ∈ hits', h.reported = true → h.included = true →
        (hit_edge edges h).isSome = true :=
      fun h hh => hres h (hperm.mem_iff.mp hh)
    obtain ⟨m', hm', _, hfindp⟩ := foldlM_process_hit edges hits' hres' [] List.nodup_nil
    refine ⟨m', hm', ?_⟩
    intro e
    rw [hfind' e, hfindp e]
    exact merged_entry_none_perm ((hperm.filter _).flatMap_right _)
  · intro hits' hrel
    have hres' := hit_resolves_of_forall₂ edges hits' hits hrel hres
    obtain ⟨m', hm', _, hfindp⟩ := foldlM_process_hit edges hits' hres' [] List.nodup_nil
    refine ⟨m', hm', ?_⟩
    intro e
    rw [hfind' e, hfindp e]
    exact merged_entry_none_perm (overhangs_on_perm_of_forall₂ edges e hits' hits hrel)

/-- C8: for a domain with HMM length `M`, sequence length `L`, `seqpos = (s_start, s_end)` and
`hmmpos = (h_start, h_end)` the overhangs are `h_start - s_start` on the left and
`(M - h_end) - (L - s_end)` on the right, as signed integers, and this is the entry that
`MatchedEdges` stores for a single reported and included hit with this domain. -/
theorem MatchedEdges_overhangs_of_domain (edges : List E) (name : String) (e : E)
    (M L s_start s_end h_start h_end : Int)
    (hname : hit_edge edges
      ⟨true, true, name, [⟨M, L, (s_start, s_end), (h_start, h_end)⟩]⟩ = some e) :
    overhangs ⟨M, L, (s_start, s_end), (h_start, h_end)⟩
      = (h_start - s_start, (M - h_end) - (L - s_end)) ∧
    MatchedEdges edges [⟨true, true, name, [⟨M, L, (s_start, s_end), (h_start, h_end)⟩]⟩]
      = some [(e, (h_start - s_start, (M - h_end) - (L - s_end)))] := by
  refine ⟨rfl, ?_⟩
  simp [MatchedEdges, process_hit, hname, merge_overhang, map_has, overhangs]

theorem raise_entry_self (p : Int × Int) : raise_entry p p = p := by
  simp [raise_entry]

theorem raise_entry_raise_entry (q p : Int × Int) :
    raise_entry (raise_entry q p) p = raise_entry q p := by
  unfold raise_entry
  apply Prod.ext
  · simp only
    split_ifs <;> rfl
  · simp only
    split_ifs <;> rfl

theorem map_has_map_raise (m : EdgeAlnInfo E) (e e' : E) (lr : Int × Int) :
    map_has (m.map (fun kv => if kv.1 = e' then (kv.1, raise_entry kv.2 lr) else kv)) e
      = map_has m e := by
  rw [map_has_eq_isSome, map_has_eq_isSome, map_find_map_raise]
  split
  · simp
  · rfl

/-- C9: merging the overhangs `(L, R)` of a domain hitting `e` twice gives the same map as
merging them once, and merging them into a map (with distinct keys) whose entry for `e`
already is `(L, R)` leaves the map unchanged. -/
theorem merge_overhang_idempotent (m : EdgeAlnInfo E) (e : E) (lr : Int × Int) :
    merge_overhang (merge_overhang m e lr) e lr = merge_overhang m e lr ∧
    ((m.map Prod.fst).Nodup → map_find m e = some lr → merge_overhang m e lr = m) := by
  constructor
  · by_cases hh : map_has m e = true
    · have h1 : merge_overhang m e lr
          = m.map (fun kv => if kv.1 = e then (kv.1, raise_entry kv.2 lr) else kv) := by
        simp [merge_overhang, hh]
      rw [h1]
      have h2 : map_has (m.map (fun kv => if kv.1 = e then (kv.1, raise_entry kv.2 lr)
          else kv)) e = true := by
        rw [map_has_map_raise]
        exact hh
      unfold merge_overhang
      simp only [h2, Bool.not_true, Bool.false_eq_true, if_false, List.map_map]
      apply List.map_congr_left
      intro kv _
      by_cases hk : kv.1 = e
      · simp [hk, raise_entry_raise_entry]
      · simp [hk]
    · have hh' : map_has m e = false := by simpa using hh
      have h1 : merge_overhang m e lr = m ++ [(e, lr)] := by
        simp [merge_overhang, hh']
      rw [h1]
      have h2 : map_has (m ++ [(e, lr)]) e = true := by
        simp [map_has]
      unfold merge_overhang
      simp only [h2, Bool.not_true, Bool.false_eq_true, if_false, List.map_append,
        List.map_cons, List.map_nil, if_true, raise_entry_self]
      congr 1
      conv_rhs => rw [← List.map_id m]
      apply List.map_congr_left
      intro kv hkv
      have hk : ¬ kv.1 = e := by
        intro hk
        exact not_mem_keys_of_not_has m e hh' (List.mem_map.mpr ⟨kv, hkv, hk⟩)
      simp [hk]
  · intro hnd hf
    have hh : map_has m e = true := by
      rw [map_has_eq_isSome, hf]
      rfl
    have hmem := mem_of_map_find m e lr hf
    unfold merge_overhang
    simp only [hh, Bool.not_true, Bool.false_eq_true, if_false]
    conv_rhs => rw [← List.map_id m]
    apply List.map_congr_left
    intro kv hkv
    by_cases hk : kv.1 = e
    · have : kv = (e, lr) := List.inj_on_of_nodup_map hnd hkv hmem hk
      subst this
      simp [raise_entry_self]
    · simp [hk]

end MatchedLemmas

/-- Witness of C7: two hits on the edge 20 (frames 0 and 2 of the sequence 1), one with two
domains, and a hit that is not included. -/
theorem MatchedEdges_max_overhangs_witness :
    MatchedEdges [10, 20, 30] exampleHits = some [(20, (2, 2))] ∧
    (∀ h ∈ exampleHits, h.reported = true → h.included = true →
      (hit_edge [10, 20, 30] h).isSome = true) ∧
    ∃ m, MatchedEdges [10, 20, 30] exampleHits = some m ∧ (m.map Prod.fst).Nodup ∧
      (∀ e, match map_find m e with
        | none => overhangs_on [10, 20, 30] exampleHits e = []
        | some lr =>
          ((overhangs_on [10, 20, 30] exampleHits e).map Prod.fst).maximum
            = (lr.1 : WithBot Int) ∧
          ((overhangs_on [10, 20, 30] exampleHits e).map Prod.snd).maximum
            = (lr.2 : WithBot Int)) ∧
      (∀ hits' : List Hit, hits'.Perm exampleHits →
        ∃ m', MatchedEdges [10, 20, 30] hits' = some m' ∧
          ∀ e, map_find m' e = map_find m e) ∧
      (∀ hits' : List Hit,
        List.Forall₂ (fun (h' h : Hit) => h'.reported = h.reported ∧
          h'.included = h.included ∧ h'.name = h.name ∧ h'.domains.Perm h.domains)
          hits' exampleHits →
        ∃ m', MatchedEdges [10, 20, 30] hits' = some m' ∧
          ∀ e, map_find m' e = map_find m e) :=
  ⟨by decide, by decide, MatchedEdges_max_overhangs [10, 20, 30] exampleHits (by decide)⟩

/-- Witness of C8: a domain whose two overhangs are negative, `-2` and `-22`. -/
theorem MatchedEdges_overhangs_of_domain_witness :
    hit_edge [10, 20] ⟨true, true, "1_2", [⟨5, 30, (4, 8), (2, 5)⟩]⟩ = some 20 ∧
    (overhangs ⟨5, 30, (4, 8), (2, 5)⟩ = (2 - 4, (5 - 5) - (30 - 8)) ∧
      MatchedEdges [10, 20] [⟨true, true, "1_2", [⟨5, 30, (4, 8), (2, 5)⟩]⟩]
        = some [(20, (2 - 4, (5 - 5) - (30 - 8)))]) ∧
    ((2 : Int) - 4 < 0 ∧ ((5 : Int) - 5) - (30 - 8) < 0) :=
  ⟨by decide, MatchedEdges_overhangs_of_domain [10, 20] "1_2" 20 5 30 4 8 2 5 (by decide),
    by decide⟩

/-- Witness of C9: merging `(2, 3)` for the edge 20 into a map that holds `(2, 3)` for it. -/
theorem merge_overhang_idempotent_witness :
    (([(10, (1, 1)), (20, (2, 3))] : EdgeAlnInfo Nat).map Prod.fst).Nodup ∧
    map_find ([(10, (1, 1)), (20, (2, 3))] : EdgeAlnInfo Nat) 20 = some (2, 3) ∧
    (merge_overhang (merge_overhang [(10, (1, 1)), (20, (2, 3))] 20 (2, 3)) 20 (2, 3)
        = merge_overhang [(10, (1, 1)), (20, (2, 3))] 20 (2, 3) ∧
      ((([(10, (1, 1)), (20, (2, 3))] : EdgeAlnInfo Nat).map Prod.fst).Nodup →
        map_find ([(10, (1, 1)), (20, (2, 3))] : EdgeAlnInfo Nat) 20 = some (2, 3) →
        merge_overhang [(10, (1, 1)), (20, (2, 3))] 20 (2, 3)
          = [(10, (1, 1)), (20, (2, 3))])) :=
  ⟨by decide, by decide, merge_overhang_idempotent [(10, (1, 1)), (20, (2, 3))] 20 (2, 3)⟩

/-! ## `ExtractNeighbourhoods` -/

section ExtractLemmas

variable {V E : Type} [DecidableEq V] [DecidableEq E]

theorem map_find_map_update {T : Type} (m : List (E × T)) (e' e : E) (f : T → T) :
    map_find (m.map (fun kv => if kv.1 = e' then (kv.1, f kv.2) else kv)) e =
      if e = e' then (map_find m e).map f else map_find m e := by
  induction m with
  | nil => simp [map_find]
  | cons kv m ih =>
    by_cases hk : kv.1 = e
    · by_cases he : e = e'
      · have hk' : kv.1 = e' := hk.trans he
        simp [map_find, hk, hk', he]
      · have hk' : ¬ kv.1 = e' := fun h => he (hk.symm.trans h)
        simp [map_find, hk, hk', he]
    · by_cases hk' : kv.1 = e'
      · have hne : ¬ e' = e := fun h => hk (hk'.trans h)
        have hne' : ¬ e = e' := fun h => hne h.symm
        simpa [map_find, hk, hk', hne, hne'] using ih
      · simpa [map_find, hk, hk'] using ih

/-- The set of `x` after `neighbourhoods[e].insert(vs)`. -/
theorem map_find_nb_insert (nb : List (E × Finset V)) (e x : E) (vs : Finset V) :
    map_find (nb_insert nb e vs) x =
      if x = e then some ((map_find nb e).getD ∅ ∪ vs) else map_find nb x := by
  unfold nb_insert
  by_cases hh : map_has nb e = true
  · rw [if_pos hh, map_find_map_update nb e x (fun s => s ∪ vs)]
    by_cases hx : x = e
    · subst hx
      rw [map_has_eq_isSome] at hh
      cases hf : map_find nb x with
      | none => rw [hf] at hh; simp at hh
      | some s => simp
    · simp [hx]
  · have hh' : map_has nb e = false := by simpa using hh
    rw [if_neg hh, map_find_append_singleton]
    by_cases hx : x = e
    · subst hx
      rw [map_find_eq_none_of_not_has nb x hh']
      simp
    · have hx' : ¬ e = x := fun h => hx h.symm
      cases hf : map_find nb x with
      | none => simp [hx, hx']
      | some s => simp [hx]

/-- The set of `x` after the loop body has run on `entry`. -/
theorem map_find_extract_step (g : Graph V E) (fd bd : Int → V → List V) (mult : Int)
    (nb : List (E × Finset V)) (entry : E × (Int × Int)) (x : E) :
    map_find (extract_step g fd bd mult nb entry) x =
      if x = entry.1 then
        some ((map_find nb entry.1).getD ∅
          ∪ (if entry.2.2 * mult > 0 then (fd (entry.2.2 * mult) (g.EdgeEnd entry.1)).toFinset
              else ∅)
          ∪ (if entry.2.1 * mult > 0 then (bd (entry.2.1 * mult) (g.EdgeStart entry.1)).toFinset
              else ∅)
          ∪ {g.EdgeEnd entry.1} ∪ {g.EdgeStart entry.1})
      else map_find nb x := by
  unfold extract_step
  simp only [map_find_nb_insert]
  by_cases hx : x = entry.1
  · simp only [hx, if_true, Option.getD_some, apply_ite List.toFinset, List.toFinset_nil]
  · simp [hx]

theorem map_find_foldl_extract_other (g : Graph V E) (fd bd : Int → V → List V) (mult : Int)
    (matched : EdgeAlnInfo E) (x : E) (hx : x ∉ matched.map Prod.fst) :
    ∀ nb : List (E × Finset V),
      map_find (matched.foldl (extract_step g fd bd mult) nb) x = map_find nb x := by
  induction matched with
  | nil => intro nb; rfl
  | cons entry rest ih =>
    intro nb
    simp only [List.map_cons, List.mem_cons, not_or] at hx
    rw [List.foldl_cons, ih hx.2, map_find_extract_step, if_neg hx.1]

theorem map_find_foldl_extract (g : Graph V E) (fd bd : Int → V → List V) (mult : Int)
    (matched : EdgeAlnInfo E) (e : E) (lr : Int × Int)
    (hnd : (matched.map Prod.fst).Nodup) (hmem : (e, lr) ∈ matched) :
    ∀ nb : List (E × Finset V), map_find nb e = none →
      map_find (matched.foldl (extract_step g fd bd mult) nb) e =
        some ((if lr.2 * mult > 0 then (fd (lr.2 * mult) (g.EdgeEnd e)).toFinset else ∅)
          ∪ (if lr.1 * mult > 0 then (bd (lr.1 * mult) (g.EdgeStart e)).toFinset else ∅)
          ∪ {g.EdgeStart e, g.EdgeEnd e}) := by
  induction matched with
  | nil => cases hmem
  | cons entry rest ih =>
    intro nb hnb
    simp only [List.map_cons, List.nodup_cons] at hnd
    rw [List.foldl_cons]
    rcases List.mem_cons.mp hmem with heq | hrest
    · subst heq
      rw [map_find_foldl_extract_other g fd bd mult rest e hnd.1, map_find_extract_step,
        if_pos rfl, hnb]
      simp only [Option.getD_none]
      congr 1
      ext v
      simp only [Finset.mem_union, Finset.mem_insert, Finset.mem_singleton, Finset.not_mem_empty,
        false_or]
      tauto
    · have hne : ¬ e = entry.1 := by
        intro h
        apply hnd.1
        rw [← h]
        exact List.mem_map.mpr ⟨(e, lr), hrest, rfl⟩
      apply ih hnd.2 hrest
      rw [map_find_extract_step, if_neg hne]
      exact hnb

/-- C10: for a matched entry `(e, (L, R))` of a map with distinct keys and a multiplier
`mult`, the vertex set that `ExtractNeighbourhoods` returns for `e` is `F ∪ B ∪ {start(e),
end(e)}`, where `F` is what the forward bounded traversal from `end(e)` with budget
`R * mult` reaches if `R * mult > 0` and is empty otherwise, and `B` is what the backward
bounded traversal from `start(e)` with budget `L * mult` reaches if `L * mult > 0` and is
empty otherwise; with the overhangs `(0, 15)` and `mult = 2` the forward budget is 30 and
no backward traversal contributes. -/
theorem ExtractNeighbourhoods_entry (g : Graph V E) (fdijkstra bdijkstra : Int → V → List V)
    (matched_edges : EdgeAlnInfo E) (mult : Int) (e : E) (L R : Int)
    (hnd : (matched_edges.map Prod.fst).Nodup) (hmem : (e, (L, R)) ∈ matched_edges) :
    map_find (ExtractNeighbourhoods g fdijkstra bdijkstra matched_edges mult) e =
      some ((if R * mult > 0 then (fdijkstra (R * mult) (g.EdgeEnd e)).toFinset else ∅)
        ∪ (if L * mult > 0 then (bdijkstra (L * mult) (g.EdgeStart e)).toFinset else ∅)
        ∪ {g.EdgeStart e, g.EdgeEnd e}) ∧
    (L = 0 → R = 15 → mult = 2 →
      map_find (ExtractNeighbourhoods g fdijkstra bdijkstra matched_edges mult) e =
        some ((fdijkstra 30 (g.EdgeEnd e)).toFinset ∪ {g.EdgeStart e, g.EdgeEnd e})) := by
  have h := map_find_foldl_extract g fdijkstra bdijkstra mult matched_edges e (L, R) hnd hmem
    [] rfl
  refine ⟨h, ?_⟩
  intro hL hR hm
  unfold ExtractNeighbourhoods
  rw [h, hL, hR, hm]
  simp

end ExtractLemmas

/-- Witness of C10: the edge `3 : 3 → 4` of the chain graph with the overhangs `(0, 15)` and
`mult = 2`; the forward traversal with budget 30 reaches the vertices 4 to 14. -/
theorem ExtractNeighbourhoods_entry_witness :
    (([(3, (0, 15)), (7, (2, -1))] : EdgeAlnInfo Nat).map Prod.fst).Nodup ∧
    ((3, ((0 : Int), (15 : Int))) ∈ ([(3, (0, 15)), (7, (2, -1))] : EdgeAlnInfo Nat)) ∧
    ExtractNeighbourhoods chainGraph chainForward chainBackward [(3, (0, 15)), (7, (2, -1))] 2
      = [(3, {3, 4, 5, 6, 7, 8, 9, 10, 11, 12, 13, 14}), (7, {6, 7, 8})] ∧
    (map_find (ExtractNeighbourhoods chainGraph chainForward chainBackward
        [(3, (0, 15)), (7, (2, -1))] 2) 3 =
      some ((if (15 : Int) * 2 > 0 then (chainForward (15 * 2) (chainGraph.EdgeEnd 3)).toFinset
          else ∅)
        ∪ (if (0 : Int) * 2 > 0 then (chainBackward (0 * 2) (chainGraph.EdgeStart 3)).toFinset
          else ∅)
        ∪ {chainGraph.EdgeStart 3, chainGraph.EdgeEnd 3}) ∧
      ((0 : Int) = 0 → (15 : Int) = 15 → (2 : Int) = 2 →
        map_find (ExtractNeighbourhoods chainGraph chainForward chainBackward
          [(3, (0, 15)), (7, (2, -1))] 2) 3 =
        some ((chainForward 30 (chainGraph.EdgeEnd 3)).toFinset
          ∪ {chainGraph.EdgeStart 3, chainGraph.EdgeEnd 3}))) :=
  ⟨by decide, by decide, by decide,
    ExtractNeighbourhoods_entry chainGraph chainForward chainBackward
      [(3, (0, 15)), (7, (2, -1))] 2 3 0 15 (by decide) (by decide)⟩

/-! ## The keys of `ExtractNeighbourhoods` and the multiplier of `main` -/

section KeysLemmas

variable {V E : Type} [DecidableEq V] [DecidableEq E]

theorem map_has_iff_mem_keys {T : Type} (m : List (E × T)) (e : E) :
    map_has m e = true ↔ e ∈ m.map Prod.fst := by
  unfold map_has
  simp only [List.any_eq_true, decide_eq_true_eq, List.mem_map]

/-- The keys after `neighbourhoods[e].insert(vs)`: `e` is added at the end when it is new. -/
theorem keys_nb_insert (nb : List (E × Finset V)) (e : E) (vs : Finset V) :
    (nb_insert nb e vs).map Prod.fst =
      if e ∈ nb.map Prod.fst then nb.map Prod.fst else nb.map Prod.fst ++ [e] := by
  unfold nb_insert
  by_cases hh : map_has nb e = true
  · have hmem := (map_has_iff_mem_keys nb e).mp hh
    rw [if_pos hh, if_pos hmem, List.map_map]
    apply List.map_congr_left
    intro kv _
    by_cases hk : kv.1 = e <;> simp [hk]
  · have hmem : e ∉ nb.map Prod.fst := fun h => hh ((map_has_iff_mem_keys nb e).mpr h)
    rw [if_neg hh, if_neg hmem]
    simp

theorem keys_nb_insert_of_mem (nb : List (E × Finset V)) (e : E) (vs : Finset V)
    (h : e ∈ nb.map Prod.fst) : (nb_insert nb e vs).map Prod.fst = nb.map Prod.fst := by
  rw [keys_nb_insert, if_pos h]

/-- The keys after the loop body of `ExtractNeighbourhoods` has run on `entry`. -/
theorem keys_extract_step (g : Graph V E) (fd bd : Int → V → List V) (mult : Int)
    (nb : List (E × Finset V)) (entry : E × (Int × Int)) :
    (extract_step g fd bd mult nb entry).map Prod.fst =
      if entry.1 ∈ nb.map Prod.fst then nb.map Prod.fst else nb.map Prod.fst ++ [entry.1] := by
  unfold extract_step
  simp only
  have h1 : entry.1 ∈ (nb_insert nb entry.1
      (if entry.2.2 * mult > 0 then fd (entry.2.2 * mult) (g.EdgeEnd entry.1)
        else []).toFinset).map Prod.fst := by
    rw [keys_nb_insert]
    split
    · assumption
    · simp
  rw [keys_nb_insert_of_mem, keys_nb_insert_of_mem, keys_nb_insert_of_mem _ _ _ h1,
    keys_nb_insert]
  · rw [keys_nb_insert_of_mem _ _ _ h1]
    exact h1
  · rw [keys_nb_insert_of_mem, keys_nb_insert_of_mem _ _ _ h1]
    · exact h1
    · rw [keys_nb_insert_of_mem _ _ _ h1]
      exact h1

theorem keys_foldl_extract (g : Graph V E) (fd bd : Int → V → List V) (mult : Int)
    (matched : EdgeAlnInfo E) :
    ∀ nb : List (E × Finset V),
      (∀ e, e ∈ (matched.foldl (extract_step g fd bd mult) nb).map Prod.fst ↔
        e ∈ nb.map Prod.fst ∨ e ∈ matched.map Prod.fst) ∧
      ((nb.map Prod.fst).Nodup →
        ((matched.foldl (extract_step g fd bd mult) nb).map Prod.fst).Nodup) ∧
      ((matched.map Prod.fst).Nodup → (∀ e ∈ matched.map Prod.fst, e ∉ nb.map Prod.fst) →
        (matched.foldl (extract_step g fd bd mult) nb).map Prod.fst
          = nb.map Prod.fst ++ matched.map Prod.fst) := by
  induction matched with
  | nil =>
    intro nb
    exact ⟨fun e => by simp, fun h => h, fun _ _ => by simp⟩
  | cons entry rest ih =>
    intro nb
    obtain ⟨ih1, ih2, ih3⟩ := ih (extract_step g fd bd mult nb entry)
    have hk := keys_extract_step g fd bd mult nb entry
    rw [List.foldl_cons]
    refine ⟨?_, ?_, ?_⟩
    · intro e
      rw [ih1 e, hk]
      by_cases hmem : entry.1 ∈ nb.map Prod.fst
      · rw [if_pos hmem]
        simp only [List.map_cons, List.mem_cons]
        constructor
        · rintro (h | h)
          · exact Or.inl h
          · exact Or.inr (Or.inr h)
        · rintro (h | h | h)
          · exact Or.inl h
          · exact Or.inl (h ▸ hmem)
          · exact Or.inr h
      · rw [if_neg hmem]
        simp only [List.map_cons, List.mem_cons, List.mem_append, List.mem_singleton]
        tauto
    · intro hnd
      apply ih2
      rw [hk]
      by_cases hmem : entry.1 ∈ nb.map Prod.fst
      · rw [if_pos hmem]
        exact hnd
      · rw [if_neg hmem, List.nodup_append]
        refine ⟨hnd, List.nodup_singleton _, ?_⟩
        intro a ha hb
        rw [List.mem_singleton] at hb
        exact hmem (hb ▸ ha)
    · intro hnd hdisj
      simp only [List.map_cons, List.nodup_cons] at hnd
      have hnew : entry.1 ∉ nb.map Prod.fst :=
        hdisj entry.1 (by simp)
      have hk' : (extract_step g fd bd mult nb entry).map Prod.fst
          = nb.map Prod.fst ++ [entry.1] := by
        rw [hk, if_neg hnew]
      rw [ih3 hnd.2, hk']
      · simp
      · intro e he
        rw [hk']
        simp only [List.mem_append, List.mem_singleton, not_or]
        refine ⟨hdisj e (by simp [he]), ?_⟩
        intro heq
        exact hnd.1 (heq ▸ he)

/-- C11: `ExtractNeighbourhoods` is a total function of its input (it has no failing path);
the keys of the map it returns are distinct and are exactly the edges of the input
`EdgeAlnInfo` (in the same order when the input keys are distinct); for the empty input it
returns the empty map. -/
theorem ExtractNeighbourhoods_keys (g : Graph V E) (fdijkstra bdijkstra : Int → V → List V)
    (matched_edges : EdgeAlnInfo E) (mult : Int) :
    (∀ e, e ∈ (ExtractNeighbourhoods g fdijkstra bdijkstra matched_edges mult).map Prod.fst ↔
      e ∈ matched_edges.map Prod.fst) ∧
    ((ExtractNeighbourhoods g fdijkstra bdijkstra matched_edges mult).map Prod.fst).Nodup ∧
    ((matched_edges.map Prod.fst).Nodup →
      (ExtractNeighbourhoods g fdijkstra bdijkstra matched_edges mult).map Prod.fst
        = matched_edges.map Prod.fst) ∧
    ExtractNeighbourhoods g fdijkstra bdijkstra [] mult = [] := by
  obtain ⟨h1, h2, h3⟩ := keys_foldl_extract g fdijkstra bdijkstra mult matched_edges []
  refine ⟨?_, h2 List.nodup_nil, ?_, rfl⟩
  · intro e
    have := h1 e
    simpa [ExtractNeighbourhoods] using this
  · intro hnd
    have := h3 hnd (fun e _ => by simp)
    simpa [ExtractNeighbourhoods] using this

/-- C12: `main` calls `ExtractNeighbourhoods` with the multiplier 6 when the alphabet of the
HMM has 20 symbols (amino acids) and with the multiplier 2 for every other alphabet size. -/
theorem main_neighbourhoods_mult (g : Graph V E) (fdijkstra bdijkstra : Int → V → List V)
    (matched_edges : EdgeAlnInfo E) :
    main_neighbourhoods g fdijkstra bdijkstra matched_edges 20
      = ExtractNeighbourhoods g fdijkstra bdijkstra matched_edges 6 ∧
    ∀ K : Int, K ≠ 20 →
      main_neighbourhoods g fdijkstra bdijkstra matched_edges K
        = ExtractNeighbourhoods g fdijkstra bdijkstra matched_edges 2 := by
  constructor
  · simp [main_neighbourhoods]
  · intro K hK
    simp [main_neighbourhoods, hK]

end KeysLemmas

/-- Witness of C11: the two matched edges 3 and 7 of the chain graph give a map with the keys
3 and 7. -/
theorem ExtractNeighbourhoods_keys_witness :
    (([(3, (0, 15)), (7, (2, -1))] : EdgeAlnInfo Nat).map Prod.fst).Nodup ∧
    ((∀ e, e ∈ (ExtractNeighbourhoods chainGraph chainForward chainBackward
        [(3, (0, 15)), (7, (2, -1))] 2).map Prod.fst ↔
      e ∈ ([(3, (0, 15)), (7, (2, -1))] : EdgeAlnInfo Nat).map Prod.fst) ∧
    ((ExtractNeighbourhoods chainGraph chainForward chainBackward
        [(3, (0, 15)), (7, (2, -1))] 2).map Prod.fst).Nodup ∧
    ((([(3, (0, 15)), (7, (2, -1))] : EdgeAlnInfo Nat).map Prod.fst).Nodup →
      (ExtractNeighbourhoods chainGraph chainForward chainBackward
        [(3, (0, 15)), (7, (2, -1))] 2).map Prod.fst
        = ([(3, (0, 15)), (7, (2, -1))] : EdgeAlnInfo Nat).map Prod.fst) ∧
    ExtractNeighbourhoods chainGraph chainForward chainBackward [] 2 = []) :=
  ⟨by decide, ExtractNeighbourhoods_keys chainGraph chainForward chainBackward
    [(3, (0, 15)), (7, (2, -1))] 2⟩

/-- Witness of C12: a nucleotide HMM (alphabet of 4 symbols) gives the multiplier 2, so the
forward budget of the overhang 15 is 30; an amino-acid HMM gives the forward budget 90. -/
theorem main_neighbourhoods_mult_witness :
    (4 : Int) ≠ 20 ∧
    main_neighbourhoods chainGraph chainForward chainBackward [(3, (0, 15))] 4
      = [(3, {3, 4, 5, 6, 7, 8, 9, 10, 11, 12, 13, 14})] ∧
    (main_neighbourhoods chainGraph chainForward chainBackward [(3, (0, 15))] 20
        = ExtractNeighbourhoods chainGraph chainForward chainBackward [(3, (0, 15))] 6 ∧
      ∀ K : Int, K ≠ 20 →
        main_neighbourhoods chainGraph chainForward chainBackward [(3, (0, 15))] K
          = ExtractNeighbourhoods chainGraph chainForward chainBackward [(3, (0, 15))] 2) :=
  ⟨by decide, by decide,
    main_neighbourhoods_mult chainGraph chainForward chainBackward [(3, (0, 15))]⟩

/-! ## Separated neighbourhoods, and the `VERIFY` of `MergeSequences` -/

section SeparatedLemmas

variable {V E : Type} [DecidableEq V] [DecidableEq E]

/-- C20: when the leaders are distinct and no neighbourhood contains the start or the end of
the leader of another neighbourhood, the joining pass returns the map unchanged, with the
same leaders and the same vertex sets; two such neighbourhoods remain exactly two entries. -/
theorem join_of_separated (g : Graph V E) (nbs : List (E × Finset V))
    (hnd : (nbs.map Prod.fst).Nodup)
    (hsep : ∀ A ∈ nbs, ∀ B ∈ nbs, A ≠ B → g.EdgeStart B.1 ∉ A.2 ∧ g.EdgeEnd B.1 ∉ A.2) :
    join g nbs = nbs ∧ (∀ A B, nbs = [A, B] → (join g nbs).length = 2) := by
  have hnd' : nbs.Nodup := List.Nodup.of_map _ hnd
  have hpw : no_later_overlap g nbs := hnd'.pairwise_of_forall_ne hsep
  have heq : join g nbs = nbs := (join_eq_self_iff g nbs.length nbs (le_refl _)).mpr hpw
  refine ⟨heq, ?_⟩
  intro A B hAB
  rw [heq, hAB]
  rfl

end SeparatedLemmas

section VerifyLemmas

variable {V E : Type} [DecidableEq V]

theorem collect_sequences_failed_iff (g : Graph V E) (rest : List E) :
    ∀ (prev : E) (acc : List (List Char)),
      collect_sequences g prev rest acc = Outcome.verify_failed ↔
        ∃ (i : Nat) (a b : E), (prev :: rest)[i]? = some a ∧ (prev :: rest)[i + 1]? = some b ∧
          g.EdgeEnd a ≠ g.EdgeStart b := by
  induction rest with
  | nil =>
    intro prev acc
    simp [collect_sequences]
  | cons e rest ih =>
    intro prev acc
    unfold collect_sequences
    by_cases h : g.EdgeEnd prev = g.EdgeStart e
    · rw [if_pos h, ih]
      constructor
      · rintro ⟨i, a, b, ha, hb, hab⟩
        exact ⟨i + 1, a, b, by simpa using ha, by simpa using hb, hab⟩
      · rintro ⟨i, a, b, ha, hb, hab⟩
        cases i with
        | zero =>
          simp only [List.getElem?_cons_zero, Option.some.injEq, zero_add,
            List.getElem?_cons_succ] at ha hb
          subst ha
          subst hb
          exact absurd h hab
        | succ j =>
          exact ⟨j, a, b, by simpa using ha, by simpa using hb, hab⟩
    · rw [if_neg h]
      simp only [true_iff]
      exact ⟨0, prev, e, by simp, by simp, h⟩

theorem collect_sequences_ne_undefined (g : Graph V E) (rest : List E) :
    ∀ (prev : E) (acc : List (List Char)),
      collect_sequences g prev rest acc ≠ Outcome.undefined := by
  induction rest with
  | nil => intro prev acc; simp [collect_sequences]
  | cons e rest ih =>
    intro prev acc
    unfold collect_sequences
    split
    · exact ih _ _
    · simp

/-- C16: on a non-empty path `MergeSequences` violates its `VERIFY` exactly when the path has
two consecutive edges `path[i]`, `path[i+1]` with `end(path[i]) ≠ start(path[i+1])`; on an
adjacent path it returns a sequence. -/
theorem MergeSequences_verify_failed_iff (g : Graph V E) (path : List E) (hne : path ≠ []) :
    (MergeSequences g path = Outcome.verify_failed ↔
      ∃ (i : Nat) (a b : E), path[i]? = some a ∧ path[i + 1]? = some b ∧
        g.EdgeEnd a ≠ g.EdgeStart b) ∧
    (adjacent_path g path → ∃ s, MergeSequences g path = Outcome.ok s) := by
  cases path with
  | nil => exact absurd rfl hne
  | cons e0 rest =>
    constructor
    · rw [← collect_sequences_failed_iff g rest e0 [g.EdgeNucls e0]]
      unfold MergeSequences
      cases hc : collect_sequences g e0 rest [g.EdgeNucls e0] with
      | ok ss => simp [hc]
      | verify_failed => simp [hc]
      | undefined => exact absurd hc (collect_sequences_ne_undefined g rest e0 _)
    · intro hadj
      exact ⟨_, MergeSequences_cons_of_adjacent g e0 rest hadj⟩

end VerifyLemmas

/-- Witness of C20: the neighbourhoods of the edges 0 and 1 of `forkGraph`, which are
separated. -/
theorem join_of_separated_witness :
    (([(0, {0, 1}), (1, {5, 6})] : List (Nat × Finset Nat)).map Prod.fst).Nodup ∧
    (∀ A ∈ ([(0, {0, 1}), (1, {5, 6})] : List (Nat × Finset Nat)),
      ∀ B ∈ ([(0, {0, 1}), (1, {5, 6})] : List (Nat × Finset Nat)),
      A ≠ B → forkGraph.EdgeStart B.1 ∉ A.2 ∧ forkGraph.EdgeEnd B.1 ∉ A.2) ∧
    (join forkGraph [(0, {0, 1}), (1, {5, 6})] = [(0, {0, 1}), (1, {5, 6})] ∧
      ∀ A B, ([(0, {0, 1}), (1, {5, 6})] : List (Nat × Finset Nat)) = [A, B] →
        (join forkGraph [(0, {0, 1}), (1, {5, 6})]).length = 2) :=
  ⟨by decide, by decide,
    join_of_separated forkGraph [(0, {0, 1}), (1, {5, 6})] (by decide) (by decide)⟩

/-- Witness of C16: in the chain graph the path `[1, 2, 4]` is not adjacent at `2, 4` and the
`VERIFY` fails, while the adjacent path `[1, 2, 3]` is merged. -/
theorem MergeSequences_verify_failed_iff_witness :
    MergeSequences chainGraph [1, 2, 4] = Outcome.verify_failed ∧
    adjacent_path chainGraph [1, 2, 3] ∧
    ((MergeSequences chainGraph [1, 2, 3] = Outcome.verify_failed ↔
        ∃ (i : Nat) (a b : Nat), ([1, 2, 3] : List Nat)[i]? = some a ∧
          ([1, 2, 3] : List Nat)[i + 1]? = some b ∧
          chainGraph.EdgeEnd a ≠ chainGraph.EdgeStart b) ∧
      (adjacent_path chainGraph [1, 2, 3] →
        ∃ s, MergeSequences chainGraph [1, 2, 3] = Outcome.ok s)) :=
  ⟨by decide, by simp [adjacent_path, chainGraph, exampleGraph],
    MergeSequences_verify_failed_iff chainGraph [1, 2, 3] (by simp)⟩

/-! ## Codon translation -/

/-- C13: for every codon of three letters over `A`, `C`, `G`, `T` the function `to_aa` returns
the amino acid of the standard genetic code; `ATG` is methionine, `GCC` alanine and `TAA` a
stop, so `ATGGCCTAA` reads Met-Ala-Stop in frame 0. -/
theorem to_aa_standard_genetic_code :
    (∀ n0 n1 n2 : Nucl,
      to_aa n0.byte n1.byte n2.byte = some (standard_genetic_code n0 n1 n2)) ∧
    to_aa 'A'.toNat 'T'.toNat 'G'.toNat = some AminoAcid.METHIONINE ∧
    to_aa 'G'.toNat 'C'.toNat 'C'.toNat = some AminoAcid.ALANINE ∧
    to_aa 'T'.toNat 'A'.toNat 'A'.toNat = some AminoAcid.STOP := by
  refine ⟨?_, by decide, by decide, by decide⟩
  intro n0 n1 n2
  cases n0 <;> cases n1 <;> cases n2 <;> rfl

/-- C14: among the 64 codons over `A`, `C`, `G`, `T` the function `to_aa` returns `STOP` for
exactly `TAA`, `TAG` and `TGA`; for every other codon it returns an amino acid whose value is
below the value of `STOP`; and each of the 20 amino acids is returned for some codon. -/
theorem to_aa_stop_codons :
    (∀ n0 n1 n2 : Nucl, to_aa n0.byte n1.byte n2.byte = some AminoAcid.STOP ↔
      (n0 = Nucl.T ∧ n1 = Nucl.A ∧ n2 = Nucl.A) ∨ (n0 = Nucl.T ∧ n1 = Nucl.A ∧ n2 = Nucl.G) ∨
        (n0 = Nucl.T ∧ n1 = Nucl.G ∧ n2 = Nucl.A)) ∧
    (∀ n0 n1 n2 : Nucl, ∃ a, to_aa n0.byte n1.byte n2.byte = some a ∧
      (a ≠ AminoAcid.STOP → a.value < AminoAcid.STOP.value)) ∧
    (∀ a : AminoAcid, a ≠ AminoAcid.STOP →
      ∃ n0 n1 n2 : Nucl, to_aa n0.byte n1.byte n2.byte = some a) := by
  refine ⟨by decide, ?_, by decide⟩
  intro n0 n1 n2
  cases n0 <;> cases n1 <;> cases n2 <;> exact ⟨_, rfl, by decide⟩

/-- Witness of C14: `TGA` is a stop codon, and tryptophan is returned for some codon. -/
theorem to_aa_stop_codons_witness :
    to_aa Nucl.T.byte Nucl.G.byte Nucl.A.byte = some AminoAcid.STOP ∧
    ∃ n0 n1 n2 : Nucl, to_aa n0.byte n1.byte n2.byte = some AminoAcid.TRYPTOPHAN :=
  ⟨(to_aa_stop_codons.1 Nucl.T Nucl.G Nucl.A).mpr (Or.inr (Or.inr ⟨rfl, rfl, rfl⟩)),
    to_aa_stop_codons.2.2 AminoAcid.TRYPTOPHAN (by decide)⟩

/-! ## Parsing the hit names -/

theorem digitChar_facts : ∀ d < 10,
    (Nat.digitChar d).isDigit = true ∧ isspace (Nat.digitChar d) = false ∧
    Nat.digitChar d ≠ '-' ∧ Nat.digitChar d ≠ '+' ∧ digit_value (Nat.digitChar d) = d := by
  decide

theorem toDigitsCore_acc (fuel : Nat) :
    ∀ (n : Nat) (ds : List Char),
      Nat.toDigitsCore 10 fuel n ds = Nat.toDigitsCore 10 fuel n [] ++ ds := by
  induction fuel with
  | zero => intro n ds; simp [Nat.toDigitsCore]
  | succ fuel ih =>
    intro n ds
    simp only [Nat.toDigitsCore]
    split
    · simp
    · rw [ih (n / 10) (Nat.digitChar (n % 10) :: ds), ih (n / 10) [Nat.digitChar (n % 10)]]
      simp

theorem digits_value_append (ds : List Char) (c : Char) :
    digits_value (ds ++ [c]) = 10 * digits_value ds + digit_value c := by
  simp [digits_value, List.foldl_append]

/-- The digits of `n`: a non-empty run of digit characters whose value is `n`. -/
theorem toDigitsCore_spec (fuel : Nat) :
    ∀ n : Nat, n < fuel →
      Nat.toDigitsCore 10 fuel n [] ≠ [] ∧
      (∀ c ∈ Nat.toDigitsCore 10 fuel n [], ∃ d, d < 10 ∧ c = Nat.digitChar d) ∧
      digits_value (Nat.toDigitsCore 10 fuel n []) = n := by
  induction fuel with
  | zero => intro n hn; omega
  | succ fuel ih =>
    intro n hn
    simp only [Nat.toDigitsCore]
    have hmod : n % 10 < 10 := Nat.mod_lt _ (by decide)
    split
    · rename_i h0
      refine ⟨by simp, ?_, ?_⟩
      · intro c hc
        rw [List.mem_singleton] at hc
        exact ⟨n % 10, hmod, hc⟩
      · have := (digitChar_facts (n % 10) hmod).2.2.2.2
        simp only [digits_value, List.foldl_cons, List.foldl_nil, Nat.mul_zero, Nat.zero_add]
        rw [this]
        omega
    · rename_i h0
      have hlt : n / 10 < fuel := by omega
      obtain ⟨_, h2, h3⟩ := ih (n / 10) hlt
      rw [toDigitsCore_acc]
      refine ⟨by simp, ?_, ?_⟩
      · intro c hc
        rcases List.mem_append.mp hc with hc | hc
        · exact h2 c hc
        · rw [List.mem_singleton] at hc
          exact ⟨n % 10, hmod, hc⟩
      · rw [digits_value_append, h3, (digitChar_facts (n % 10) hmod).2.2.2.2]
        omega

theorem to_string_data (n : Nat) : (to_string n).data = Nat.toDigits 10 n := rfl

theorem toDigits_spec (n : Nat) :
    Nat.toDigits 10 n ≠ [] ∧
    (∀ c ∈ Nat.toDigits 10 n, ∃ d, d < 10 ∧ c = Nat.digitChar d) ∧
    digits_value (Nat.toDigits 10 n) = n :=
  toDigitsCore_spec (n + 1) n (Nat.lt_succ_self n)

theorem takeWhile_isDigit_append (ds rest : List Char)
    (hds : ∀ c ∈ ds, ∃ d, d < 10 ∧ c = Nat.digitChar d)
    (hrest : ∀ c, rest.head? = some c → c.isDigit = false) :
    (ds ++ rest).takeWhile Char.isDigit = ds := by
  induction ds with
  | nil =>
    cases rest with
    | nil => rfl
    | cons c rest =>
      have := hrest c rfl
      simp [List.takeWhile, this]
  | cons c ds ih =>
    obtain ⟨d, hd, rfl⟩ := hds _ (List.mem_cons_self _ _)
    have hdig := (digitChar_facts d hd).1
    simp only [List.cons_append, List.takeWhile, hdig]
    exact congrArg (List.cons _) (ih (fun c hc => hds c (List.mem_cons_of_mem _ hc)))

/-- The function `stoull` on a non-empty run of digits followed by something that does not
start with a digit: the value of the run, when it fits in 64 bits. -/
theorem stoull_digits (ds rest : List Char) (hne : ds ≠ [])
    (hds : ∀ c ∈ ds, ∃ d, d < 10 ∧ c = Nat.digitChar d)
    (hrest : ∀ c, rest.head? = some c → c.isDigit = false)
    (hv : digits_value ds < 2 ^ 64) :
    stoull (String.mk (ds ++ rest)) = some (digits_value ds) := by
  cases ds with
  | nil => exact absurd rfl hne
  | cons c tl =>
    obtain ⟨d, hd, hcd⟩ := hds c (List.mem_cons_self _ _)
    have hf := digitChar_facts d hd
    rw [← hcd] at hf
    have htw := takeWhile_isDigit_append (c :: tl) rest hds hrest
    have hsp : isspace c = false := hf.2.1
    have hm : ¬ (c = '-') := hf.2.2.1
    have hp : ¬ (c = '+') := hf.2.2.2.1
    have hdw : ((c :: tl) ++ rest).dropWhile isspace = (c :: tl) ++ rest := by
      simp [List.dropWhile, hsp]
    unfold stoull
    simp only [hdw]
    simp only [List.cons_append, List.head?_cons, Option.some.injEq, hm, hp, or_self, if_false]
    rw [← List.cons_append, htw]
    simp only [reduceCtorEq, if_false]
    rw [if_neg (by unfold digits_value at hv; omega)]
    simp [digits_value]

/-- C15: for every edge index `i` (a `size_t`, below `2 ^ 64`) and every frame shift (0, 1 and
2 in particular), `std::stoull` applied to the name `decimal(i) + "_" + decimal(shift)` returns
`i`, so the hit resolves to `edges[i]`, and applied to the nucleotide-mode name `decimal(i)`
it returns `i`; the map from `(i, shift)` to the name is injective. -/
theorem stoull_hit_name (i shift : Nat) (hi : i < 2 ^ 64) :
    stoull (hit_name_shift i shift) = some i ∧
    stoull (hit_name i) = some i ∧
    (∀ i' shift' : Nat, hit_name_shift i shift = hit_name_shift i' shift' →
      i = i' ∧ shift = shift') := by
  obtain ⟨hne, hds, hval⟩ := toDigits_spec i
  have hdata : ∀ a b : Nat, (hit_name_shift a b).data
      = Nat.toDigits 10 a ++ ('_' :: Nat.toDigits 10 b) := by
    intro a b
    simp [hit_name_shift, to_string_data]
  refine ⟨?_, ?_, ?_⟩
  · have h := stoull_digits (Nat.toDigits 10 i) ('_' :: Nat.toDigits 10 shift) hne hds
      (by
        intro c hc
        simp only [List.head?_cons, Option.some.injEq] at hc
        subst hc
        decide)
      (by rw [hval]; exact hi)
    rw [hval] at h
    rw [← h]
    congr 1
    exact String.ext (hdata i shift)
  · have h := stoull_digits (Nat.toDigits 10 i) [] hne hds (by simp) (by rw [hval]; exact hi)
    rw [hval, List.append_nil] at h
    exact h
  · intro i' shift' heq
    have hd : Nat.toDigits 10 i ++ ('_' :: Nat.toDigits 10 shift)
        = Nat.toDigits 10 i' ++ ('_' :: Nat.toDigits 10 shift') := by
      rw [← hdata, ← hdata, heq]
    have hund : ∀ (l : List Char) (c : Char), ('_' :: l).head? = some c → c.isDigit = false := by
      intro l c hc
      simp only [List.head?_cons, Option.some.injEq] at hc
      subst hc
      decide
    have h1 := takeWhile_isDigit_append _ ('_' :: Nat.toDigits 10 shift) hds (hund _)
    have h2 := takeWhile_isDigit_append _ ('_' :: Nat.toDigits 10 shift')
      (toDigits_spec i').2.1 (hund _)
    rw [hd, h2] at h1
    have hii : i = i' := by
      rw [← hval, ← (toDigits_spec i').2.2, h1]
    subst hii
    have h3 := List.append_cancel_left hd
    have h4 : Nat.toDigits 10 shift = Nat.toDigits 10 shift' := (List.cons.inj h3).2
    refine ⟨rfl, ?_⟩
    rw [← (toDigits_spec shift).2.2, ← (toDigits_spec shift').2.2, h4]

/-- Witness of C15: the edge index 12 in the frame 1 has the name `12_1`, parsed back to 12. -/
theorem stoull_hit_name_witness :
    hit_name_shift 12 1 = "12_1" ∧ hit_name 12 = "12" ∧
    hit_edge [10, 20, 30] ⟨true, true, hit_name_shift 2 1, []⟩ = some 30 ∧
    (stoull (hit_name_shift 12 1) = some 12 ∧ stoull (hit_name 12) = some 12 ∧
      (∀ i' shift' : Nat, hit_name_shift 12 1 = hit_name_shift i' shift' →
        12 = i' ∧ 1 = shift')) :=
  ⟨by decide, by decide, by decide, stoull_hit_name 12 1 (by decide)⟩

/-! ## The search loop and the file of the paths -/

section SearchLemmas

variable {V E C Cost : Type} [DecidableEq E]

theorem run_search_loop_snd (ops : CursorOps C E) (str : List C → String) (e : E)
    (paths : List (List C × Cost)) :
    ∀ (idx : Nat) (acc : List (PathInfo E) × List (Cost × String)),
      (run_search_loop ops str e idx paths acc).2
        = acc.2 ++ paths.map (fun kv => (kv.2, str kv.1)) := by
  induction paths with
  | nil => intro idx acc; simp [run_search_loop]
  | cons kv rest ih =>
    intro idx acc
    simp only [run_search_loop]
    rw [ih]
    simp

/-- What one neighbourhood adds to `resultant_paths` and to the trace of the searches. -/
theorem search_step_paths (ops : CursorOps C E) (str : List C → String)
    (e_size : Finset V → Nat) (top_paths : Finset V → List (List C × Cost))
    (min_size max_size : Nat) (st : SearchState E Cost) (kv : E × Finset V) :
    (search_step ops str e_size top_paths min_size max_size st kv).resultant_paths
      = st.resultant_paths ++
        (if min_size ≤ e_size kv.2 / 2 ∧ e_size kv.2 / 2 ≤ max_size
          then search_records str top_paths kv.2 else []) ∧
    (search_step ops str e_size top_paths min_size max_size st kv).searched
      = st.searched ++
        (if min_size ≤ e_size kv.2 / 2 ∧ e_size kv.2 / 2 ≤ max_size then [kv.1] else []) := by
  unfold search_step
  by_cases h1 : e_size kv.2 / 2 < min_size
  · have hc : ¬ (min_size ≤ e_size kv.2 / 2 ∧ e_size kv.2 / 2 ≤ max_size) := by omega
    simp [h1, hc]
  · by_cases h2 : e_size kv.2 / 2 > max_size
    · have hc : ¬ (min_size ≤ e_size kv.2 / 2 ∧ e_size kv.2 / 2 ≤ max_size) := by omega
      simp [h1, h2, hc]
    · have hc : min_size ≤ e_size kv.2 / 2 ∧ e_size kv.2 / 2 ≤ max_size := by omega
      simp only [h1, h2, if_false, hc, and_self, if_true]
      rw [run_search_loop_snd]
      simp [search_records]

theorem foldl_search_step_paths (ops : CursorOps C E) (str : List C → String)
    (e_size : Finset V → Nat) (top_paths : Finset V → List (List C × Cost))
    (min_size max_size : Nat) (nbs : List (E × Finset V)) :
    ∀ st : SearchState E Cost,
      (nbs.foldl (search_step ops str e_size top_paths min_size max_size) st).resultant_paths
        = st.resultant_paths ++ nbs.flatMap (fun kv =>
          if min_size ≤ e_size kv.2 / 2 ∧ e_size kv.2 / 2 ≤ max_size
            then search_records str top_paths kv.2 else []) := by
  induction nbs with
  | nil => intro st; simp
  | cons kv rest ih =>
    intro st
    rw [List.foldl_cons, ih, (search_step_paths ops str e_size top_paths min_size max_size
      st kv).1]
    simp

/-- C17: for a neighbourhood with leader `e` whose component size (edge count divided by 2)
is smaller than `min_size`, whatever the search would return, the loop body adds exactly one
result, with leader `e`, priority 0, the empty sequence and the path `[e]`; it adds nothing
to the resultant paths and runs no search. -/
theorem search_step_undersized (ops : CursorOps C E) (str : List C → String)
    (e_size : Finset V → Nat) (top_paths : Finset V → List (List C × Cost))
    (min_size max_size : Nat) (st : SearchState E Cost) (kv : E × Finset V)
    (h : e_size kv.2 / 2 < min_size) :
    (search_step ops str e_size top_paths min_size max_size st kv).results
      = st.results ++ [⟨kv.1, 0, "", [kv.1]⟩] ∧
    (search_step ops str e_size top_paths min_size max_size st kv).resultant_paths
      = st.resultant_paths ∧
    (search_step ops str e_size top_paths min_size max_size st kv).searched = st.searched := by
  simp [search_step, h]

/-- C18, as amended: for a neighbourhood whose component size exceeds `max_size` and is not
smaller than `min_size`, the loop body leaves `results`, the resultant paths and the trace of
the searches unchanged, and the loop over all neighbourhoods gives the same as without this
neighbourhood; for every neighbourhood, a search is run exactly when
`min_size ≤ size ≤ max_size`. -/
theorem search_step_oversized (ops : CursorOps C E) (str : List C → String)
    (e_size : Finset V → Nat) (top_paths : Finset V → List (List C × Cost))
    (min_size max_size : Nat) (kv : E × Finset V)
    (hmin : ¬ e_size kv.2 / 2 < min_size) (hmax : e_size kv.2 / 2 > max_size) :
    (∀ st : SearchState E Cost,
      search_step ops str e_size top_paths min_size max_size st kv = st) ∧
    (∀ pre post : List (E × Finset V),
      search_loop ops str e_size top_paths min_size max_size (pre ++ kv :: post)
        = search_loop ops str e_size top_paths min_size max_size (pre ++ post)) ∧
    (∀ (st : SearchState E Cost) (kv' : E × Finset V),
      (search_step ops str e_size top_paths min_size max_size st kv').searched
        = st.searched ++
          (if min_size ≤ e_size kv'.2 / 2 ∧ e_size kv'.2 / 2 ≤ max_size
            then [kv'.1] else [])) := by
  have hstep : ∀ st : SearchState E Cost,
      search_step ops str e_size top_paths min_size max_size st kv = st := by
    intro st
    simp [search_step, hmin, hmax]
  refine ⟨hstep, ?_, ?_⟩
  · intro pre post
    simp only [search_loop, List.foldl_append, List.foldl_cons, hstep]
  · intro st kv'
    exact (search_step_paths ops str e_size top_paths min_size max_size st kv').2

end SearchLemmas

section SortLemmas

variable {V E C Cost : Type} [DecidableEq E] [LinearOrder Cost]

/-- C19: the resultant paths of one HMM are the records of all its searches, in the order of
the neighbourhoods; the records of the `.paths.fa` file, written when `save` is set and there
is a record, are a permutation of them, ordered by non-decreasing cost and, among equal costs,
by the order of the sequence strings. -/
theorem paths_fa_sorted (ops : CursorOps C E) (str : List C → String)
    (e_size : Finset V → Nat) (top_paths : Finset V → List (List C × Cost))
    (min_size max_size : Nat) (nbs : List (E × Finset V)) (save : Bool) :
    (search_loop ops str e_size top_paths min_size max_size nbs).resultant_paths
      = nbs.flatMap (fun kv =>
        if min_size ≤ e_size kv.2 / 2 ∧ e_size kv.2 / 2 ≤ max_size
          then search_records str top_paths kv.2 else []) ∧
    paths_fa save (search_loop ops str e_size top_paths min_size max_size nbs).resultant_paths
      = (if save = true ∧
            (search_loop ops str e_size top_paths min_size max_size nbs).resultant_paths ≠ []
          then some (std_sort
            (search_loop ops str e_size top_paths min_size max_size nbs).resultant_paths)
          else none) ∧
    (std_sort (search_loop ops str e_size top_paths min_size max_size nbs).resultant_paths).Perm
      (search_loop ops str e_size top_paths min_size max_size nbs).resultant_paths ∧
    List.Sorted record_le
      (std_sort (search_loop ops str e_size top_paths min_size max_size nbs).resultant_paths) := by
  refine ⟨?_, ?_, List.perm_insertionSort _ _, List.sorted_insertionSort _ _⟩
  · have := foldl_search_step_paths ops str e_size top_paths min_size max_size nbs ⟨[], [], []⟩
    simpa [search_loop] using this
  · unfold paths_fa
    have hlen : (std_sort
        (search_loop ops str e_size top_paths min_size max_size nbs).resultant_paths).length
        = (search_loop ops str e_size top_paths min_size max_size nbs).resultant_paths.length :=
      (List.perm_insertionSort _ _).length_eq
    rw [hlen]
    simp only [ne_eq, List.length_eq_zero]

end SortLemmas

/-- Witness of C17: a component of size 2 with `min_size = 3`: the only result is the leader
edge 3 itself. -/
theorem search_step_undersized_witness :
    exampleSize {3, 4} / 2 < 3 ∧
    ((search_step (nuclOps Nat) exampleStr exampleSize exampleTopPaths 3 1000 ⟨[], [], []⟩
        (3, {3, 4})).results = [] ++ [⟨3, 0, "", [3]⟩] ∧
      (search_step (nuclOps Nat) exampleStr exampleSize exampleTopPaths 3 1000 ⟨[], [], []⟩
        (3, {3, 4})).resultant_paths = [] ∧
      (search_step (nuclOps Nat) exampleStr exampleSize exampleTopPaths 3 1000 ⟨[], [], []⟩
        (3, {3, 4})).searched = []) :=
  ⟨by decide, search_step_undersized (nuclOps Nat) exampleStr exampleSize exampleTopPaths 3 1000
    ⟨[], [], []⟩ (3, {3, 4}) (by decide)⟩

/-- Counterexample to C18: with `min_size = 10` and `max_size = 1` a component of size 3 exceeds
`max_size`, and yet a result is added for it: it is smaller than `min_size`, which is tested
first. -/
theorem search_step_oversized_and_undersized :
    exampleSize {3, 4, 5} / 2 > 1 ∧
    (search_step (nuclOps Nat) exampleStr exampleSize exampleTopPaths 10 1 ⟨[], [], []⟩
      (3, {3, 4, 5})).results = [⟨3, 0, "", [3]⟩] ∧
    (search_step (nuclOps Nat) exampleStr exampleSize exampleTopPaths 10 1 ⟨[], [], []⟩
      (3, {3, 4, 5})).results ≠ [] := by
  decide

/-- Witness of C18 as amended: with `min_size = 2` and `max_size = 2` a component of size 3 is
skipped, and the component of size 2 after it is searched. -/
theorem search_step_oversized_witness :
    ¬ exampleSize {3, 4, 5} / 2 < 2 ∧ exampleSize {3, 4, 5} / 2 > 2 ∧
    (search_loop (nuclOps Nat) exampleStr exampleSize exampleTopPaths 2 2
      [(3, {3, 4, 5}), (7, {7, 8})]).searched = [7] ∧
    ((∀ st : SearchState Nat Nat,
        search_step (nuclOps Nat) exampleStr exampleSize exampleTopPaths 2 2 st (3, {3, 4, 5})
          = st) ∧
      (∀ pre post : List (Nat × Finset Nat),
        search_loop (nuclOps Nat) exampleStr exampleSize exampleTopPaths 2 2
            (pre ++ (3, {3, 4, 5}) :: post)
          = search_loop (nuclOps Nat) exampleStr exampleSize exampleTopPaths 2 2
            (pre ++ post)) ∧
      (∀ (st : SearchState Nat Nat) (kv' : Nat × Finset Nat),
        (search_step (nuclOps Nat) exampleStr exampleSize exampleTopPaths 2 2 st kv').searched
          = st.searched ++
            (if 2 ≤ exampleSize kv'.2 / 2 ∧ exampleSize kv'.2 / 2 ≤ 2 then [kv'.1] else []))) :=
  ⟨by decide, by decide, by decide,
    search_step_oversized (nuclOps Nat) exampleStr exampleSize exampleTopPaths 2 2
      (3, {3, 4, 5}) (by decide) (by decide)⟩

/-- Witness of C19: the search of one component returns the paths with the costs 7 and 5, and
the file lists the record of cost 5 first; among equal costs the strings decide. -/
theorem paths_fa_sorted_witness :
    (search_loop (nuclOps Nat) exampleStr exampleSize exampleTopPaths 2 1000
      [(3, {3, 4})]).resultant_paths = [(7, "AC"), (5, "CG")] ∧
    std_sort [((7 : Nat), "AC"), (5, "CG"), (5, "CA")] = [(5, "CA"), (5, "CG"), (7, "AC")] ∧
    (std_sort (search_loop (nuclOps Nat) exampleStr exampleSize exampleTopPaths 2 1000
        [(3, {3, 4})]).resultant_paths).Perm
      (search_loop (nuclOps Nat) exampleStr exampleSize exampleTopPaths 2 1000
        [(3, {3, 4})]).resultant_paths ∧
    List.Sorted record_le
      (std_sort (search_loop (nuclOps Nat) exampleStr exampleSize exampleTopPaths 2 1000
        [(3, {3, 4})]).resultant_paths) :=
  ⟨by decide,
    by simp [std_sort, List.insertionSort, List.orderedInsert, record_le,
      String.le_iff_toList_le],
    (paths_fa_sorted (nuclOps Nat) exampleStr exampleSize exampleTopPaths 2 1000
      [(3, {3, 4})] true).2.2⟩

/-! ## `to_path` on arbitrary cursors -/

section ToPathGeneral

variable {C E : Type} [DecidableEq E]

theorem chain'_ne_append_singleton (l : List E) (e : E) (hc : List.Chain' (· ≠ ·) l)
    (h : l.getLast? ≠ some e) : List.Chain' (· ≠ ·) (l ++ [e]) := by
  rw [List.chain'_append]
  refine ⟨hc, List.chain'_singleton e, ?_⟩
  intro x hx y hy
  simp only [List.head?_cons, Option.mem_def, Option.some.injEq] at hy
  subst hy
  intro hxy
  apply h
  rw [Option.mem_def] at hx
  rw [hx, hxy]

theorem push_edges_chain' (es : List E) :
    ∀ path : List E, List.Chain' (· ≠ ·) path → List.Chain' (· ≠ ·) (push_edges es path) := by
  induction es with
  | nil => intro path h; exact h
  | cons e es ih =>
    intro path h
    unfold push_edges
    rw [List.foldl_cons]
    by_cases hl : path.getLast? ≠ some e
    · rw [if_pos hl]
      exact ih _ (chain'_ne_append_singleton path e h hl)
    · rw [if_neg hl]
      exact ih _ h

theorem to_path_step_chain' (ops : CursorOps C E) (path : List E) (c : C)
    (h : List.Chain' (· ≠ ·) path) : List.Chain' (· ≠ ·) (to_path_step ops path c) := by
  unfold to_path_step
  split
  · exact h
  · split
    · rename_i hcond
      by_cases hl : path.getLast? ≠ some (ops.edge c)
      · exact chain'_ne_append_singleton path _ h hl
      · have hlen : path.length = 0 := by
          rcases hcond with h0 | h1
          · exact h0
          · exact absurd h1 hl
        have : path = [] := List.length_eq_zero.mp hlen
        subst this
        simp
    · exact push_edges_chain' _ path h

/-- C21: for cursors of any kind, whatever `edge()` and `edges()` return, the path that
`to_path` returns has no two equal edges at adjacent positions. -/
theorem to_path_no_adjacent_duplicates (ops : CursorOps C E) (cs : List C) :
    List.Chain' (· ≠ ·) (to_path ops cs) := by
  rw [to_path_eq_foldl]
  have key : ∀ (l : List C) (acc : List E), List.Chain' (· ≠ ·) acc →
      List.Chain' (· ≠ ·) (l.foldl (to_path_step ops) acc) := by
    intro l
    induction l with
    | nil => intro acc h; exact h
    | cons c l ih =>
      intro acc h
      rw [List.foldl_cons]
      exact ih _ (to_path_step_chain' ops acc c h)
  exact key cs [] List.chain'_nil

theorem foldl_to_path_step_filter (ops : CursorOps C E) (cs : List C) :
    ∀ acc : List E, cs.foldl (to_path_step ops) acc
      = (cs.filter (fun c => !ops.is_empty c)).foldl (to_path_step ops) acc := by
  induction cs with
  | nil => intro acc; rfl
  | cons c cs ih =>
    intro acc
    by_cases hc : ops.is_empty c = true
    · rw [List.foldl_cons, to_path_step_of_empty ops acc c hc, ih]
      simp [List.filter_cons, hc]
    · have hc' : ops.is_empty c = false := by simpa using hc
      rw [List.foldl_cons, ih]
      simp [List.filter_cons, hc']

theorem foldl_to_path_step_of_empty (ops : CursorOps C E) (pad : List C)
    (h : ∀ c ∈ pad, ops.is_empty c = true) :
    ∀ acc : List E, pad.foldl (to_path_step ops) acc = acc := by
  induction pad with
  | nil => intro acc; rfl
  | cons c pad ih =>
    intro acc
    rw [List.foldl_cons, to_path_step_of_empty ops acc c (h c (List.mem_cons_self _ _))]
    exact ih (fun c' hc' => h c' (List.mem_cons_of_mem _ hc')) acc

/-- C22: empty cursors contribute nothing to `to_path`: the path of `p` is the path of `p`
with its empty cursors removed; empty cursors put before `p` (or after it) change nothing;
and a sequence of only empty cursors gives the empty path. -/
theorem to_path_ignores_empty (ops : CursorOps C E) (p : List C) :
    to_path ops p = to_path ops (p.filter (fun c => !ops.is_empty c)) ∧
    (∀ pad : List C, (∀ c ∈ pad, ops.is_empty c = true) →
      to_path ops (pad ++ p) = to_path ops p ∧ to_path ops (p ++ pad) = to_path ops p) ∧
    ((∀ c ∈ p, ops.is_empty c = true) → to_path ops p = []) := by
  refine ⟨?_, ?_, ?_⟩
  · rw [to_path_eq_foldl, to_path_eq_foldl, foldl_to_path_step_filter ops p []]
  · intro pad hpad
    constructor
    · rw [to_path_eq_foldl, to_path_eq_foldl, List.foldl_append,
        foldl_to_path_step_of_empty ops pad hpad]
    · rw [to_path_eq_foldl, to_path_eq_foldl, List.foldl_append,
        foldl_to_path_step_of_empty ops pad hpad]
  · intro h
    rw [to_path_eq_foldl, foldl_to_path_step_of_empty ops p h]

end ToPathGeneral

/-- Witness of C22: the walk of `exampleWalk` with its padding, without it, and with more of
it gives the path `[1, 2]`. -/
theorem to_path_ignores_empty_witness :
    to_path (nuclOps Nat) exampleWalk = [1, 2] ∧
    (∀ c ∈ ([none, none] : List (Option (Nat × Nat))), (nuclOps Nat).is_empty c = true) ∧
    (to_path (nuclOps Nat) ([none, none] ++ exampleWalk) = to_path (nuclOps Nat) exampleWalk ∧
      to_path (nuclOps Nat) (exampleWalk ++ [none, none]) = to_path (nuclOps Nat) exampleWalk) ∧
    to_path (nuclOps Nat) [none, none] = [] :=
  ⟨by decide, by decide,
    (to_path_ignores_empty (nuclOps Nat) exampleWalk).2.1 [none, none] (by decide),
    (to_path_ignores_empty (nuclOps Nat) [none, none]).2.2 (by decide)⟩

/-! ## What the joining pass keeps -/

section JoinKeeps

variable {V E : Type} [DecidableEq V] [DecidableEq E]

/-- The inner loop keeps the vertices: those of the final set and of the entries that remain
are those of the starting set and of the later entries. -/
theorem join_inner_vertices (g : Graph V E) (rest : List (E × Finset V)) (v : V) :
    ∀ cur : Finset V,
      (v ∈ (join_inner g cur rest).1 ∨ ∃ x ∈ (join_inner g cur rest).2, v ∈ x.2) ↔
        (v ∈ cur ∨ ∃ b ∈ rest, v ∈ b.2) := by
  induction rest with
  | nil => intro cur; simp [join_inner]
  | cons b rest ih =>
    intro cur
    unfold join_inner
    split
    · rw [ih (cur ∪ b.2)]
      simp only [Finset.mem_union, List.mem_cons, exists_eq_or_imp]
      tauto
    · have := ih cur
      simp only [List.mem_cons, exists_eq_or_imp]
      constructor
      · rintro (h | h | h)
        · rcases this.mp (Or.inl h) with h' | h'
          · exact Or.inl h'
          · exact Or.inr (Or.inr h')
        · exact Or.inr (Or.inl h)
        · rcases this.mp (Or.inr h) with h' | h'
          · exact Or.inl h'
          · exact Or.inr (Or.inr h')
      · rintro (h | h | h)
        · rcases this.mpr (Or.inl h) with h' | h'
          · exact Or.inl h'
          · exact Or.inr (Or.inr h')
        · exact Or.inr (Or.inl h)
        · rcases this.mpr (Or.inr h) with h' | h'
          · exact Or.inl h'
          · exact Or.inr (Or.inr h')

theorem join_vertices (g : Graph V E) (v : V) :
    ∀ (n : Nat) (nbs : List (E × Finset V)), nbs.length ≤ n →
      ((∃ x ∈ join g nbs, v ∈ x.2) ↔ (∃ b ∈ nbs, v ∈ b.2)) := by
  intro n
  induction n with
  | zero =>
    intro nbs hn
    have : nbs = [] := List.length_eq_zero.mp (Nat.le_zero.mp hn)
    subst this
    simp [join_nil]
  | succ n ih =>
    intro nbs hn
    cases nbs with
    | nil => simp [join_nil]
    | cons a rest =>
      have hl := (join_inner_sublist g rest a.2).length_le
      simp only [List.length_cons] at hn
      have h1 := ih (join_inner g a.2 rest).2 (by omega)
      have h2 := join_inner_vertices g rest v a.2
      rw [join_cons]
      simp only [List.mem_cons, exists_eq_or_imp]
      rw [h1, h2]

/-- C23: the joining pass loses and invents no vertex and no leader: the vertices of the
surviving neighbourhoods are the vertices of the neighbourhoods before the pass; every
survivor has the leader of a neighbourhood of the input and contains its vertex set (the set
its leader had, when the leaders are distinct); and the first neighbourhood in iteration
order survives as the first. -/
theorem join_keeps_vertices_and_leaders (g : Graph V E) (nbs : List (E × Finset V)) :
    (∀ v, (∃ x ∈ join g nbs, v ∈ x.2) ↔ (∃ b ∈ nbs, v ∈ b.2)) ∧
    (∀ x ∈ join g nbs, ∃ b ∈ nbs, b.1 = x.1 ∧ b.2 ⊆ x.2) ∧
    ((nbs.map Prod.fst).Nodup → ∀ x ∈ join g nbs, ∀ S, (x.1, S) ∈ nbs → S ⊆ x.2) ∧
    (∀ a rest, nbs = a :: rest →
      ∃ S, (join g nbs).head? = some (a.1, S) ∧ a.2 ⊆ S) := by
  have hsup := join_survivor_superset g nbs.length nbs (le_refl _)
  refine ⟨fun v => join_vertices g v nbs.length nbs (le_refl _), hsup, ?_, ?_⟩
  · intro hnd x hx S hS
    obtain ⟨b, hb, hb1, hb2⟩ := hsup x hx
    have : b = (x.1, S) := List.inj_on_of_nodup_map hnd hb hS hb1
    rw [this] at hb2
    exact hb2
  · intro a rest hnbs
    subst hnbs
    rw [join_cons]
    exact ⟨_, rfl, join_inner_subset g rest a.2⟩

end JoinKeeps

/-- Witness of C23: the three neighbourhoods of `forkGraph`. -/
theorem join_keeps_vertices_and_leaders_witness :
    (forkNeighbourhoods.map Prod.fst).Nodup ∧
    join forkGraph forkNeighbourhoods = [(0, {0, 1, 2, 5}), (1, {5, 6})] ∧
    ((∀ v, (∃ x ∈ join forkGraph forkNeighbourhoods, v ∈ x.2) ↔
        (∃ b ∈ forkNeighbourhoods, v ∈ b.2)) ∧
      (∀ x ∈ join forkGraph forkNeighbourhoods,
        ∃ b ∈ forkNeighbourhoods, b.1 = x.1 ∧ b.2 ⊆ x.2) ∧
      ((forkNeighbourhoods.map Prod.fst).Nodup →
        ∀ x ∈ join forkGraph forkNeighbourhoods, ∀ S,
          (x.1, S) ∈ forkNeighbourhoods → S ⊆ x.2) ∧
      (∀ a rest, forkNeighbourhoods = a :: rest →
        ∃ S, (join forkGraph forkNeighbourhoods).head? = some (a.1, S) ∧ a.2 ⊆ S)) :=
  ⟨by decide, by decide, join_keeps_vertices_and_leaders forkGraph forkNeighbourhoods⟩

/-! ## The paths handed to `MergeSequences` -/

section RescoreLemmas

variable {V E : Type} [DecidableEq V] [DecidableEq E]

theorem MergeSequences_ne_undefined (g : Graph V E) (path : List E) (hne : path ≠ []) :
    MergeSequences g path ≠ Outcome.undefined := by
  cases path with
  | nil => exact absurd rfl hne
  | cons e0 rest =>
    unfold MergeSequences
    cases hc : collect_sequences g e0 rest [g.EdgeNucls e0] with
    | ok ss => simp [hc]
    | verify_failed => simp [hc]
    | undefined => exact absurd hc (collect_sequences_ne_undefined g rest e0 _)

theorem mem_set_insert {T : Type} [DecidableEq T] (s : List T) (x y : T) :
    y ∈ set_insert s x ↔ y ∈ s ∨ y = x := by
  unfold set_insert
  split
  · rename_i h
    constructor
    · exact fun hy => Or.inl hy
    · rintro (hy | hy)
      · exact hy
      · exact hy ▸ h
  · simp

theorem rescore_step_nonempty (rescore : Bool) (sets : List (List E) × List (List E))
    (result : PathInfo E)
    (h : (∀ p ∈ sets.1, p ≠ []) ∧ (∀ p ∈ sets.2, p ≠ [])) :
    (∀ p ∈ (rescore_step rescore sets result).1, p ≠ []) ∧
    (∀ p ∈ (rescore_step rescore sets result).2, p ≠ []) := by
  unfold rescore_step
  split
  · rename_i hc
    simp only [Bool.and_eq_true, decide_eq_true_eq] at hc
    have hne : result.path ≠ [] := by
      intro h0
      rw [h0] at hc
      simp at hc
    constructor
    · intro p hp
      rcases (mem_set_insert _ _ _).mp hp with hp | hp
      · exact h.1 p hp
      · exact hp ▸ hne
    · intro p hp
      rcases (mem_set_insert _ _ _).mp hp with hp | hp
      · exact h.2 p hp
      · exact hp ▸ hne
  · exact h

theorem foldl_rescore_step_nonempty (rescore : Bool) (results : List (PathInfo E)) :
    ∀ sets : List (List E) × List (List E),
      (∀ p ∈ sets.1, p ≠ []) ∧ (∀ p ∈ sets.2, p ≠ []) →
      (∀ p ∈ (results.foldl (rescore_step rescore) sets).1, p ≠ []) ∧
      (∀ p ∈ (results.foldl (rescore_step rescore) sets).2, p ≠ []) := by
  induction results with
  | nil => intro sets h; exact h
  | cons r results ih =>
    intro sets h
    rw [List.foldl_cons]
    exact ih _ (rescore_step_nonempty rescore sets r h)

/-- The sets of paths to rescore hold non-empty paths only. -/
theorem collect_rescore_nonempty (save rescore : Bool) (results : List (PathInfo E))
    (to_rescore : List (List E)) (h : ∀ p ∈ to_rescore, p ≠ []) :
    (∀ p ∈ (collect_rescore save rescore results to_rescore).1, p ≠ []) ∧
    (∀ p ∈ (collect_rescore save rescore results to_rescore).2, p ≠ []) := by
  unfold collect_rescore
  split
  · exact foldl_rescore_step_nonempty rescore results _ ⟨by simp, h⟩
  · exact ⟨by simp, h⟩

theorem edges_fa_defined (g : Graph V E) (rescore : Bool) (paths : List (List E))
    (h : ∀ p ∈ paths, p ≠ []) : ∀ o ∈ edges_fa g rescore paths, o ≠ Outcome.undefined := by
  intro o ho
  unfold edges_fa at ho
  split at ho
  · obtain ⟨p, hp, rfl⟩ := List.mem_map.mp ho
    exact MergeSequences_ne_undefined g p (h p hp)
  · cases ho

theorem foldl_rescore_hmm_defined (g : Graph V E) (save rescore : Bool)
    (hmm_results : List (List (PathInfo E))) :
    ∀ st : List (Outcome (List Char)) × List (List E),
      (∀ o ∈ st.1, o ≠ Outcome.undefined) → (∀ p ∈ st.2, p ≠ []) →
      (∀ o ∈ (hmm_results.foldl (rescore_hmm g save rescore) st).1, o ≠ Outcome.undefined) ∧
      (∀ p ∈ (hmm_results.foldl (rescore_hmm g save rescore) st).2, p ≠ []) := by
  induction hmm_results with
  | nil => intro st h1 h2; exact ⟨h1, h2⟩
  | cons results rest ih =>
    intro st h1 h2
    rw [List.foldl_cons]
    have hc := collect_rescore_nonempty save rescore results st.2 h2
    apply ih
    · intro o ho
      unfold rescore_hmm at ho
      rcases List.mem_append.mp ho with ho | ho
      · exact h1 o ho
      · exact edges_fa_defined g rescore _ hc.1 o ho
    · exact hc.2

/-- C24: whatever the results of the HMMs are, every path that `main` hands to
`MergeSequences` is non-empty, so that `continuous_path[0]` is defined in every call: a path
enters `to_rescore_local` and `to_rescore` only when its size is positive, and
`MergeSequences` is called on the members of these two sets only. -/
theorem main_rescore_paths_nonempty (g : Graph V E) (save rescore : Bool)
    (hmm_results : List (List (PathInfo E))) :
    (∀ o ∈ main_rescore g save rescore hmm_results, o ≠ Outcome.undefined) ∧
    (∀ (results : List (PathInfo E)) (to_rescore : List (List E)),
      (∀ p ∈ to_rescore, p ≠ []) →
      (∀ p ∈ (collect_rescore save rescore results to_rescore).1, p ≠ []) ∧
      (∀ p ∈ (collect_rescore save rescore results to_rescore).2, p ≠ [])) ∧
    (∀ p ∈ (hmm_results.foldl (rescore_hmm g save rescore) ([], [])).2, p ≠ []) := by
  have h := foldl_rescore_hmm_defined g save rescore hmm_results ([], [])
    (by simp) (by simp)
  refine ⟨?_, fun results to_rescore hh => collect_rescore_nonempty save rescore results
    to_rescore hh, h.2⟩
  intro o ho
  unfold main_rescore at ho
  rcases List.mem_append.mp ho with ho | ho
  · exact h.1 o ho
  · exact edges_fa_defined g rescore _ h.2 o ho

end RescoreLemmas

/-- Witness of C24: an HMM whose results hold the path `[1, 2]` and an empty path: only
`[1, 2]` is rescored, once for the HMM and once for all HMMs. -/
theorem main_rescore_paths_nonempty_witness :
    main_rescore chainGraph true true [[⟨1, 0, "ACGTCGT", [1, 2]⟩, ⟨1, 1, "", []⟩]]
      = [Outcome.ok ['A', 'C', 'G', 'T', 'C', 'G', 'T'],
          Outcome.ok ['A', 'C', 'G', 'T', 'C', 'G', 'T']] ∧
    (∀ o ∈ main_rescore chainGraph true true [[⟨1, 0, "ACGTCGT", [1, 2]⟩, ⟨1, 1, "", []⟩]],
      o ≠ Outcome.undefined) :=
  ⟨by decide,
    (main_rescore_paths_nonempty chainGraph true true
      [[⟨1, 0, "ACGTCGT", [1, 2]⟩, ⟨1, 1, "", []⟩]]).1⟩

/-! ## Codons with other letters; bounds of the table lookup -/

theorem dignucl_as_nucleotide (c : Nat) :
    dignucl (as_nucleotide c % 256) = dignucl (c % 256) := by
  unfold as_nucleotide
  split
  · rfl
  · rename_i h
    simp only [not_or] at h
    simp [dignucl, h.1, h.2.1, h.2.2]

/-- C25: `dignucl` maps every byte other than `'C'`, `'G'` and `'T'` to 0, the code of `'A'`,
so `to_aa` of a codon equals `to_aa` of the codon in which every byte outside `C`, `G`, `T`
is replaced by `'A'`; `NNN`, `atg` and three NUL bytes all give lysine. -/
theorem to_aa_other_letters :
    (∀ c : Nat, c ≠ 67 → c ≠ 71 → c ≠ 84 → dignucl c = 0) ∧
    dignucl 'A'.toNat = 0 ∧
    (∀ c0 c1 c2 : Nat,
      to_aa c0 c1 c2 = to_aa (as_nucleotide c0) (as_nucleotide c1) (as_nucleotide c2)) ∧
    to_aa 'N'.toNat 'N'.toNat 'N'.toNat = some AminoAcid.LYSINE ∧
    to_aa 'a'.toNat 't'.toNat 'g'.toNat = some AminoAcid.LYSINE ∧
    to_aa 'a'.toNat 't'.toNat 'g'.toNat ≠ some AminoAcid.METHIONINE ∧
    to_aa 0 0 0 = some AminoAcid.LYSINE := by
  refine ⟨?_, by decide, ?_, by decide, by decide, by decide, by decide⟩
  · intro c h1 h2 h3
    simp [dignucl, h1, h2, h3]
  · intro c0 c1 c2
    unfold to_aa codon_to_idx
    rw [dignucl_as_nucleotide, dignucl_as_nucleotide, dignucl_as_nucleotide]

/-- Witness of C25: the byte of `N` is none of `C`, `G`, `T`. -/
theorem to_aa_other_letters_witness :
    'N'.toNat ≠ 67 ∧ 'N'.toNat ≠ 71 ∧ 'N'.toNat ≠ 84 ∧ dignucl 'N'.toNat = 0 :=
  ⟨by decide, by decide, by decide,
    to_aa_other_letters.1 'N'.toNat (by decide) (by decide) (by decide)⟩

theorem dignucl_le (c : Nat) : dignucl c ≤ 3 := by
  unfold dignucl
  split_ifs <;> decide

theorem idx_bound : ∀ a ≤ 3, ∀ b ≤ 3, ∀ c ≤ 3,
    a <<< (2 * 2) ||| b <<< (2 * 1) ||| c <<< (2 * 0) < 64 := by
  decide

theorem codon_to_idx_lt (c0 c1 c2 : Nat) : codon_to_idx c0 c1 c2 < 64 :=
  idx_bound _ (dignucl_le _) _ (dignucl_le _) _ (dignucl_le _)

theorem aa_table_lookup : ∀ k < 64,
    ∃ v, aa_table[k]? = some v ∧ v ≤ 20 ∧ (AminoAcid.of_value v).isSome = true := by
  decide

/-- C30: for all bytes `codon_to_idx` is below 64, the table has 64 entries and each is at
most 20, so the lookup of `to_aa` is in bounds and its result is one of the 21 declared
values; on the letters `A`, `C`, `G`, `T` the function `codon_to_idx` is a bijection onto
`0, ..., 63`; and the array overload of `to_aa` equals `to_aa` of the three entries. -/
theorem to_aa_total :
    (∀ c0 c1 c2 : Nat, codon_to_idx c0 c1 c2 < 64) ∧
    aa_table.length = 64 ∧
    (∀ v ∈ aa_table, v ≤ 20) ∧
    (∀ c0 c1 c2 : Nat, ∃ a, to_aa c0 c1 c2 = some a) ∧
    (∀ n0 n1 n2 m0 m1 m2 : Nucl,
      codon_to_idx n0.byte n1.byte n2.byte = codon_to_idx m0.byte m1.byte m2.byte →
        n0 = m0 ∧ n1 = m1 ∧ n2 = m2) ∧
    (∀ k < 64, ∃ n0 n1 n2 : Nucl, codon_to_idx n0.byte n1.byte n2.byte = k) ∧
    (∀ codon : Fin 3 → Nat, to_aa_array codon = to_aa (codon 0) (codon 1) (codon 2)) := by
  refine ⟨codon_to_idx_lt, by decide, by decide, ?_, by decide, by decide, fun _ => rfl⟩
  intro c0 c1 c2
  obtain ⟨v, hv, _, hsome⟩ := aa_table_lookup _ (codon_to_idx_lt c0 c1 c2)
  obtain ⟨a, ha⟩ := Option.isSome_iff_exists.mp hsome
  exact ⟨a, by simp [to_aa, hv, ha]⟩

/-- Witness of C30: the index 14 is the index of the codon `ATG` and of no other codon over
the four letters. -/
theorem to_aa_total_witness :
    codon_to_idx Nucl.A.byte Nucl.T.byte Nucl.G.byte = 14 ∧
    (∃ n0 n1 n2 : Nucl, codon_to_idx n0.byte n1.byte n2.byte = 14) ∧
    (∀ m0 m1 m2 : Nucl,
      codon_to_idx Nucl.A.byte Nucl.T.byte Nucl.G.byte = codon_to_idx m0.byte m1.byte m2.byte →
        Nucl.A = m0 ∧ Nucl.T = m1 ∧ Nucl.G = m2) :=
  ⟨by decide, to_aa_total.2.2.2.2.2.1 14 (by decide),
    fun m0 m1 m2 => to_aa_total.2.2.2.2.1 Nucl.A Nucl.T Nucl.G m0 m1 m2⟩

/-! ## `FindCoveredEdges` -/

section CoveredLemmas

variable {W : Type}

theorem foldl_covered_step (ideal : Nat → W) (gr_zero : W → Bool) (l : List Nat) :
    ∀ acc : List (Nat × W),
      l.foldl (covered_step ideal gr_zero) acc = acc ++ l.map (fun i => (i, ideal i)) := by
  induction l with
  | nil => intro acc; simp
  | cons i l ih =>
    intro acc
    rw [List.foldl_cons, ih]
    simp [covered_step]

/-- The output of `FindCoveredEdges` lists every position of the path, in decreasing order,
whatever the test `math::gr(w, 0.)` says. -/
theorem FindCoveredEdges_all (ideal : Nat → W) (gr_zero : W → Bool) (size : Nat) :
    FindCoveredEdges ideal gr_zero size
      = (List.range size).reverse.map (fun i => (i, ideal i)) := by
  unfold FindCoveredEdges
  rw [foldl_covered_step]
  simp

end CoveredLemmas

/-- C26: the code keeps the entries whose ideal paired info is not positive. For a path of two
edges with the ideal paired infos 0 (position 0) and 3 (position 1) the output is
`[(1, 3), (0, 0)]`: it holds the position 0 with `pi_ = 0`, on which `math::gr(w, 0.)` is
false, and the divisors of `CountSingleLib` in normalised mode are 3 and 0. -/
theorem FindCoveredEdges_keeps_zero_info :
    FindCoveredEdges (fun i => if i = 0 then (0 : Int) else 3) (fun w => decide (0 < w)) 2
      = [(1, 3), (0, 0)] ∧
    (fun w : Int => decide (0 < w)) 0 = false ∧
    CountSingleLib_divisors (fun i => if i = 0 then (0 : Int) else 3)
      (fun w => decide (0 < w)) 2 (fun _ => false) true = [3, 0] ∧
    (0 : Int) ∈ CountSingleLib_divisors (fun i => if i = 0 then (0 : Int) else 3)
      (fun w => decide (0 < w)) 2 (fun _ => false) true := by
  decide

/-! ## `MultiEdgeDestinations` -/

section MultiEdgeLemmas

variable {V E : Type} [DecidableEq V]

theorem foldl_multi_edge_step_count (g : Graph V E) (u : V) (es : List E) :
    ∀ st : List V × Finset V,
      (es.foldl (multi_edge_step g) st).1.count u
        = st.1.count u +
          (if u ∈ st.2 then (es.map g.EdgeEnd).count u else (es.map g.EdgeEnd).count u - 1) := by
  induction es with
  | nil => intro st; simp
  | cons e es ih =>
    intro st
    rw [List.foldl_cons, ih]
    unfold multi_edge_step
    by_cases hu : g.EdgeEnd e = u
    · subst hu
      by_cases hs : g.EdgeEnd e ∈ st.2
      · simp [hs]
        omega
      · simp [hs]
    · have hu' : ¬ u = g.EdgeEnd e := fun h => hu h.symm
      by_cases hs : g.EdgeEnd e ∈ st.2
      · simp [hs, hu, hu', List.count_cons]
      · simp [hs, hu, hu', List.count_cons]

theorem MultiEdgeDestinations_count (g : Graph V E) (outgoing : V → List E) (v u : V) :
    (MultiEdgeDestinations g outgoing v).count u
      = ((outgoing v).map g.EdgeEnd).count u - 1 := by
  unfold MultiEdgeDestinations
  rw [foldl_multi_edge_step_count]
  simp

theorem eq_singleton_of_count (l : List V) (u : V) (h1 : l.count u = 1)
    (h2 : ∀ u', u' ≠ u → l.count u' = 0) : l = [u] := by
  have hall : ∀ b ∈ l, u = b := by
    intro b hb
    by_contra hne
    have := h2 b (fun h => hne h.symm)
    exact (List.count_pos_iff.mpr hb).ne' this
  have hlen : l.count u = l.length := List.count_eq_length.mpr hall
  have : l = List.replicate l.length u :=
    List.eq_replicate_iff.mpr ⟨rfl, fun b hb => (hall b hb).symm⟩
  rw [this, ← hlen, h1]
  rfl

/-- C27: the list that `MultiEdgeDestinations(v)` returns contains `u` exactly `m - 1` times
(0 times when `m = 0`), where `m` is the number of outgoing edges of `v` that end in `u`;
`SingleMultiEdgeDestination(v)` returns the vertex `u` exactly when `u` is reached by exactly
two edges and no other destination by more than one, and it returns `VertexId(0)` when some
destination is reached by three or more edges. -/
theorem MultiEdgeDestinations_counts (g : Graph V E) (outgoing : V → List E) (v : V) :
    (∀ u, (MultiEdgeDestinations g outgoing v).count u
      = ((outgoing v).map g.EdgeEnd).count u - 1) ∧
    (∀ u, SingleMultiEdgeDestination g outgoing v = some u ↔
      (((outgoing v).map g.EdgeEnd).count u = 2 ∧
        ∀ u', u' ≠ u → ((outgoing v).map g.EdgeEnd).count u' ≤ 1)) ∧
    ((∃ u, 3 ≤ ((outgoing v).map g.EdgeEnd).count u) →
      SingleMultiEdgeDestination g outgoing v = none) := by
  have hcount := MultiEdgeDestinations_count g outgoing v
  refine ⟨hcount, ?_, ?_⟩
  · intro u
    unfold SingleMultiEdgeDestination
    constructor
    · intro h
      split at h
      · rename_i hlen
        obtain ⟨a, ha⟩ := List.length_eq_one.mp hlen
        rw [ha] at h
        simp only [List.head?_cons, Option.some.injEq] at h
        subst h
        constructor
        · have := hcount a
          rw [ha] at this
          simp at this
          omega
        · intro u' hu'
          have := hcount u'
          rw [ha] at this
          simp [List.count_cons, hu'.symm] at this
          omega
      · cases h
    · rintro ⟨h2, hle⟩
      have hl : MultiEdgeDestinations g outgoing v = [u] := by
        apply eq_singleton_of_count
        · rw [hcount, h2]
        · intro u' hu'
          rw [hcount]
          have := hle u' hu'
          omega
      rw [hl]
      simp
  · rintro ⟨u, hu⟩
    unfold SingleMultiEdgeDestination
    have h2 : 2 ≤ (MultiEdgeDestinations g outgoing v).count u := by
      rw [hcount]
      omega
    have hlen : 2 ≤ (MultiEdgeDestinations g outgoing v).length :=
      le_trans h2 (List.count_le_length _ _)
    rw [if_neg (by omega)]

end MultiEdgeLemmas

/-- Witness of C27: a vertex with three edges to the vertex 4 has no single multi-edge
destination; a vertex with two edges to 4 and one to 6 has the destination 4. -/
theorem MultiEdgeDestinations_counts_witness :
    MultiEdgeDestinations chainGraph (fun _ => [3, 3, 5, 3, 5, 7]) 0 = [4, 4, 6] ∧
    SingleMultiEdgeDestination chainGraph (fun _ => [3, 5, 3]) 0 = some 4 ∧
    (∃ u, 3 ≤ (((fun _ : Nat => [3, 3, 5, 3, 5, 7]) 0).map chainGraph.EdgeEnd).count u) ∧
    SingleMultiEdgeDestination chainGraph (fun _ => [3, 3, 5, 3, 5, 7]) 0 = none :=
  ⟨by decide, by decide, ⟨4, by decide⟩,
    (MultiEdgeDestinations_counts chainGraph (fun _ => [3, 3, 5, 3, 5, 7]) 0).2.2
      ⟨4, by decide⟩⟩

/-! ## `EdgesToDelete` -/

section CompressorLemmas

variable {E : Type} [LinearOrder E]

theorem mem_ordered_set_insert (s : List E) (e x : E) :
    x ∈ ordered_set_insert s e ↔ x ∈ s ∨ x = e := by
  unfold ordered_set_insert
  split
  · rename_i h
    constructor
    · exact fun hx => Or.inl hx
    · rintro (hx | hx)
      · exact hx
      · exact hx ▸ h
  · rw [List.mem_orderedInsert]
    exact or_comm

theorem nodup_ordered_set_insert (s : List E) (e : E) (h : s.Nodup) :
    (ordered_set_insert s e).Nodup := by
  unfold ordered_set_insert
  split
  · exact h
  · rename_i hmem
    rw [(List.perm_orderedInsert (· ≤ ·) e s).nodup_iff]
    exact List.nodup_cons.mpr ⟨hmem, h⟩

theorem sorted_ordered_set_insert (s : List E) (e : E) (h : s.Sorted (· ≤ ·)) :
    (ordered_set_insert s e).Sorted (· ≤ ·) := by
  unfold ordered_set_insert
  split
  · exact h
  · exact h.orderedInsert e s

/-- The loop of `EdgesToDelete` from a set `s` that is duplicate-free, ascending and holds no
edge together with its distinct conjugate. -/
theorem foldl_edges_to_delete_step (conjugate : E → E)
    (hinv : ∀ e, conjugate (conjugate e) = e) (rest : List E) :
    ∀ s : List E, s.Nodup → s.Sorted (· ≤ ·) →
      (∀ x ∈ s, x ≠ conjugate x → conjugate x ∉ s) →
      (rest.foldl (edges_to_delete_step conjugate) s).Nodup ∧
      (rest.foldl (edges_to_delete_step conjugate) s).Sorted (· ≤ ·) ∧
      (∀ x ∈ rest.foldl (edges_to_delete_step conjugate) s,
        x ≠ conjugate x → conjugate x ∉ rest.foldl (edges_to_delete_step conjugate) s) ∧
      (∀ x ∈ s, x ∈ rest.foldl (edges_to_delete_step conjugate) s) ∧
      (∀ x ∈ rest.foldl (edges_to_delete_step conjugate) s, x ∈ s ∨ x ∈ rest) ∧
      (∀ e ∈ rest, e ∈ rest.foldl (edges_to_delete_step conjugate) s ∨
        conjugate e ∈ rest.foldl (edges_to_delete_step conjugate) s) := by
  induction rest with
  | nil =>
    intro s h1 h2 h3
    exact ⟨h1, h2, h3, fun x hx => hx, fun x hx => Or.inl hx, fun e he => by cases he⟩
  | cons e rest ih =>
    intro s h1 h2 h3
    rw [List.foldl_cons]
    by_cases hc : conjugate e ∉ s
    · have hstep : edges_to_delete_step conjugate s e = ordered_set_insert s e := by
        simp [edges_to_delete_step, hc]
      rw [hstep]
      have h3' : ∀ x ∈ ordered_set_insert s e, x ≠ conjugate x →
          conjugate x ∉ ordered_set_insert s e := by
        intro x hx hne hcx
        rw [mem_ordered_set_insert] at hx hcx
        rcases hx with hx | hx
        · rcases hcx with hcx | hcx
          · exact h3 x hx hne hcx
          · apply hc
            rw [← hcx, hinv]
            exact hx
        · subst hx
          rcases hcx with hcx | hcx
          · exact hc hcx
          · exact hne hcx.symm
      obtain ⟨r1, r2, r3, r4, r5, r6⟩ := ih (ordered_set_insert s e)
        (nodup_ordered_set_insert s e h1) (sorted_ordered_set_insert s e h2) h3'
      refine ⟨r1, r2, r3, ?_, ?_, ?_⟩
      · intro x hx
        exact r4 x ((mem_ordered_set_insert s e x).mpr (Or.inl hx))
      · intro x hx
        rcases r5 x hx with h | h
        · rcases (mem_ordered_set_insert s e x).mp h with h | h
          · exact Or.inl h
          · exact Or.inr (h ▸ List.mem_cons_self _ _)
        · exact Or.inr (List.mem_cons_of_mem _ h)
      · intro e' he'
        rcases List.mem_cons.mp he' with rfl | he'
        · exact Or.inl (r4 e' ((mem_ordered_set_insert s e' e').mpr (Or.inr rfl)))
        · exact r6 e' he'
    · have hc' : conjugate e ∈ s := by
        by_contra h
        exact hc h
      have hstep : edges_to_delete_step conjugate s e = s := by
        simp [edges_to_delete_step, hc']
      rw [hstep]
      obtain ⟨r1, r2, r3, r4, r5, r6⟩ := ih s h1 h2 h3
      refine ⟨r1, r2, r3, r4, ?_, ?_⟩
      · intro x hx
        rcases r5 x hx with h | h
        · exact Or.inl h
        · exact Or.inr (List.mem_cons_of_mem _ h)
      · intro e' he'
        rcases List.mem_cons.mp he' with rfl | he'
        · exact Or.inr (r4 _ hc')
        · exact r6 e' he'

/-- C28: for a non-empty path and a conjugate map that is an involution, `EdgesToDelete`
returns a duplicate-free (ascending) list of edges of the path that contains `path[0]` and,
for every edge `e` of the path different from its conjugate, exactly one of `e` and
`conjugate(e)`; it never contains both an edge and its distinct conjugate. -/
theorem EdgesToDelete_one_of_each_pair (conjugate : E → E)
    (hinv : ∀ e, conjugate (conjugate e) = e) (path : List E) (hne : path ≠ []) :
    ∃ r, EdgesToDelete conjugate path = Outcome.ok r ∧ r.Nodup ∧ r.Sorted (· ≤ ·) ∧
      (∀ x ∈ r, x ∈ path) ∧
      (∀ e0, path.head? = some e0 → e0 ∈ r) ∧
      (∀ e ∈ path, e ≠ conjugate e →
        (e ∈ r ∨ conjugate e ∈ r) ∧ ¬ (e ∈ r ∧ conjugate e ∈ r)) ∧
      (∀ x, x ≠ conjugate x → ¬ (x ∈ r ∧ conjugate x ∈ r)) := by
  cases path with
  | nil => exact absurd rfl hne
  | cons e0 rest =>
    have hs0 : ordered_set_insert ([] : List E) e0 = [e0] := by
      simp [ordered_set_insert]
    obtain ⟨r1, r2, r3, r4, r5, r6⟩ := foldl_edges_to_delete_step conjugate hinv rest [e0]
      (List.nodup_singleton _) (List.sorted_singleton _)
      (by
        intro x hx hne' hcx
        rw [List.mem_singleton] at hx hcx
        exact hne' (hx.trans hcx.symm))
    refine ⟨_, rfl, ?_, ?_, ?_, ?_, ?_, ?_⟩
    · rw [hs0]; exact r1
    · rw [hs0]; exact r2
    · rw [hs0]
      intro x hx
      rcases r5 x hx with h | h
      · rw [List.mem_singleton] at h
        exact h ▸ List.mem_cons_self _ _
      · exact List.mem_cons_of_mem _ h
    · rw [hs0]
      intro e hhead
      simp only [List.head?_cons, Option.some.injEq] at hhead
      subst hhead
      exact r4 _ (List.mem_singleton.mpr rfl)
    · rw [hs0]
      intro e he hne'
      refine ⟨?_, fun hboth => r3 e hboth.1 hne' hboth.2⟩
      rcases List.mem_cons.mp he with rfl | he
      · exact Or.inl (r4 _ (List.mem_singleton.mpr rfl))
      · exact r6 e he
    · rw [hs0]
      intro x hne' hboth
      exact r3 x hboth.1 hne' hboth.2

end CompressorLemmas

theorem exampleConjugate_involutive : ∀ e, exampleConjugate (exampleConjugate e) = e := by
  intro e
  unfold exampleConjugate
  split_ifs <;> omega

/-- Witness of C28: on the path `4, 2, 3, 5, 7` the edges 3 and 5 are the conjugates of 2 and
4, which are in the set already. -/
theorem EdgesToDelete_one_of_each_pair_witness :
    EdgesToDelete exampleConjugate [4, 2, 3, 5, 7] = Outcome.ok [2, 4, 7] ∧
    ∃ r, EdgesToDelete exampleConjugate [4, 2, 3, 5, 7] = Outcome.ok r ∧ r.Nodup ∧
      r.Sorted (· ≤ ·) ∧
      (∀ x ∈ r, x ∈ [4, 2, 3, 5, 7]) ∧
      (∀ e0, ([4, 2, 3, 5, 7] : List Nat).head? = some e0 → e0 ∈ r) ∧
      (∀ e ∈ [4, 2, 3, 5, 7], e ≠ exampleConjugate e →
        (e ∈ r ∨ exampleConjugate e ∈ r) ∧ ¬ (e ∈ r ∧ exampleConjugate e ∈ r)) ∧
      (∀ x, x ≠ exampleConjugate x → ¬ (x ∈ r ∧ exampleConjugate x ∈ r)) :=
  ⟨by decide, EdgesToDelete_one_of_each_pair exampleConjugate exampleConjugate_involutive
    [4, 2, 3, 5, 7] (by simp)⟩

/-! ## `WeightDEWrapper` -/

section WeightLemmas

variable {D : Type}

theorem extend_segment_length (ops : DoubleOps D) (sum_weight : Nat) (prev : Int)
    (prev_val : Nat) (x : Int) (y : Nat) :
    (extend_segment ops sum_weight prev prev_val x y).length = (x - prev).toNat := by
  unfold extend_segment
  simp only [List.length_map, List.length_range]

/-- The second loop of `ExtendLinear` on ascending keys ends normally and pushes one value
for each integer after `prev` up to the last key. -/
theorem extend_loop_length (ops : DoubleOps D) (sum_weight : Nat) (rest : List (Int × Nat)) :
    ∀ (prev : Int) (prev_val : Nat) (acc : List D) (last : Int),
      List.Chain (· < ·) prev (rest.map Prod.fst) →
      (prev :: rest.map Prod.fst).getLast? = some last →
      ∃ r, extend_loop ops sum_weight prev prev_val rest acc = Outcome.ok r ∧
        (r.length : Int) = acc.length + (last - prev) := by
  induction rest with
  | nil =>
    intro prev prev_val acc last _ hlast
    simp only [List.map_nil, List.getLast?_singleton, Option.some.injEq] at hlast
    subst hlast
    exact ⟨acc, rfl, by simp⟩
  | cons entry rest ih =>
    intro prev prev_val acc last hch hlast
    simp only [List.map_cons, List.chain_cons] at hch
    simp only [List.map_cons, List.getLast?_cons_cons] at hlast
    obtain ⟨r, hr, hlen⟩ := ih entry.1 entry.2
      (acc ++ extend_segment ops sum_weight prev prev_val entry.1 entry.2) last hch.2 hlast
    refine ⟨r, ?_, ?_⟩
    · simp only [extend_loop, hch.1, if_true]
      exact hr
    · rw [hlen, List.length_append, extend_segment_length]
      have := hch.1
      push_cast
      rw [Int.toNat_of_nonneg (by omega)]
      ring

/-- The access of `CountWeight` to `new_hist`, for any wrapper. -/
theorem CountWeight_access (ops : DoubleOps D) (zero : D) (scale : D → D)
    (w : WeightDEWrapper D) (x : Int) :
    CountWeight ops zero scale w x ≠ Outcome.undefined ∧
    (¬ (0 ≤ count_weight_index w x ∧ count_weight_index w x < (w.new_hist.length : Int)) →
      CountWeight ops zero scale w x = Outcome.ok zero) ∧
    ((0 ≤ count_weight_index w x ∧ count_weight_index w x < (w.new_hist.length : Int)) →
      ∃ v, w.new_hist[(count_weight_index w x).toNat]? = some v ∧
        CountWeight ops zero scale w x
          = if ops.le_one v then Outcome.ok (scale v) else Outcome.verify_failed) := by
  by_cases hr : 0 ≤ count_weight_index w x ∧ count_weight_index w x < (w.new_hist.length : Int)
  · have hlt : (count_weight_index w x).toNat < w.new_hist.length := by
      have := hr.1
      have := hr.2
      omega
    have hget : w.new_hist[(count_weight_index w x).toNat]?
        = some (w.new_hist[(count_weight_index w x).toNat]) := List.getElem?_eq_getElem hlt
    have hval : CountWeight ops zero scale w x
        = if ops.le_one (w.new_hist[(count_weight_index w x).toNat])
          then Outcome.ok (scale (w.new_hist[(count_weight_index w x).toNat]))
          else Outcome.verify_failed := by
      unfold CountWeight
      simp only [ge_iff_le, hr.1, hr.2, decide_True, Bool.and_self, Bool.not_true,
        Bool.false_eq_true, if_false, hget]
    refine ⟨?_, fun h => absurd hr h, fun _ => ⟨_, hget, hval⟩⟩
    rw [hval]
    split <;> simp
  · have hval : CountWeight ops zero scale w x = Outcome.ok zero := by
      unfold CountWeight
      have : (decide (count_weight_index w x ≥ 0)
          && decide (count_weight_index w x < (w.new_hist.length : Int))) = false := by
        rw [Bool.and_eq_false_iff]
        simp only [decide_eq_false_iff_not, ge_iff_le]
        exact not_and_or.mp hr
      simp only [this, Bool.not_false, if_true]
    refine ⟨?_, fun _ => hval, fun h => absurd h hr⟩
    rw [hval]
    simp

/-- C29: for a non-empty histogram with ascending keys the constructor of `WeightDEWrapper`
ends normally with `new_hist` of `largest key - smallest key + 1` entries and `left_x` the
smallest key; `CountWeight(x)` returns 0 when the index `insert_size - left_x + x - 1` is
outside `[0, size)` and reads `new_hist` at that index, which is in bounds, otherwise. -/
theorem WeightDEWrapper_bounds (ops : DoubleOps D) (zero : D) (scale : D → D)
    (first : Int × Nat) (rest : List (Int × Nat)) (last insert_size : Int)
    (hsorted : List.Chain' (· < ·) ((first :: rest).map Prod.fst))
    (hlast : ((first :: rest).map Prod.fst).getLast? = some last) :
    ∃ w, WeightDEWrapper.create ops (first :: rest) insert_size = Outcome.ok w ∧
      (w.new_hist.length : Int) = last - first.1 + 1 ∧ w.left_x = first.1 ∧
      w.insert_size = insert_size ∧
      ∀ x : Int,
        count_weight_index w x = insert_size - first.1 + x - 1 ∧
        CountWeight ops zero scale w x ≠ Outcome.undefined ∧
        (¬ (0 ≤ count_weight_index w x ∧ count_weight_index w x < (w.new_hist.length : Int)) →
          CountWeight ops zero scale w x = Outcome.ok zero) ∧
        ((0 ≤ count_weight_index w x ∧ count_weight_index w x < (w.new_hist.length : Int)) →
          ∃ v, w.new_hist[(count_weight_index w x).toNat]? = some v ∧
            CountWeight ops zero scale w x
              = if ops.le_one v then Outcome.ok (scale v) else Outcome.verify_failed) := by
  obtain ⟨r, hr, hlen⟩ := extend_loop_length ops (((first :: rest).map Prod.snd).sum) rest
    first.1 first.2
    [ops.div (ops.of_size first.2) (ops.of_size (((first :: rest).map Prod.snd).sum))] last
    hsorted hlast
  refine ⟨⟨r, first.1, insert_size⟩, ?_, ?_, rfl, rfl, ?_⟩
  · simp only [WeightDEWrapper.create, hr]
  · rw [hlen]
    simp
    ring
  · intro x
    exact ⟨rfl, CountWeight_access ops zero scale ⟨r, first.1, insert_size⟩ x⟩

end WeightLemmas

/-- Witness of C29: the histogram with the keys 3, 5 and 6 gives `6 - 3 + 1 = 4` entries. -/
theorem WeightDEWrapper_bounds_witness :
    WeightDEWrapper.create ratOps [(3, 1), (5, 3), (6, 0)] 10
      = Outcome.ok ⟨[1 / 4, 1 / 2, 3 / 4, 0], 3, 10⟩ ∧
    List.Chain' (· < ·) ((((3 : Int), 1) :: [(5, 3), (6, 0)]).map Prod.fst) ∧
    ((((3 : Int), 1) :: [(5, 3), (6, 0)]).map Prod.fst).getLast? = some 6 ∧
    ∃ w, WeightDEWrapper.create ratOps (((3 : Int), 1) :: [(5, 3), (6, 0)]) 10 = Outcome.ok w ∧
      (w.new_hist.length : Int) = 6 - ((3 : Int), 1).1 + 1 ∧ w.left_x = ((3 : Int), 1).1 ∧
      w.insert_size = 10 ∧
      ∀ x : Int,
        count_weight_index w x = 10 - ((3 : Int), 1).1 + x - 1 ∧
        CountWeight ratOps 0 (fun v => 1000 * v) w x ≠ Outcome.undefined ∧
        (¬ (0 ≤ count_weight_index w x ∧ count_weight_index w x < (w.new_hist.length : Int)) →
          CountWeight ratOps 0 (fun v => 1000 * v) w x = Outcome.ok 0) ∧
        ((0 ≤ count_weight_index w x ∧ count_weight_index w x < (w.new_hist.length : Int)) →
          ∃ v, w.new_hist[(count_weight_index w x).toNat]? = some v ∧
            CountWeight ratOps 0 (fun v => 1000 * v) w x
              = if ratOps.le_one v then Outcome.ok ((fun v => 1000 * v) v)
                else Outcome.verify_failed) :=
  ⟨by
      simp [WeightDEWrapper.create, extend_loop, extend_segment, ratOps, List.range_succ]
      norm_num,
    by simp, by simp,
    WeightDEWrapper_bounds ratOps 0 (fun v => 1000 * v) (3, 1) [(5, 3), (6, 0)] 6 10
      (by simp) (by simp)⟩

end Spades
